import Mathlib

deriving instance DecidableEq for Except

/-!
Verification development for the deterministic file-set materialization and
fingerprinting subsystem (`utils.ts`): `computeMetaHash`, `readFiles`,
`checkFolderExists`, `writeFiles`, `normalizeBuffer`, `stripBasePath`.

The embedding models:
* Node's `path.posix` routines (`normalize`, `resolve`, `relative`, `join`) as
  executable functions on strings.  `relative` is computed at the level of the
  segment lists of the two resolved paths; on resolved (normalized, absolute)
  inputs this agrees with Node's character-level scan.
* the filesystem as a finite tree of directories and files; `fs.stat`,
  `fs.mkdir {recursive:true}`, `fs.writeFile` and directory walking as
  functional updates/queries on that tree, with error codes (`ENOENT`,
  `ENOTDIR`, `EEXIST`, `EISDIR`) mirroring Node's errno semantics.
* JavaScript dynamic values handed to `normalizeBuffer` as an inductive type
  (`Buffer`, `Array`, plain object, primitive), including JS number coercion
  (`ToNumber` followed by truncation modulo 256, `NaN ↦ 0`) applied by
  `Buffer.from` to array/object elements.  String-to-number parsing is
  modelled for decimal digit strings; other numeric string formats do not
  occur in any claim.
* the SHA-256 accumulator as the concatenation of the exact byte stream fed to
  it (`hash.update` collects bytes, `digest` returns them): the digest of two
  streams is equal iff the streams are equal, i.e. the hash is modelled as
  collision-free, following the spec's "with overwhelming probability".
  Text fed with `'utf8'` encoding is encoded by a faithful UTF-8 encoder.
* `localeCompare` as code-point lexicographic comparison — a total order, as
  the spec itself states ("locale-aware string comparison (stable, total
  order)"); `Array.prototype.sort` (a stable sort) as stable insertion sort.
  The properties proved depend only on stability and on the comparison being
  a total order.
-/

/-! ## Characters and strings as lists -/

/-- Splits a character list at every occurrence of `sep`; pieces may be empty,
`n` separators yield `n+1` pieces. -/
def splitOnSep (sep : Char) : List Char → List (List Char)
  | [] => [[]]
  | c :: rest =>
    match splitOnSep sep rest with
    | [] => [[]]
    | h :: t => if c = sep then [] :: h :: t else (c :: h) :: t

/-- The `/`-separated pieces of a path string (empty pieces included),
as Node's `normalizeString` scanner sees them. -/
def rawSegs (s : String) : List String :=
  (splitOnSep '/' s.data).map (fun cs => ⟨cs⟩)

/-- Joins segments with `/` (no leading or trailing separator). -/
def joinSegs : List String → String
  | [] => ""
  | [s] => s
  | s :: rest => s ++ "/" ++ joinSegs rest

/-- JavaScript `String.prototype.startsWith`. -/
def strStartsWith (s pre : String) : Bool :=
  pre.data.isPrefixOf s.data

/-- Whether the string ends with a `/` character. -/
def endsWithSlash (s : String) : Bool :=
  s.data.getLast? = some '/'

/-- Code-point lexicographic comparison on character lists (`a ≤ b`).  Models
`localeCompare`: a stable total order on strings; see the header comment. -/
def charListLe : List Char → List Char → Bool
  | [], _ => true
  | _ :: _, [] => false
  | a :: as, b :: bs =>
    if a.toNat < b.toNat then true
    else if b.toNat < a.toNat then false
    else charListLe as bs

/-! ## Node `path.posix` model -/

/-- Node's `normalizeString` segment pass: drops empty and `.` segments, and
resolves `..` against the accumulated stack.  With `allowAboveRoot = true`
(relative paths) unconsumed `..` segments are kept at the front; with
`allowAboveRoot = false` (absolute paths) they are dropped at the root. -/
def normSegsAux (allowAboveRoot : Bool) (acc : List String) : List String → List String
  | [] => acc.reverse
  | s :: rest =>
    if s = "" || s = "." then normSegsAux allowAboveRoot acc rest
    else if s = ".." then
      match acc with
      | [] => normSegsAux allowAboveRoot (if allowAboveRoot then [".."] else []) rest
      | t :: acc' =>
        if t = ".." then normSegsAux allowAboveRoot (".." :: t :: acc') rest
        else normSegsAux allowAboveRoot acc' rest
    else normSegsAux allowAboveRoot (s :: acc) rest

/-- Normalized segment list of a raw segment list. -/
def normSegs (allowAboveRoot : Bool) (segs : List String) : List String :=
  normSegsAux allowAboveRoot [] segs

/-- Node `path.posix.normalize`. -/
def posixNormalize (p : String) : String :=
  if p.data = [] then "." else
  let isAbs := strStartsWith p "/"
  let trail := endsWithSlash p
  let core := joinSegs (normSegs (!isAbs) (rawSegs p))
  let core :=
    if core = "" then (if isAbs then "" else if trail then "./" else ".")
    else (if trail then core ++ "/" else core)
  if isAbs then "/" ++ core else core

/-- Segment list of `path.posix.resolve(p)` run with current working directory
`cwd` (`process.cwd()` is always an absolute path). -/
def resolveSegs (cwd p : String) : List String :=
  if strStartsWith p "/" then normSegs false (rawSegs p)
  else normSegs false (rawSegs (cwd ++ "/" ++ p))

/-- Node `path.posix.resolve` (single argument, explicit cwd). -/
def posixResolve (cwd p : String) : String :=
  "/" ++ joinSegs (resolveSegs cwd p)

/-- Segment-level core of Node `path.posix.relative` on two resolved segment
lists: strip the common prefix, then one `..` per remaining source segment
followed by the remaining target segments. -/
def relSegs : List String → List String → List String
  | [], ts => ts
  | _ :: fs, [] => ".." :: fs.map (fun _ => "..")
  | f :: fs, t :: ts =>
    if f = t then relSegs fs ts
    else (".." :: fs.map (fun _ => "..")) ++ t :: ts

/-- Node `path.posix.relative` (explicit cwd). -/
def posixRelative (cwd fromPath toPath : String) : String :=
  joinSegs (relSegs (resolveSegs cwd fromPath) (resolveSegs cwd toPath))

/-- Node `path.posix.join` of two parts: zero-length parts are skipped, the
rest are joined with `/` and normalized; with no parts the result is `.`. -/
def posixJoin (a b : String) : String :=
  if a = "" && b = "" then "."
  else if a = "" then posixNormalize b
  else if b = "" then posixNormalize a
  else posixNormalize (a ++ "/" ++ b)

/-- The replacement `relativePath.replace(/^\.\/+/g, '')`: one leading `.`
followed by one or more `/` is removed (the `^` anchor fires at most once). -/
def stripDotSlashes : List Char → List Char
  | '.' :: '/' :: rest => rest.dropWhile (fun c => c = '/')
  | cs => cs

/-! ## Error taxonomy -/

/-- Errno codes of the Node `fs` errors reachable in this subsystem. -/
inductive ErrCode where
  | enoent
  | enotdir
  | eexist
  | eisdir
deriving DecidableEq, Repr

/-- The errors thrown by the subsystem.  `fsError` is a Node filesystem error
(it carries the errno code and the offending path, as Node errors do);
`unsupportedDataFormat` is `Error('Unsupported data format for buffer')`
thrown by `normalizeBuffer` (no path); `pathEscape` is the
`Path "..." is not under base path "..."` error thrown by `stripBasePath`. -/
inductive JsError where
  | fsError (code : ErrCode) (path : String)
  | unsupportedDataFormat
  | pathEscape (fullPath basePath : String)
deriving DecidableEq, Repr

/-- `stripBasePath(fullPath, basePath)` from `utils.ts`:
`relative(base, full)`, reject results starting with the two-character string
`".."`, then `posix.normalize` and strip a leading `./`. -/
def stripBasePath (cwd : String) (fullPath basePath : String) : Except JsError String :=
  if strStartsWith (posixRelative cwd basePath fullPath) ".." then
    .error (.pathEscape fullPath basePath)
  else .ok ⟨stripDotSlashes (posixNormalize (posixRelative cwd basePath fullPath)).data⟩

/-! ## JavaScript values and `normalizeBuffer` -/

/-- JavaScript primitive values (the shapes relevant to `normalizeBuffer` and
to `Buffer.from` element coercion). -/
inductive Prim where
  | nullV
  | undef
  | boolV (b : Bool)
  | numV (n : Int)
  | strV (s : String)
deriving DecidableEq, Repr

/-- Decimal-digit parse used by the string case of `ToNumber`. -/
def parseDecDigits : List Char → Option Nat
  | [] => none
  | cs =>
    if cs.all Char.isDigit then
      some (cs.foldl (fun acc c => acc * 10 + (c.toNat - 48)) 0)
    else none

/-- JS whitespace stripped by `ToNumber` on strings (the common cases). -/
def isJsSpace (c : Char) : Bool :=
  c = ' ' || c = '\t' || c = '\n' || c = '\r'

/-- Both-ends whitespace trim, at the character-list level. -/
def jsTrim (cs : List Char) : List Char :=
  ((cs.dropWhile isJsSpace).reverse.dropWhile isJsSpace).reverse

/-- JS `ToNumber` on primitives, `none` denoting `NaN`.  Strings are trimmed;
the empty string is `0`, decimal digit strings parse, anything else is `NaN`
(sufficient for this development; no claim feeds other string shapes). -/
def jsToNumber : Prim → Option Int
  | .nullV => some 0
  | .undef => none
  | .boolV b => some (if b then 1 else 0)
  | .numV n => some n
  | .strV s =>
    match parseDecDigits (jsTrim s.data) with
    | some n => some n
    | none => if jsTrim s.data = [] then some 0 else none

/-- Element coercion performed by `Buffer.from` on array/object values:
`ToNumber`, `NaN ↦ 0`, then truncation modulo 256. -/
def toUint8 (p : Prim) : Nat :=
  match jsToNumber p with
  | none => 0
  | some n => (n % 256).toNat

/-- A JavaScript value as seen by `normalizeBuffer`'s shape dispatch:
a `Buffer` (canonical byte sequence), an `Array`, a plain non-null object
(with its enumerable values in enumeration order), or a primitive
(including `null`, for which `typeof` is `'object'` but the explicit
`data !== null` check falls through to the throw). -/
inductive JsData where
  | buffer (bytes : List Nat)
  | arr (elems : List Prim)
  | obj (entries : List (String × Prim))
  | prim (p : Prim)
deriving DecidableEq, Repr

/-- `normalizeBuffer(data)` from `utils.ts`: a `Buffer` is returned as-is, an
array is converted by `Buffer.from(array)`, a non-null object by
`Buffer.from(Object.values(data))`, and everything else throws. -/
def normalizeBuffer : JsData → Except JsError (List Nat)
  | .buffer bs => .ok bs
  | .arr es => .ok (es.map toUint8)
  | .obj kvs => .ok (kvs.map (fun kv => toUint8 kv.2))
  | .prim _ => .error .unsupportedDataFormat

/-! ## UTF-8 -/

/-- UTF-8 encoding of one scalar value (`hash.update(s, 'utf8')` byte
production). -/
def utf8EncodeChar (c : Char) : List Nat :=
  let n := c.toNat
  if n < 128 then [n]
  else if n < 2048 then [192 + n / 64, 128 + n % 64]
  else if n < 65536 then [224 + n / 4096, 128 + n / 64 % 64, 128 + n % 64]
  else [240 + n / 262144, 128 + n / 4096 % 64, 128 + n / 64 % 64, 128 + n % 64]

/-- UTF-8 byte sequence of a string. -/
def utf8Encode (s : String) : List Nat :=
  s.data.flatMap utf8EncodeChar

/-! ## The `File` record -/

/-- Write-time options (`WriteFileOptions`); only the permission mode is
carried, it affects on-disk metadata that no claim observes. -/
structure WriteOptions where
  mode : Option Nat := none
deriving DecidableEq, Repr

/-- The `File` interface from `types.ts`. -/
structure File where
  name : String
  parentPath : String
  path : String
  data : JsData
  options : Option WriteOptions := none
deriving DecidableEq, Repr

/-- The sort key `` `${parentPath}/${name}` `` used by `computeMetaHash`. -/
def sortKey (f : File) : String :=
  f.parentPath ++ "/" ++ f.name

/-- The comparator of the `sort` call in `computeMetaHash` (see the header
comment on the `localeCompare` model). -/
def keyLe (a b : File) : Prop :=
  charListLe (sortKey a).data (sortKey b).data = true

instance : DecidableRel keyLe := fun _ _ =>
  inferInstanceAs (Decidable (_ = true))

/-- The sorted copy `[...files].sort(...)` of `computeMetaHash`: a stable sort
by the comparator (JS `Array.prototype.sort` is stable). -/
def sortFiles (files : List File) : List File :=
  List.insertionSort keyLe files

/-- The bytes one record contributes to the SHA-256 stream:
UTF-8 of `` `${parentPath}:${name}:` ``, the normalized content, then a
newline delimiter.  Propagates the `normalizeBuffer` throw. -/
def hashChunk (f : File) : Except JsError (List Nat) := do
  let bytes ← normalizeBuffer f.data
  return utf8Encode (f.parentPath ++ ":" ++ f.name ++ ":") ++ bytes ++ [10]

/-- Per-record chunks in order, stopping at the first throw (the `forEach`
body throws out of `computeMetaHash`). -/
def hashChunks : List File → Except JsError (List (List Nat))
  | [] => .ok []
  | f :: rest => do
    let c ← hashChunk f
    let cs ← hashChunks rest
    return c :: cs

/-- `computeMetaHash(files)` from `utils.ts`, with the digest modelled as the
byte stream fed to the SHA-256 accumulator (see the header comment). -/
def computeMetaHash (files : List File) : Except JsError (List Nat) := do
  let chunks ← hashChunks (sortFiles files)
  return chunks.flatten

/-! ## Filesystem model -/

/-- A filesystem subtree: a regular file with its content bytes, or a
directory given by its entry chain in enumeration order (`dirNil` /
`dirCons name child rest` encode the entry list `[(name, child), ...]`;
the chain encoding keeps every recursion structural).  Symbolic links and
other entry kinds do not occur in any claim. -/
inductive FsNode where
  | file (data : List Nat)
  | dirNil
  | dirCons (name : String) (child rest : FsNode)
deriving DecidableEq, Repr

/-- `stats.isDirectory()` for a successfully stat-ed node. -/
def FsNode.isDirectory : FsNode → Bool
  | .file _ => false
  | _ => true

/-- Looks up a directory entry by name in an entry chain. -/
def findEntry? : FsNode → String → Option FsNode
  | .dirCons n t rest, s => if n = s then some t else findEntry? rest s
  | _, _ => none

/-- Replaces the entry named `s` (which must exist) with `t` in an entry
chain, in place. -/
def setEntry : FsNode → String → FsNode → FsNode
  | .dirCons n t₀ rest, s, t =>
    if n = s then .dirCons n t rest else .dirCons n t₀ (setEntry rest s t)
  | d, _, _ => d

/-- Appends a new entry at the end of an entry chain (Node directory
enumeration lists entries in creation order). -/
def appendEntry : FsNode → String → FsNode → FsNode
  | .dirCons n t rest, s, t' => .dirCons n t (appendEntry rest s t')
  | _, s, t' => .dirCons s t' .dirNil

/-- Resolves a segment path in the tree, with Node's errno semantics:
a missing entry is `ENOENT`, traversal through a regular file is `ENOTDIR`. -/
def lookupNode : FsNode → List String → Except ErrCode FsNode
  | n, [] => .ok n
  | .file _, _ :: _ => .error .enotdir
  | d, s :: rest =>
    match findEntry? d s with
    | none => .error .enoent
    | some c => lookupNode c rest

/-- `checkFolderExists(path)` from `utils.ts`: `fs.stat`, `isDirectory()` on
success, `false` on `ENOENT`, rethrow anything else. -/
def checkFolderExists (root : FsNode) (cwd path : String) : Except JsError Bool :=
  match lookupNode root (resolveSegs cwd path) with
  | .ok stats => .ok stats.isDirectory
  | .error .enoent => .ok false
  | .error c => .error (.fsError c path)

/-- The directory chain created for the missing tail of a recursive mkdir. -/
def mkChain : List String → FsNode
  | [] => .dirNil
  | s :: rest => .dirCons s (mkChain rest) .dirNil

/-- `fs.mkdir(path, {recursive: true})`: creates all missing directories;
an existing directory at the target is fine, an existing file at the target
is `EEXIST`, a file on the way is `ENOTDIR`. -/
def mkdirRec : FsNode → List String → Except ErrCode FsNode
  | .file _, [] => .error .eexist
  | d, [] => .ok d
  | .file _, _ :: _ => .error .enotdir
  | d, s :: rest =>
    match findEntry? d s with
    | some c => do
      let c' ← mkdirRec c rest
      return setEntry d s c'
    | none => .ok (appendEntry d s (mkChain rest))

/-- `fs.writeFile(path, data)` (truncate-or-create): the parent directory must
already exist (`ENOENT` otherwise, `ENOTDIR` through a file), the target must
not be a directory (`EISDIR`); an existing file is replaced, a new entry is
appended at the end of the parent's entry chain. -/
def writeFileNode : FsNode → List String → List Nat → Except ErrCode FsNode
  | .file _, _, _ => .error .enotdir
  | _, [], _ => .error .eisdir
  | d, [s], bytes =>
    match findEntry? d s with
    | some (.file _) => .ok (setEntry d s (.file bytes))
    | some _ => .error .eisdir
    | none => .ok (appendEntry d s (.file bytes))
  | d, s :: rest, bytes =>
    match findEntry? d s with
    | none => .error .enoent
    | some c => do
      let c' ← writeFileNode c rest bytes
      return setEntry d s c'

/-- The write of one record's content inside the `writeFiles` loop:
`normalizeBuffer` (throws on bad data), then
`fs.writeFile(join(targetDir, file.name), ...)`. -/
def writeData (cwd : String) (root : FsNode) (targetDir : String) (f : File) :
    FsNode × Option JsError :=
  match normalizeBuffer f.data with
  | .error e => (root, some e)
  | .ok bytes =>
    match writeFileNode root (resolveSegs cwd (posixJoin targetDir f.name)) bytes with
    | .error c => (root, some (.fsError c (posixJoin targetDir f.name)))
    | .ok root' => (root', none)

/-- One iteration of the `writeFiles` loop: ensure
`join(workDir, file.parentPath)` exists (recursive mkdir when
`checkFolderExists` says it does not), then write the content. -/
def writeOne (cwd workDir : String) (root : FsNode) (f : File) :
    FsNode × Option JsError :=
  match checkFolderExists root cwd (posixJoin workDir f.parentPath) with
  | .error e => (root, some e)
  | .ok true => writeData cwd root (posixJoin workDir f.parentPath) f
  | .ok false =>
    match mkdirRec root (resolveSegs cwd (posixJoin workDir f.parentPath)) with
    | .error c => (root, some (.fsError c (posixJoin workDir f.parentPath)))
    | .ok root' => writeData cwd root' (posixJoin workDir f.parentPath) f

/-- The `for..of` loop of `writeFiles`: aborts at the first failing record,
leaving everything already written in place. -/
def writeLoop (cwd workDir : String) : FsNode → List File → FsNode × Option JsError
  | root, [] => (root, none)
  | root, f :: rest =>
    match writeOne cwd workDir root f with
    | (root', none) => writeLoop cwd workDir root' rest
    | (root', some e) => (root', some e)

/-- The prelude of `writeFiles`: ensure the working directory itself exists,
creating it recursively when `checkFolderExists` reports it absent. -/
def ensureWorkDir (cwd : String) (root : FsNode) (workDir : String) :
    FsNode × Option JsError :=
  match checkFolderExists root cwd workDir with
  | .error e => (root, some e)
  | .ok true => (root, none)
  | .ok false =>
    match mkdirRec root (resolveSegs cwd workDir) with
    | .error c => (root, some (.fsError c workDir))
    | .ok root' => (root', none)

/-- `writeFiles(workDir, files)` from `utils.ts`.  Returns the filesystem
state it leaves behind together with either the thrown error or the returned
digest `computeMetaHash(files)`. -/
def writeFiles (cwd : String) (root : FsNode) (workDir : String) (files : List File) :
    FsNode × Except JsError (List Nat) :=
  match ensureWorkDir cwd root workDir with
  | (root', some e) => (root', .error e)
  | (root', none) =>
    match writeLoop cwd workDir root' files with
    | (root'', some e) => (root'', .error e)
    | (root'', none) => (root'', computeMetaHash files)

/-- `readFiles`'s directory iteration (`for await (const entry of dirHandle)`),
walking the already-captured subtree: a subdirectory entry contributes its
recursive walk, a file entry contributes one record with `parentPath`/`path`
computed through `stripBasePath` against `baseDir`; the first throw aborts
the whole walk. -/
def readEntries (cwd baseDir : String) : FsNode → String → Except JsError (List File)
  | .dirCons entryName (.file d) rest, dir => do
    let relativeParent ← stripBasePath cwd dir baseDir
    let relativePath ← stripBasePath cwd (posixJoin dir entryName) baseDir
    let others ← readEntries cwd baseDir rest dir
    return { name := entryName
             parentPath := "./" ++ relativeParent
             path := "./" ++ relativePath
             data := .buffer d
             options := none } :: others
  | .dirCons entryName sub rest, dir => do
    let subFiles ← readEntries cwd baseDir sub (posixJoin dir entryName)
    let others ← readEntries cwd baseDir rest dir
    return subFiles ++ others
  | _, _ => .ok []

/-- `readFiles(dir, baseDir)` from `utils.ts` (the export defaults `baseDir`
to `dir`): `fs.opendir(dir)` (which fails on a missing path or a non-
directory) then the walk. -/
def readFiles (cwd : String) (root : FsNode) (dir baseDir : String) : Except JsError (List File) :=
  match lookupNode root (resolveSegs cwd dir) with
  | .error c => .error (.fsError c dir)
  | .ok (.file _) => .error (.fsError .enotdir dir)
  | .ok d => readEntries cwd baseDir d dir

/-! ## Derived notions used by the claim statements -/

/-- The absolute path string with the given segments. -/
def absOf (segs : List String) : String :=
  "/" ++ joinSegs segs

/-- A canonical path segment: nonempty, separator-free, not a dot segment
(the names real directory entries can have). -/
def canonicalSeg (s : String) : Bool :=
  s ≠ "" && !s.data.contains '/' && s ≠ "." && s ≠ ".."

/-- A raw path segment the normalization skip pass can see without consulting
the `..` stack: empty, `.`, or a canonical segment. -/
def looseSeg (x : String) : Prop :=
  x = "" ∨ x = "." ∨ canonicalSeg x = true

/-- Parses a canonical relative parent path of the data model: `"./"` for the
root, otherwise `"./"` followed by `/`-separated canonical segments with no
trailing slash. -/
def parsedParent (pp : String) : Option (List String) :=
  match pp.data with
  | '.' :: '/' :: rest =>
    if rest = [] then some []
    else
      let segs := (splitOnSep '/' rest).map (fun cs => (⟨cs⟩ : String))
      if segs.all canonicalSeg then some segs else none
  | _ => none

/-- A record observing the data-model invariants of §3: canonical
`parentPath`, canonical `name`, `path` equal to `parentPath` joined with
`name`, and `Buffer` content. -/
def wellFormedFile (f : File) : Bool :=
  match parsedParent f.parentPath with
  | none => false
  | some psegs =>
    canonicalSeg f.name &&
    f.path = "./" ++ joinSegs (psegs ++ [f.name]) &&
    (match f.data with | .buffer _ => true | _ => false)

/-- The target path of a record relative to the work directory, as segments. -/
def relTarget (f : File) : List String :=
  match parsedParent f.parentPath with
  | some psegs => psegs ++ [f.name]
  | none => [f.name]

/-- The content bytes of a record whose `data` is a `Buffer`. -/
def bufferBytes (f : File) : List Nat :=
  match f.data with
  | .buffer bs => bs
  | _ => []

/-- The (`parentPath`, `name`, content) triple of a record — exactly the
fields `computeMetaHash` feeds to the hash (`path` and `options` are not
hashed). -/
def fileTriple (f : File) : String × String × JsData :=
  (f.parentPath, f.name, f.data)

/-- Characters that can act as delimiters inside the hash stream. -/
def safeChar (c : Char) : Bool :=
  c ≠ ':' && c ≠ '\n'

/-- A record whose hash-stream encoding is unambiguous: no `:` or newline in
`parentPath`/`name`, and `Buffer` content free of the newline byte. -/
def safeFile (f : File) : Bool :=
  f.parentPath.data.all safeChar && f.name.data.all safeChar &&
  (match f.data with | .buffer bs => bs.all (fun b => b ≠ 10) | _ => false)

/-- All files in a subtree, as (segment path, content) pairs in walk order. -/
def filesOfNode : FsNode → List (List String × List Nat)
  | .file d => [([], d)]
  | .dirNil => []
  | .dirCons n c rest =>
    (filesOfNode c).map (fun sd => (n :: sd.1, sd.2)) ++ filesOfNode rest

/-- Entry names of a subtree are canonical segments (true of any tree that
mirrors a real directory hierarchy: entry names never contain `/` and are
never `.` or `..`). -/
def wellFormedTree : FsNode → Bool
  | .file _ => true
  | .dirNil => true
  | .dirCons n c rest => canonicalSeg n && wellFormedTree c && wellFormedTree rest

/-- No top-level entry name of the walked directory begins with the
two-character string `".."`. -/
def topNamesOk : FsNode → Bool
  | .dirCons n _ rest => !strStartsWith n ".." && topNamesOk rest
  | _ => true

/-- The chain encoding is proper: every `rest` position of a directory chain
is again a chain (never a file), as holds for every tree that encodes a real
directory.  Children may be files or proper chains. -/
def chainOk : FsNode → Bool
  | .file _ => false
  | .dirNil => true
  | .dirCons _ c rest =>
    (match c with | .file _ => true | c' => chainOk c') && chainOk rest

/-- The chain condition on a directory entry's child: a file, or a proper
chain. -/
def childOk : FsNode → Bool
  | .file _ => true
  | x => chainOk x

/-- Every directory strictly below the node, as its segment path (files
contribute nothing). -/
def dirPaths : FsNode → List (List String)
  | .dirCons n c rest =>
    (match c with
     | .file _ => []
     | c' => [n] :: (dirPaths c').map (n :: ·)) ++ dirPaths rest
  | _ => []

/-- The directory paths contributed by one entry `(s, x)`. -/
def entryDirs (s : String) : FsNode → List (List String)
  | .file _ => []
  | x => [s] :: (dirPaths x).map (s :: ·)

/-- Entry names are unique within each directory of the subtree. -/
def uniqueNames : FsNode → Bool
  | .file _ => true
  | .dirNil => true
  | .dirCons n c rest => (findEntry? rest n).isNone && uniqueNames c && uniqueNames rest

/-- State `t'` retains everything already on disk in state `t`: every file
is still present with identical content, and every directory is still a
directory. -/
def preservedFs (t t' : FsNode) : Prop :=
  (∀ p d, lookupNode t p = .ok (.file d) → lookupNode t' p = .ok (.file d)) ∧
  (∀ p n, lookupNode t p = .ok n → n.isDirectory = true →
    ∃ n', lookupNode t' p = .ok n' ∧ n'.isDirectory = true)

/-- The record `readFiles` builds for the file `name` (content `d`) in the
directory at segment path `p` below the walk root. -/
def mkWalkRecord (p : List String) (n : String) (d : List Nat) : File :=
  { name := n
    parentPath := "./" ++ (if p = [] then "." else joinSegs p)
    path := "./" ++ joinSegs (p ++ [n])
    data := .buffer d
    options := none }

/-- The record list a successful walk of the subtree `t` (sitting at segment
path `p` below the walk root) produces. -/
def expectedRecords (p : List String) : FsNode → List File
  | .dirCons n (.file d) rest => mkWalkRecord p n d :: expectedRecords p rest
  | .dirCons n c rest => expectedRecords (p ++ [n]) c ++ expectedRecords p rest
  | _ => []

/-- The byte length of a UTF-8 sequence, read off its first byte. -/
def utf8Len (b : Nat) : Nat :=
  if b < 192 then 1 else if b < 224 then 2 else if b < 240 then 3 else 4

/-- Decodes one UTF-8 sequence back to its scalar value. -/
def utf8Decode1 : List Nat → Nat
  | [b] => b
  | [b, b1] => (b - 192) * 64 + (b1 - 128)
  | [b, b1, b2] => (b - 224) * 4096 + (b1 - 128) * 64 + (b2 - 128)
  | [b, b1, b2, b3] => (b - 240) * 262144 + (b1 - 128) * 4096 + (b2 - 128) * 64 + (b3 - 128)
  | _ => 0

/-- The bytes a record with `Buffer` content contributes to the hash
stream. -/
def hashChunkVal (f : File) : List Nat :=
  utf8Encode (f.parentPath ++ ":" ++ f.name ++ ":") ++ bufferBytes f ++ [10]

/-! # Theorems -/

/-! ## Claim C2: `checkFolderExists` -/

/-- C2, counterexample.  A path that exists as a regular file: `stat`
succeeds, `isDirectory()` is `false`, so `checkFolderExists` returns
`Except.ok false` — the same answer as "does not exist" — rather than
failing with a filesystem error as the claim states. -/
theorem checkFolderExists_file_counterexample :
    lookupNode (.dirCons "f" (.file []) .dirNil) (resolveSegs "/" "/f") =
      .ok (.file []) ∧
    checkFolderExists (.dirCons "f" (.file []) .dirNil) "/" "/f" = .ok false ∧
    ∀ c p, checkFolderExists (.dirCons "f" (.file []) .dirNil) "/" "/f" ≠
      .error (.fsError c p) := by
  refine ⟨rfl, rfl, ?_⟩
  intro c p h
  have h' : (Except.ok false : Except JsError Bool) = .error (.fsError c p) := h
  exact Except.noConfusion h'

/-- C2, amended.  `checkFolderExists` returns `true` when the path stats as a
directory, `false` both when the path does not exist (`ENOENT`) and when it
exists as a regular file, and fails with the underlying filesystem error
(code and path) exactly for every other `stat` failure, e.g. `ENOTDIR`
traversal through a file. -/
theorem checkFolderExists_spec (root : FsNode) (cwd path : String) :
    (∀ bs, lookupNode root (resolveSegs cwd path) = .ok (.file bs) →
      checkFolderExists root cwd path = .ok false) ∧
    (∀ n, lookupNode root (resolveSegs cwd path) = .ok n → n.isDirectory = true →
      checkFolderExists root cwd path = .ok true) ∧
    (lookupNode root (resolveSegs cwd path) = .error .enoent →
      checkFolderExists root cwd path = .ok false) ∧
    (∀ c, lookupNode root (resolveSegs cwd path) = .error c → c ≠ .enoent →
      checkFolderExists root cwd path = .error (.fsError c path)) := by
  refine ⟨?_, ?_, ?_, ?_⟩
  · intro bs h
    simp [checkFolderExists, h, FsNode.isDirectory]
  · intro n h hd
    simp [checkFolderExists, h, hd]
  · intro h
    simp [checkFolderExists, h]
  · intro c h hc
    cases c with
    | enoent => exact absurd rfl hc
    | enotdir => simp [checkFolderExists, h]
    | eexist => simp [checkFolderExists, h]
    | eisdir => simp [checkFolderExists, h]

/-- C2 witness: a directory stats as `true`, a missing path as `false`, and
an `ENOTDIR` traversal (a path below a regular file) fails with the
filesystem error. -/
theorem checkFolderExists_spec_witness :
    checkFolderExists (.dirCons "d" .dirNil .dirNil) "/" "/d" = .ok true ∧
    checkFolderExists (.dirCons "d" .dirNil .dirNil) "/" "/missing" = .ok false ∧
    checkFolderExists (.dirCons "f" (.file [1]) .dirNil) "/" "/f/x" =
      .error (.fsError .enotdir "/f/x") := by
  refine ⟨?_, ?_, ?_⟩
  · exact (checkFolderExists_spec _ "/" "/d").2.1 .dirNil rfl rfl
  · exact (checkFolderExists_spec _ "/" "/missing").2.2.1 rfl
  · exact (checkFolderExists_spec _ "/" "/f/x").2.2.2 .enotdir rfl (by decide)

/-! ## Claim C4: `normalizeBuffer` -/

/-- C4, counterexample.  A non-null object whose enumerable value `300` is
not a byte: the claim demands an `UnsupportedDataFormatError`, but the code
takes the object branch and `Buffer.from` coerces `300` to `300 % 256 = 44`
— it returns a buffer and does not throw. -/
theorem normalizeBuffer_nonByte_counterexample :
    normalizeBuffer (.obj [("a", .numV 300)]) = .ok [44] ∧
    normalizeBuffer (.obj [("a", .numV 300)]) ≠ .error .unsupportedDataFormat := by
  exact ⟨rfl, by decide⟩

/-- C4, amended.  `normalizeBuffer` returns a `Buffer` unchanged, converts an
array of byte values element-wise to exactly those bytes, converts a non-null
object whose enumerable values are bytes by extracting the values in order,
and fails with `UnsupportedDataFormatError` exactly when the input is `null`
or a primitive; any other non-null object is coerced element-wise
(`ToNumber` then truncation mod 256) instead of being rejected. -/
theorem normalizeBuffer_spec :
    (∀ bs, normalizeBuffer (.buffer bs) = .ok bs) ∧
    (∀ ns : List Nat, (∀ n ∈ ns, n < 256) →
      normalizeBuffer (.arr (ns.map (fun n => .numV (Int.ofNat n)))) = .ok ns) ∧
    (∀ kvs : List (String × Nat), (∀ kv ∈ kvs, kv.2 < 256) →
      normalizeBuffer (.obj (kvs.map (fun kv => (kv.1, Prim.numV (Int.ofNat kv.2))))) =
        .ok (kvs.map (fun kv => kv.2))) ∧
    (∀ d : JsData, (∃ e, normalizeBuffer d = .error e) ↔ ∃ p, d = .prim p) := by
  have hbyte : ∀ n : Nat, n < 256 → toUint8 (.numV (Int.ofNat n)) = n := by
    intro n hn
    simp only [toUint8, jsToNumber, Int.ofNat_eq_natCast]
    omega
  refine ⟨fun bs => rfl, ?_, ?_, ?_⟩
  · intro ns h
    have : (ns.map (fun n => Prim.numV (Int.ofNat n))).map toUint8 = ns.map id := by
      rw [List.map_map]
      exact List.map_congr_left (fun n hn => hbyte n (h n hn))
    simpa [normalizeBuffer] using this
  · intro kvs h
    simp only [normalizeBuffer, List.map_map]
    congr 1
    refine List.map_congr_left ?_
    intro kv hkv
    exact hbyte kv.2 (h kv hkv)
  · intro d
    constructor
    · rintro ⟨e, he⟩
      cases d with
      | buffer bs => simp [normalizeBuffer] at he
      | arr es => simp [normalizeBuffer] at he
      | obj kvs => simp [normalizeBuffer] at he
      | prim p => exact ⟨p, rfl⟩
    · rintro ⟨p, rfl⟩
      exact ⟨.unsupportedDataFormat, rfl⟩

/-- C4 witness: the spec's own example — `[104, 105]` and the
buffer of `"hi"` normalize to identical byte sequences, and `null` fails. -/
theorem normalizeBuffer_spec_witness :
    normalizeBuffer (.arr [.numV 104, .numV 105]) = .ok [104, 105] ∧
    normalizeBuffer (.buffer [104, 105]) = .ok [104, 105] ∧
    (∃ e, normalizeBuffer (.prim .nullV) = .error e) := by
  refine ⟨?_, ?_, ?_⟩
  · exact normalizeBuffer_spec.2.1 [104, 105] (by decide)
  · exact normalizeBuffer_spec.1 [104, 105]
  · exact (normalizeBuffer_spec.2.2.2 (.prim .nullV)).mpr ⟨.nullV, rfl⟩

/-! ## Claim C7: `writeFiles` returns the fingerprint of the input -/

/-- C7, confirmed.  When `writeFiles` succeeds, the digest it returns is
exactly `computeMetaHash` of the supplied records: the returned value is
computed from the original in-memory file-set only (the conclusion does not
mention the filesystem at all, for any starting state and any resulting
state). -/
theorem writeFiles_returns_fingerprint (cwd : String) (root : FsNode)
    (workDir : String) (files : List File) (root' : FsNode) (digest : List Nat)
    (h : writeFiles cwd root workDir files = (root', .ok digest)) :
    computeMetaHash files = .ok digest := by
  unfold writeFiles at h
  split at h
  · exact absurd (congrArg Prod.snd h) (by simp)
  · split at h
    · exact absurd (congrArg Prod.snd h) (by simp)
    · exact congrArg Prod.snd h

/-- C7 witness: a concrete successful run. -/
theorem writeFiles_returns_fingerprint_witness :
    computeMetaHash
      [{ name := "a.txt", parentPath := "./", path := "./a.txt",
         data := .buffer [104, 105] }] =
      .ok [46, 47, 58, 97, 46, 116, 120, 116, 58, 104, 105, 10] := by
  exact writeFiles_returns_fingerprint "/" .dirNil "/w" _
    (.dirCons "w" (.dirCons "a.txt" (.file [104, 105]) .dirNil) .dirNil) _ rfl

/-! ## Path infrastructure lemmas -/

/-- Pieces produced by `splitOnSep` never contain the separator. -/
theorem splitOnSep_no_sep (sep : Char) :
    ∀ cs piece, piece ∈ splitOnSep sep cs → sep ∉ piece := by
  intro cs
  induction cs with
  | nil =>
    intro piece hp
    simp [splitOnSep] at hp
    simp [hp]
  | cons c rest ih =>
    intro piece hp
    simp only [splitOnSep] at hp
    rcases hsplit : splitOnSep sep rest with _ | ⟨h, t⟩
    · rw [hsplit] at hp
      simp at hp
      simp [hp]
    · rw [hsplit] at hp
      by_cases hc : c = sep
      · simp [hc] at hp
        rcases hp with hp | hp | hp
        · simp [hp]
        · rw [hp]
          exact ih h (by rw [hsplit]; exact List.mem_cons_self _ _)
        · exact ih piece (by rw [hsplit]; exact List.mem_cons_of_mem _ hp)
      · simp [hc] at hp
        rcases hp with hp | hp
        · intro hm
          rw [hp] at hm
          rcases List.mem_cons.mp hm with h1 | h1
          · exact hc h1.symm
          · exact ih h (by rw [hsplit]; exact List.mem_cons_self _ _) h1
        · exact ih piece (by rw [hsplit]; exact List.mem_cons_of_mem _ hp)

/-- `splitOnSep` never returns the empty list. -/
theorem splitOnSep_ne_nil (sep : Char) (cs : List Char) : splitOnSep sep cs ≠ [] := by
  cases cs with
  | nil => simp [splitOnSep]
  | cons c rest =>
    simp only [splitOnSep]
    rcases hsplit : splitOnSep sep rest with _ | ⟨h, t⟩
    · simp
    · by_cases hc : c = sep <;> simp [hc]

/-- Splitting a separator-free list is the identity piece. -/
theorem splitOnSep_of_no_sep (sep : Char) :
    ∀ cs, sep ∉ cs → splitOnSep sep cs = [cs] := by
  intro cs
  induction cs with
  | nil => intro _; rfl
  | cons c rest ih =>
    intro h
    have hc : c ≠ sep := fun hcc => h (hcc ▸ List.mem_cons_self _ _)
    have hrest : sep ∉ rest := fun hm => h (List.mem_cons_of_mem _ hm)
    simp only [splitOnSep, ih hrest]
    simp [hc]

/-- Splitting at an explicit separator splits off the separator-free head. -/
theorem splitOnSep_append (sep : Char) :
    ∀ xs ys, sep ∉ xs → splitOnSep sep (xs ++ sep :: ys) = xs :: splitOnSep sep ys := by
  intro xs
  induction xs with
  | nil =>
    intro ys _
    simp only [List.nil_append, splitOnSep]
    rcases hsplit : splitOnSep sep ys with _ | ⟨h, t⟩
    · exact absurd hsplit (splitOnSep_ne_nil sep ys)
    · simp
  | cons x rest ih =>
    intro ys h
    have hx : x ≠ sep := fun hcc => h (hcc ▸ List.mem_cons_self _ _)
    have hrest : sep ∉ rest := fun hm => h (List.mem_cons_of_mem _ hm)
    simp only [List.cons_append, splitOnSep, List.append_eq]
    rw [ih ys hrest]
    simp [hx]

/-- Unfolding `canonicalSeg`. -/
theorem canonicalSeg_iff (s : String) :
    canonicalSeg s = true ↔ s ≠ "" ∧ '/' ∉ s.data ∧ s ≠ "." ∧ s ≠ ".." := by
  simp [canonicalSeg, List.contains]
  tauto

/-- A canonical segment has nonempty, slash-free character data. -/
theorem canonicalSeg_data (s : String) (h : canonicalSeg s = true) :
    s.data ≠ [] ∧ '/' ∉ s.data := by
  rcases (canonicalSeg_iff s).mp h with ⟨h1, h2, -, -⟩
  refine ⟨?_, h2⟩
  intro hd
  exact h1 (String.ext hd)

/-- Data of a multi-segment join. -/
theorem joinSegs_cons_data (s : String) (r : String) (rest : List String) :
    (joinSegs (s :: r :: rest)).data = s.data ++ '/' :: (joinSegs (r :: rest)).data := by
  show (s ++ "/" ++ joinSegs (r :: rest)).data = _
  rw [String.data_append, String.data_append]
  have hslash : ("/" : String).data = ['/'] := rfl
  rw [hslash]
  simp

/-- The data of a join of canonical segments is nonempty when the segment
list is. -/
theorem joinSegs_data_ne_nil (segs : List String) (hne : segs ≠ [])
    (h : ∀ x ∈ segs, canonicalSeg x = true) : (joinSegs segs).data ≠ [] := by
  cases segs with
  | nil => exact absurd rfl hne
  | cons s rest =>
    have hs := canonicalSeg_data s (h s (List.mem_cons_self _ _))
    cases rest with
    | nil => exact hs.1
    | cons r rest' =>
      rw [joinSegs_cons_data]
      simp

/-- Splitting the data of a join of canonical segments recovers the
segments. -/
theorem rawSegs_joinSegs (segs : List String) (hne : segs ≠ [])
    (h : ∀ x ∈ segs, canonicalSeg x = true) : rawSegs (joinSegs segs) = segs := by
  induction segs with
  | nil => exact absurd rfl hne
  | cons s rest ih =>
    have hs := canonicalSeg_data s (h s (List.mem_cons_self _ _))
    cases rest with
    | nil =>
      show (splitOnSep '/' s.data).map _ = [s]
      rw [splitOnSep_of_no_sep '/' s.data hs.2]
      rfl
    | cons r rest' =>
      have hrest : ∀ x ∈ r :: rest', canonicalSeg x = true :=
        fun x hx => h x (List.mem_cons_of_mem _ hx)
      have ihr := ih (by simp) hrest
      show (splitOnSep '/' (joinSegs (s :: r :: rest')).data).map _ = _
      rw [joinSegs_cons_data, splitOnSep_append '/' s.data _ hs.2]
      simp only [List.map_cons]
      show (⟨s.data⟩ : String) :: rawSegs (joinSegs (r :: rest')) = s :: r :: rest'
      rw [ihr]

/-- Every output segment of the absolute-path normalization pass comes from
the accumulator or the input, and is neither empty nor a dot segment
(`..` is never pushed when `allowAboveRoot` is `false`). -/
theorem normSegsAux_false_spec :
    ∀ l acc, (∀ x ∈ acc, x ≠ "" ∧ x ≠ "." ∧ x ≠ "..") →
      ∀ x ∈ normSegsAux false acc l,
        (x ∈ acc ∨ x ∈ l) ∧ x ≠ "" ∧ x ≠ "." ∧ x ≠ ".." := by
  intro l
  induction l with
  | nil =>
    intro acc hacc x hx
    simp only [normSegsAux, List.mem_reverse] at hx
    exact ⟨Or.inl hx, hacc x hx⟩
  | cons s rest ih =>
    intro acc hacc x hx
    simp only [normSegsAux] at hx
    by_cases hse : s = "" ∨ s = "."
    · rw [if_pos (by simpa using hse)] at hx
      have := ih acc hacc x hx
      exact ⟨this.1.imp id (List.mem_cons_of_mem _), this.2⟩
    · rw [if_neg (by simpa using hse)] at hx
      by_cases hdd : s = ".."
      · rw [if_pos hdd] at hx
        cases hacc' : acc with
        | nil =>
          rw [hacc'] at hx
          simp only [if_neg (by simp : ¬ false = true)] at hx
          have := ih [] (by simp) x hx
          exact ⟨this.1.imp (by simp) (List.mem_cons_of_mem _), this.2⟩
        | cons t acc' =>
          rw [hacc'] at hx
          dsimp only at hx
          have ht : t ≠ ".." := (hacc t (hacc' ▸ List.mem_cons_self _ _)).2.2
          rw [if_neg ht] at hx
          have hacc'' : ∀ y ∈ acc', y ≠ "" ∧ y ≠ "." ∧ y ≠ ".." :=
            fun y hy => hacc y (hacc' ▸ List.mem_cons_of_mem _ hy)
          have := ih acc' hacc'' x hx
          refine ⟨this.1.imp ?_ (List.mem_cons_of_mem _), this.2⟩
          intro hy
          exact hacc' ▸ List.mem_cons_of_mem _ hy
      · rw [if_neg hdd] at hx
        have hs3 : s ≠ "" ∧ s ≠ "." ∧ s ≠ ".." := by
          constructor
          · intro hc; exact hse (Or.inl hc)
          constructor
          · intro hc; exact hse (Or.inr hc)
          · exact hdd
        have hacc'' : ∀ y ∈ s :: acc, y ≠ "" ∧ y ≠ "." ∧ y ≠ ".." := by
          intro y hy
          rcases List.mem_cons.mp hy with hy | hy
          · exact hy ▸ hs3
          · exact hacc y hy
        have := ih (s :: acc) hacc'' x hx
        refine ⟨?_, this.2⟩
        rcases this.1 with hy | hy
        · rcases List.mem_cons.mp hy with hy | hy
          · exact Or.inr (hy ▸ List.mem_cons_self _ _)
          · exact Or.inl hy
        · exact Or.inr (List.mem_cons_of_mem _ hy)

/-- Normalizing an already clean segment list is the identity (both modes). -/
theorem normSegsAux_clean_id (b : Bool) :
    ∀ l acc, (∀ x ∈ l, x ≠ "" ∧ x ≠ "." ∧ x ≠ "..") →
      normSegsAux b acc l = acc.reverse ++ l := by
  intro l
  induction l with
  | nil => intro acc _; simp [normSegsAux]
  | cons s rest ih =>
    intro acc h
    have hs := h s (List.mem_cons_self _ _)
    have hrest : ∀ x ∈ rest, x ≠ "" ∧ x ≠ "." ∧ x ≠ ".." :=
      fun x hx => h x (List.mem_cons_of_mem _ hx)
    simp only [normSegsAux]
    rw [if_neg (by simp [hs.1, hs.2.1]), if_neg hs.2.2, ih (s :: acc) hrest]
    simp

/-- Every resolved segment is canonical: nonempty, slash-free, not a dot
segment. -/
theorem resolveSegs_canonical (cwd p : String) :
    ∀ x ∈ resolveSegs cwd p, canonicalSeg x = true := by
  intro x hx
  have hmem :
      ∀ s : String, ∀ q ∈ normSegsAux false [] (rawSegs s),
        (q ∈ rawSegs s) ∧ q ≠ "" ∧ q ≠ "." ∧ q ≠ ".." := by
    intro s q hq
    have := normSegsAux_false_spec (rawSegs s) [] (by simp) q hq
    exact ⟨this.1.resolve_left (by simp), this.2⟩
  have hraw : ∀ s : String, ∀ q ∈ rawSegs s, '/' ∉ q.data := by
    intro s q hq
    simp only [rawSegs, List.mem_map] at hq
    obtain ⟨cs, hcs, rfl⟩ := hq
    exact splitOnSep_no_sep '/' s.data cs hcs
  unfold resolveSegs at hx
  split at hx
  · have h1 := hmem p x hx
    rw [canonicalSeg_iff]
    exact ⟨h1.2.1, hraw p x h1.1, h1.2.2.1, h1.2.2.2⟩
  · have h1 := hmem (cwd ++ "/" ++ p) x hx
    rw [canonicalSeg_iff]
    exact ⟨h1.2.1, hraw _ x h1.1, h1.2.2.1, h1.2.2.2⟩

/-- The relative walk from a path to an extension of itself is the added
suffix. -/
theorem relSegs_append : ∀ xs ys : List String, relSegs xs (xs ++ ys) = ys := by
  intro xs
  induction xs with
  | nil => intro ys; rfl
  | cons x rest ih => intro ys; simpa [relSegs] using ih ys

/-- When the target does not extend the source, the relative walk starts
with a `..` segment. -/
theorem relSegs_not_under :
    ∀ fs ts : List String, (∀ rest, ts ≠ fs ++ rest) →
      ∃ out, relSegs fs ts = ".." :: out := by
  intro fs
  induction fs with
  | nil => intro ts h; exact absurd rfl (h ts)
  | cons f fs' ih =>
    intro ts h
    cases ts with
    | nil => exact ⟨fs'.map fun _ => "..", rfl⟩
    | cons t ts' =>
      by_cases hft : f = t
      · subst hft
        have h' : ∀ rest, ts' ≠ fs' ++ rest := by
          intro rest hc
          exact h rest (by rw [hc]; rfl)
        simpa [relSegs] using ih ts' h'
      · exact ⟨fs'.map (fun _ => "..") ++ t :: ts', by simp [relSegs, Ne.symm hft, hft]⟩

/-- The `".."` prefix test on a joined list is decided by its first
segment (for a nonempty first segment). -/
theorem strStartsWith_dotdot_joinSegs (s : String) (rest : List String) (h : s.data ≠ []) :
    strStartsWith (joinSegs (s :: rest)) ".." = strStartsWith s ".." := by
  have hdd : (".." : String).data = ['.', '.'] := rfl
  cases rest with
  | nil => rfl
  | cons r rest' =>
    simp only [strStartsWith, hdd, joinSegs_cons_data]
    rcases hsd : s.data with _ | ⟨c, cs⟩
    · exact absurd hsd h
    · cases cs with
      | nil => simp [List.isPrefixOf]
      | cons d cs' => simp [List.isPrefixOf]

/-- A string whose data starts with a non-slash character does not start
with `"/"`. -/
theorem strStartsWith_slash_false (p : String) (c : Char) (cs : List Char)
    (h : p.data = c :: cs) (hc : c ≠ '/') : strStartsWith p "/" = false := by
  have hsl : ("/" : String).data = ['/'] := rfl
  simp [strStartsWith, hsl, h, List.isPrefixOf, Ne.symm hc]

/-- A join of canonical segments does not end with a slash. -/
theorem endsWithSlash_joinSegs (segs : List String) (hne : segs ≠ [])
    (h : ∀ x ∈ segs, canonicalSeg x = true) : endsWithSlash (joinSegs segs) = false := by
  induction segs with
  | nil => exact absurd rfl hne
  | cons s rest ih =>
    have hs := canonicalSeg_data s (h s (List.mem_cons_self _ _))
    cases rest with
    | nil =>
      simp only [joinSegs, endsWithSlash, decide_eq_false_iff_not]
      intro hlast
      have hmem : '/' ∈ s.data.getLast? := by rw [hlast]; rfl
      obtain ⟨hne', heq⟩ := List.mem_getLast?_eq_getLast hmem
      exact hs.2 (by rw [heq]; exact List.getLast_mem hne')
    | cons r rest' =>
      have hrest : ∀ x ∈ r :: rest', canonicalSeg x = true :=
        fun x hx => h x (List.mem_cons_of_mem _ hx)
      have ihr := ih (by simp) hrest
      have hjne := joinSegs_data_ne_nil (r :: rest') (by simp) hrest
      obtain ⟨j, J', hJ⟩ : ∃ j J', (joinSegs (r :: rest')).data = j :: J' := by
        rcases hd : (joinSegs (r :: rest')).data with _ | ⟨j, J'⟩
        · exact absurd hd hjne
        · exact ⟨j, J', rfl⟩
      simp only [endsWithSlash, joinSegs_cons_data, hJ] at ihr ⊢
      rw [List.getLast?_append_cons, List.getLast?_cons_cons]
      exact ihr

/-- Normalizing a join of canonical segments is the identity (with the empty
join normalizing to `"."`). -/
theorem posixNormalize_clean (segs : List String)
    (h : ∀ x ∈ segs, canonicalSeg x = true) :
    posixNormalize (joinSegs segs) = if segs = [] then "." else joinSegs segs := by
  cases segs with
  | nil => rfl
  | cons s rest =>
    have hs := canonicalSeg_data s (h s (List.mem_cons_self _ _))
    have hclean : ∀ x ∈ s :: rest, x ≠ "" ∧ x ≠ "." ∧ x ≠ ".." := by
      intro x hx
      have := (canonicalSeg_iff x).mp (h x hx)
      exact ⟨this.1, this.2.2.1, this.2.2.2⟩
    have hdata := joinSegs_data_ne_nil (s :: rest) (by simp) h
    obtain ⟨c, cs, hcd⟩ : ∃ c cs, s.data = c :: cs := by
      rcases hsd : s.data with _ | ⟨c, cs⟩
      · exact absurd hsd hs.1
      · exact ⟨c, cs, rfl⟩
    have hcslash : c ≠ '/' := by
      intro hcc
      exact hs.2 (by rw [hcd, hcc]; exact List.mem_cons_self _ _)
    have hjoindata : ∃ tail, (joinSegs (s :: rest)).data = c :: tail := by
      cases rest with
      | nil => exact ⟨cs, hcd⟩
      | cons r rest' => exact ⟨_, by rw [joinSegs_cons_data, hcd]; rfl⟩
    obtain ⟨tail, htail⟩ := hjoindata
    have habs := strStartsWith_slash_false (joinSegs (s :: rest)) c tail htail hcslash
    have htrail := endsWithSlash_joinSegs (s :: rest) (by simp) h
    have hraw := rawSegs_joinSegs (s :: rest) (by simp) h
    have hid := normSegsAux_clean_id true (s :: rest) [] hclean
    have hne'' : joinSegs (s :: rest) ≠ "" := fun hc => hdata (by rw [hc])
    simp only [posixNormalize]
    rw [if_neg hdata]
    simp only [habs, htrail, normSegs, hraw, hid, List.reverse_nil, List.nil_append,
      Bool.not_false]
    simp [hne'']

/-- `stripDotSlashes` leaves any list not starting with `"./"` unchanged. -/
theorem stripDotSlashes_eq_self :
    ∀ cs : List Char, (∀ t, cs ≠ '.' :: '/' :: t) → stripDotSlashes cs = cs := by
  intro cs h
  unfold stripDotSlashes
  split
  · rename_i t
    exact absurd rfl (h t)
  · rfl

/-! ## Claim C3: `stripBasePath` -/

/-- C3, counterexample.  `/a/..foo` resolves to a path strictly under `/a`
(the relative path is the single ordinary segment `..foo`, not a
parent-traversal segment), yet `stripBasePath` throws the escape error,
because the code tests the two-character string prefix `".."` rather than a
`..` path segment. -/
theorem stripBasePath_dotdot_counterexample :
    resolveSegs "/" "/a/..foo" = resolveSegs "/" "/a" ++ ["..foo"] ∧
    "..foo" ≠ ".." ∧
    stripBasePath "/" "/a/..foo" "/a" = .error (.pathEscape "/a/..foo" "/a") := by
  exact ⟨rfl, by decide, rfl⟩

/-- C3, amended.  `stripBasePath(fullPath, basePath)` fails with the escape
error whenever the resolved `fullPath` is not under the resolved `basePath`
— but in general it fails exactly when the computed relative path starts
with the two-character string `".."`, which also covers entries directly
under `basePath` whose name merely begins with two dots.  On success it
returns the forward-slash relative path (the identical-path case yielding
`"."`), with no leading slash and no leading `./`. -/
theorem stripBasePath_spec (cwd fullPath basePath : String) :
    ((∀ rest, resolveSegs cwd fullPath ≠ resolveSegs cwd basePath ++ rest) →
      stripBasePath cwd fullPath basePath = .error (.pathEscape fullPath basePath)) ∧
    (∀ rest, resolveSegs cwd fullPath = resolveSegs cwd basePath ++ rest →
      (∀ s, rest.head? = some s → strStartsWith s ".." = false) →
      stripBasePath cwd fullPath basePath =
        .ok (if rest = [] then "." else joinSegs rest)) := by
  constructor
  · intro hnot
    obtain ⟨out, hout⟩ := relSegs_not_under (resolveSegs cwd basePath)
      (resolveSegs cwd fullPath) (fun rest hc => hnot rest hc)
    have hsw : strStartsWith (posixRelative cwd basePath fullPath) ".." = true := by
      unfold posixRelative
      rw [hout, strStartsWith_dotdot_joinSegs ".." out (by decide)]
      decide
    unfold stripBasePath
    rw [hsw]
    simp
  · intro rest hrest hhead
    have hrel : posixRelative cwd basePath fullPath = joinSegs rest := by
      unfold posixRelative
      rw [hrest, relSegs_append]
    have hclean : ∀ x ∈ rest, canonicalSeg x = true := by
      intro x hx
      exact resolveSegs_canonical cwd fullPath x (by rw [hrest]; exact List.mem_append_right _ hx)
    have hsw : strStartsWith (posixRelative cwd basePath fullPath) ".." = false := by
      rw [hrel]
      cases rest with
      | nil => decide
      | cons s rest' =>
        rw [strStartsWith_dotdot_joinSegs s rest'
          (canonicalSeg_data s (hclean s (List.mem_cons_self _ _))).1]
        exact hhead s rfl
    unfold stripBasePath
    rw [hsw]
    simp only [Bool.false_eq_true, if_false, hrel]
    rw [posixNormalize_clean rest hclean]
    cases rest with
    | nil => rfl
    | cons s rest' =>
      simp only [if_neg (by simp : ¬(s :: rest' = []))]
      have hs := canonicalSeg_data s (hclean s (List.mem_cons_self _ _))
      have hnomatch : ∀ t, (joinSegs (s :: rest')).data ≠ '.' :: '/' :: t := by
        intro t hc
        obtain ⟨c, cs, hcd⟩ : ∃ c cs, s.data = c :: cs := by
          rcases hsd : s.data with _ | ⟨c, cs⟩
          · exact absurd hsd hs.1
          · exact ⟨c, cs, rfl⟩
        have hdot : s ≠ "." := ((canonicalSeg_iff s).mp (hclean s (List.mem_cons_self _ _))).2.2.1
        cases rest' with
        | nil =>
          rw [show joinSegs [s] = s from rfl, hcd] at hc
          cases cs with
          | nil =>
            injection hc with h1 h2
            exact List.noConfusion h2
          | cons d cs' =>
            injection hc with h1 h2
            injection h2 with h3 h4
            exact hs.2 (by rw [hcd, h3]; exact List.mem_cons_of_mem _ (List.mem_cons_self _ _))
        | cons r rest'' =>
          rw [joinSegs_cons_data, hcd] at hc
          cases cs with
          | nil =>
            injection hc with h1 h2
            exact hdot (String.ext (by rw [hcd, h1]))
          | cons d cs' =>
            injection hc with h1 h2
            injection h2 with h3 h4
            exact hs.2 (by rw [hcd, h3]; exact List.mem_cons_of_mem _ (List.mem_cons_self _ _))
      rw [stripDotSlashes_eq_self _ hnomatch]

/-- C3 witness: the spec's two concrete examples.  `resolveRelative` of
`/a/b/c.txt` against `/a/b` is `c.txt`; of `/a/b/../../etc/passwd` against
`/a/b` it fails with the escape error. -/
theorem stripBasePath_spec_witness :
    stripBasePath "/" "/a/b/c.txt" "/a/b" = .ok "c.txt" ∧
    stripBasePath "/" "/a/b/../../etc/passwd" "/a/b" =
      .error (.pathEscape "/a/b/../../etc/passwd" "/a/b") := by
  constructor
  · exact (stripBasePath_spec "/" "/a/b/c.txt" "/a/b").2 ["c.txt"] rfl
      (by intro s hs; injection hs with h; rw [← h]; decide)
  · refine (stripBasePath_spec "/" "/a/b/../../etc/passwd" "/a/b").1 ?_
    intro rest h
    rw [show resolveSegs "/" "/a/b/../../etc/passwd" = ["etc", "passwd"] from rfl,
      show resolveSegs "/" "/a/b" = ["a", "b"] from rfl] at h
    simp at h

/-! ## Filesystem preservation lemmas -/

/-- Preservation is reflexive. -/
theorem preservedFs_refl (t : FsNode) : preservedFs t t :=
  ⟨fun _ _ h => h, fun _ n h hn => ⟨n, h, hn⟩⟩

/-- Preservation composes. -/
theorem preservedFs_trans {a b c : FsNode} (h₁ : preservedFs a b) (h₂ : preservedFs b c) :
    preservedFs a c := by
  refine ⟨fun p d h => h₂.1 p d (h₁.1 p d h), fun p n h hn => ?_⟩
  obtain ⟨n', hn', hd'⟩ := h₁.2 p n h hn
  exact h₂.2 p n' hn' hd'

/-- Replacing the entry `s` leaves the entry found under any other name
unchanged. -/
theorem findEntry?_setEntry_other (t : FsNode) (s q : String) (c' : FsNode)
    (h : q ≠ s) : findEntry? (setEntry t s c') q = findEntry? t q := by
  induction t with
  | file d => rfl
  | dirNil => rfl
  | dirCons n child rest ihc ihr =>
    by_cases hns : n = s
    · have hnq : ¬n = q := fun hc => h (hc ▸ hns ▸ rfl)
      simp [setEntry, findEntry?, hns, hnq, Ne.symm h]
    · simp [setEntry, findEntry?, hns, ihr]

/-- Replacing an existing entry `s` makes lookups of `s` find the
replacement. -/
theorem findEntry?_setEntry_self (t : FsNode) (s : String) (c c' : FsNode)
    (h : findEntry? t s = some c) : findEntry? (setEntry t s c') s = some c' := by
  induction t with
  | file d => simp [findEntry?] at h
  | dirNil => simp [findEntry?] at h
  | dirCons n child rest ihc ihr =>
    by_cases hns : n = s
    · simp [setEntry, hns, findEntry?]
    · simp only [findEntry?, if_neg hns] at h
      simp [setEntry, hns, findEntry?, ihr h]

/-- Lookup after appending a fresh entry: existing entries win, the new
entry is found only when nothing of that name existed. -/
theorem findEntry?_appendEntry (t : FsNode) (s q : String) (x : FsNode) :
    findEntry? (appendEntry t s x) q =
      match findEntry? t q with
      | some c => some c
      | none => if s = q then some x else none := by
  induction t with
  | file d => simp [appendEntry, findEntry?]
  | dirNil => simp [appendEntry, findEntry?]
  | dirCons n child rest ihc ihr =>
    by_cases hnq : n = q
    · simp [appendEntry, findEntry?, hnq]
    · simp only [appendEntry, findEntry?, if_neg hnq]
      exact ihr

/-- Appending an entry to a directory keeps it a directory. -/
theorem appendEntry_isDirectory (t : FsNode) (s : String) (x : FsNode) :
    (appendEntry t s x).isDirectory = true := by
  cases t <;> simp [appendEntry, FsNode.isDirectory]

/-- Replacing an entry of a directory keeps it a directory. -/
theorem setEntry_isDirectory (t : FsNode) (s : String) (x : FsNode)
    (h : t.isDirectory = true) : (setEntry t s x).isDirectory = true := by
  cases t with
  | file d => simp [FsNode.isDirectory] at h
  | dirNil => simp [setEntry, FsNode.isDirectory]
  | dirCons n c r =>
    by_cases hns : n = s <;> simp [setEntry, hns, FsNode.isDirectory]

/-- Lookup of the empty path returns the node itself. -/
theorem lookupNode_nil (t : FsNode) : lookupNode t [] = .ok t := by
  cases t <;> rfl

/-- Lookup of a nonempty path on a directory steps through `findEntry?`. -/
theorem lookupNode_cons_eq (t : FsNode) (q : String) (p : List String)
    (ht : t.isDirectory = true) :
    lookupNode t (q :: p) =
      match findEntry? t q with
      | none => .error .enoent
      | some c => lookupNode c p := by
  cases t with
  | file d => simp [FsNode.isDirectory] at ht
  | dirNil => rfl
  | dirCons n c r => rfl

/-- A fresh entry appended to a directory preserves everything present. -/
theorem preservedFs_appendEntry (t : FsNode) (s : String) (x : FsNode)
    (ht : t.isDirectory = true) : preservedFs t (appendEntry t s x) := by
  constructor
  · intro p d hp
    cases p with
    | nil =>
      rw [lookupNode_nil] at hp
      injection hp with hp
      rw [hp] at ht
      simp [FsNode.isDirectory] at ht
    | cons q p' =>
      rw [lookupNode_cons_eq t q p' ht] at hp
      rw [lookupNode_cons_eq _ q p' (appendEntry_isDirectory _ _ _), findEntry?_appendEntry]
      rcases hq : findEntry? t q with _ | cq
      · rw [hq] at hp; simp at hp
      · rw [hq] at hp; exact hp
  · intro p n hp hd
    cases p with
    | nil =>
      exact ⟨appendEntry t s x, lookupNode_nil _, appendEntry_isDirectory _ _ _⟩
    | cons q p' =>
      rw [lookupNode_cons_eq t q p' ht] at hp
      rw [lookupNode_cons_eq _ q p' (appendEntry_isDirectory _ _ _), findEntry?_appendEntry]
      rcases hq : findEntry? t q with _ | cq
      · rw [hq] at hp; simp at hp
      · rw [hq] at hp; exact ⟨n, hp, hd⟩

/-- Replacing the entry `s` by a state that preserves the old entry's
content preserves the whole tree's content. -/
theorem preservedFs_setEntry (t : FsNode) (s : String) (c c' : FsNode)
    (hfe : findEntry? t s = some c) (hpres : preservedFs c c') :
    preservedFs t (setEntry t s c') := by
  have ht : t.isDirectory = true := by
    cases t with
    | file d => simp [findEntry?] at hfe
    | dirNil => simp [findEntry?] at hfe
    | dirCons n c r => simp [FsNode.isDirectory]
  have ht' := setEntry_isDirectory t s c' ht
  constructor
  · intro p d hp'
    cases p with
    | nil =>
      rw [lookupNode_nil] at hp'
      injection hp' with hp'
      rw [hp'] at ht
      simp [FsNode.isDirectory] at ht
    | cons q p' =>
      rw [lookupNode_cons_eq t q p' ht] at hp'
      rw [lookupNode_cons_eq _ q p' ht']
      by_cases hqs : q = s
      · subst hqs
        rw [hfe] at hp'
        rw [findEntry?_setEntry_self t _ c c' hfe]
        exact hpres.1 p' d hp'
      · rw [findEntry?_setEntry_other t s q c' hqs]
        rcases hq : findEntry? t q with _ | cq
        · rw [hq] at hp'; simp at hp'
        · rw [hq] at hp'; exact hp'
  · intro p n hp' hd
    cases p with
    | nil =>
      exact ⟨setEntry t s c', lookupNode_nil _, ht'⟩
    | cons q p' =>
      rw [lookupNode_cons_eq t q p' ht] at hp'
      rw [lookupNode_cons_eq _ q p' ht']
      by_cases hqs : q = s
      · subst hqs
        rw [hfe] at hp'
        rw [findEntry?_setEntry_self t _ c c' hfe]
        exact hpres.2 p' n hp' hd
      · rw [findEntry?_setEntry_other t s q c' hqs]
        rcases hq : findEntry? t q with _ | cq
        · rw [hq] at hp'; simp at hp'
        · rw [hq] at hp'; exact ⟨n, hp', hd⟩

/-- A successful recursive mkdir only adds directories: every file and every
directory already present is preserved. -/
theorem mkdirRec_preserves :
    ∀ (segs : List String) (t t' : FsNode), mkdirRec t segs = .ok t' →
      preservedFs t t' := by
  intro segs
  induction segs with
  | nil =>
    intro t t' h
    cases t with
    | file d => simp [mkdirRec] at h
    | dirNil =>
      simp only [mkdirRec, Except.ok.injEq] at h
      exact h ▸ preservedFs_refl _
    | dirCons n c r =>
      simp only [mkdirRec, Except.ok.injEq] at h
      exact h ▸ preservedFs_refl _
  | cons s rest ih =>
    intro t t' h
    cases t with
    | file d => simp [mkdirRec] at h
    | dirNil =>
      simp only [mkdirRec, findEntry?, Except.ok.injEq] at h
      exact h ▸ preservedFs_appendEntry .dirNil s (mkChain rest) rfl
    | dirCons n₀ c₀ r₀ =>
      rcases hfe : findEntry? (.dirCons n₀ c₀ r₀) s with _ | c
      · simp only [mkdirRec, hfe, Except.ok.injEq] at h
        exact h ▸ preservedFs_appendEntry _ s (mkChain rest) rfl
      · rcases hmk : mkdirRec c rest with e | c'
        · simp only [mkdirRec, hfe, hmk, bind, Except.bind] at h
          exact absurd h (by simp)
        · simp only [mkdirRec, hfe, hmk, bind, Except.bind, pure, Except.pure,
            Except.ok.injEq] at h
          exact h ▸ preservedFs_setEntry _ s c c' hfe (ih c c' hmk)

/-- Errors of `checkFolderExists` always carry the checked path. -/
theorem checkFolderExists_error_shape (root : FsNode) (cwd path : String) (e : JsError)
    (h : checkFolderExists root cwd path = .error e) : ∃ c, e = .fsError c path := by
  unfold checkFolderExists at h
  rcases hl : lookupNode root (resolveSegs cwd path) with c | n
  · rw [hl] at h
    cases c with
    | enoent => exact absurd h (by simp)
    | enotdir => dsimp only at h; injection h with h'; exact ⟨.enotdir, h'.symm⟩
    | eexist => dsimp only at h; injection h with h'; exact ⟨.eexist, h'.symm⟩
    | eisdir => dsimp only at h; injection h with h'; exact ⟨.eisdir, h'.symm⟩
  · rw [hl] at h
    exact absurd h (by simp)


/-- The only error `normalizeBuffer` can throw. -/
theorem normalizeBuffer_error_shape (d : JsData) (e : JsError)
    (h : normalizeBuffer d = .error e) : e = .unsupportedDataFormat := by
  cases d with
  | prim p =>
    injection h with h'
    exact h'.symm
  | buffer bs => exact absurd h (by simp [normalizeBuffer])
  | arr es => exact absurd h (by simp [normalizeBuffer])
  | obj kvs => exact absurd h (by simp [normalizeBuffer])

/-- A failing content write leaves the filesystem untouched, and its error
is either the data-format error (no path) or a filesystem error carrying the
record's target file path. -/
theorem writeData_failure (cwd : String) (root : FsNode) (targetDir : String)
    (f : File) (root' : FsNode) (e : JsError)
    (h : writeData cwd root targetDir f = (root', some e)) :
    root' = root ∧
      (e = .unsupportedDataFormat ∨ ∃ c, e = .fsError c (posixJoin targetDir f.name)) := by
  unfold writeData at h
  split at h
  · rename_i e₀ hnorm
    injection h with h1 h2
    injection h2 with h2
    exact ⟨h1.symm, Or.inl (by rw [← h2, normalizeBuffer_error_shape _ _ hnorm])⟩
  · split at h
    · injection h with h1 h2
      injection h2 with h2
      exact ⟨h1.symm, Or.inr ⟨_, h2.symm⟩⟩
    · injection h with h1 h2
      exact absurd h2 (by simp)

/-- A failing `writeOne` preserves everything already on disk, and its error
is a filesystem error carrying the record's target directory, a filesystem
error carrying the record's target file path, or the data-format error. -/
theorem writeOne_failure (cwd workDir : String) (root : FsNode) (f : File)
    (root' : FsNode) (e : JsError)
    (h : writeOne cwd workDir root f = (root', some e)) :
    preservedFs root root' ∧
      ((∃ c, e = .fsError c (posixJoin workDir f.parentPath)) ∨
       (∃ c, e = .fsError c (posixJoin (posixJoin workDir f.parentPath) f.name)) ∨
       e = .unsupportedDataFormat) := by
  unfold writeOne at h
  split at h
  · rename_i e₀ hch
    injection h with h1 h2
    injection h2 with h2
    obtain ⟨c, hc⟩ := checkFolderExists_error_shape _ _ _ _ hch
    exact ⟨h1 ▸ preservedFs_refl _, Or.inl ⟨c, by rw [← h2, hc]⟩⟩
  · obtain ⟨h1, h2⟩ := writeData_failure _ _ _ _ _ _ h
    refine ⟨h1 ▸ preservedFs_refl _, ?_⟩
    rcases h2 with h2 | ⟨c, h2⟩
    · exact Or.inr (Or.inr h2)
    · exact Or.inr (Or.inl ⟨c, h2⟩)
  · split at h
    · injection h with h1 h2
      injection h2 with h2
      exact ⟨h1 ▸ preservedFs_refl _, Or.inl ⟨_, h2.symm⟩⟩
    · rename_i root₁ hmk
      obtain ⟨h1, h2⟩ := writeData_failure _ _ _ _ _ _ h
      refine ⟨h1 ▸ mkdirRec_preserves _ _ _ hmk, ?_⟩
      rcases h2 with h2 | ⟨c, h2⟩
      · exact Or.inr (Or.inr h2)
      · exact Or.inr (Or.inl ⟨c, h2⟩)

/-- A failing loop run decomposes into a successful prefix followed by one
failing record; the loop's final state is the failing `writeOne`'s state. -/
theorem writeLoop_failure (cwd workDir : String) :
    ∀ (files : List File) (root root' : FsNode) (e : JsError),
      writeLoop cwd workDir root files = (root', some e) →
      ∃ i f root₂, files[i]? = some f ∧
        writeLoop cwd workDir root (files.take i) = (root₂, none) ∧
        writeOne cwd workDir root₂ f = (root', some e) := by
  intro files
  induction files with
  | nil =>
    intro root root' e h
    simp only [writeLoop] at h
    exact absurd (congrArg Prod.snd h) (by simp)
  | cons f rest ih =>
    intro root root' e h
    simp only [writeLoop] at h
    rcases hw : writeOne cwd workDir root f with ⟨root₁, oe⟩
    rw [hw] at h
    cases oe with
    | none =>
      obtain ⟨i, f', root₂, hget, hloop, hone⟩ := ih root₁ root' e h
      refine ⟨i + 1, f', root₂, by simpa using hget, ?_, hone⟩
      simp only [List.take_succ_cons, writeLoop, hw]
      exact hloop
    | some e₁ =>
      injection h with h1 h2
      injection h2 with h2
      refine ⟨0, f, root, by simp, by simp [writeLoop], ?_⟩
      rw [hw, h1, h2]

/-- A successful content write implies the record's data normalized. -/
theorem writeData_success_normalize (cwd : String) (root : FsNode)
    (targetDir : String) (f : File) (root₁ : FsNode)
    (h : writeData cwd root targetDir f = (root₁, none)) :
    ∃ bs, normalizeBuffer f.data = .ok bs := by
  unfold writeData at h
  split at h
  · exact absurd (congrArg Prod.snd h) (by simp)
  · rename_i bs hnorm
    exact ⟨bs, hnorm⟩

/-- A successful `writeOne` implies the record's data normalized. -/
theorem writeOne_success_normalize (cwd workDir : String) (root : FsNode)
    (f : File) (root₁ : FsNode)
    (h : writeOne cwd workDir root f = (root₁, none)) :
    ∃ bs, normalizeBuffer f.data = .ok bs := by
  unfold writeOne at h
  split at h
  · exact absurd (congrArg Prod.snd h) (by simp)
  · exact writeData_success_normalize _ _ _ _ _ h
  · split at h
    · exact absurd (congrArg Prod.snd h) (by simp)
    · exact writeData_success_normalize _ _ _ _ _ h

/-- A successful loop normalized every record's data. -/
theorem writeLoop_success_normalize (cwd workDir : String) :
    ∀ (files : List File) (root root₁ : FsNode),
      writeLoop cwd workDir root files = (root₁, none) →
      ∀ f ∈ files, ∃ bs, normalizeBuffer f.data = .ok bs := by
  intro files
  induction files with
  | nil => intro root root₁ _ f hf; simp at hf
  | cons g rest ih =>
    intro root root₁ h f hf
    simp only [writeLoop] at h
    rcases hw : writeOne cwd workDir root g with ⟨root₂, oe⟩
    rw [hw] at h
    cases oe with
    | none =>
      rcases List.mem_cons.mp hf with hf | hf
      · exact hf ▸ writeOne_success_normalize _ _ _ _ _ hw
      · exact ih root₂ root₁ h f hf
    | some e₁ => exact absurd (congrArg Prod.snd h) (by simp)

/-- Chunks assemble whenever every record's data normalizes. -/
theorem hashChunks_ok :
    ∀ files : List File, (∀ f ∈ files, ∃ bs, normalizeBuffer f.data = .ok bs) →
      ∃ cs, hashChunks files = .ok cs := by
  intro files
  induction files with
  | nil => intro _; exact ⟨[], rfl⟩
  | cons f rest ih =>
    intro h
    obtain ⟨bs, hbs⟩ := h f (List.mem_cons_self _ _)
    obtain ⟨cs, hcs⟩ := ih (fun g hg => h g (List.mem_cons_of_mem _ hg))
    refine ⟨(utf8Encode (f.parentPath ++ ":" ++ f.name ++ ":") ++ bs ++ [10]) :: cs, ?_⟩
    simp only [hashChunks, hashChunk, hbs, hcs, bind, Except.bind, pure, Except.pure]

/-- The fingerprint is well-defined whenever every record's data
normalizes. -/
theorem computeMetaHash_ok (files : List File)
    (h : ∀ f ∈ files, ∃ bs, normalizeBuffer f.data = .ok bs) :
    ∃ d, computeMetaHash files = .ok d := by
  have hperm := List.perm_insertionSort keyLe files
  obtain ⟨cs, hcs⟩ := hashChunks_ok (sortFiles files)
    (fun f hf => h f (hperm.mem_iff.mp hf))
  exact ⟨cs.flatten, by simp only [computeMetaHash, hcs, bind, Except.bind, pure, Except.pure]⟩

/-! ## Claim C6: failure behavior of `writeFiles` -/

/-- C6, counterexample.  A record with malformed data (`null`): the write
fails while processing it, but the error is the `UnsupportedDataFormatError`
from `normalizeBuffer`, which is not a filesystem error and carries no path
— contradicting "the failure surfaces as a FilesystemError identifying the
offending record's path". -/
theorem writeFiles_dataFormat_counterexample :
    writeFiles "/" .dirNil "/w"
        [{ name := "a.txt", parentPath := "./", path := "./a.txt", data := .prim .nullV }] =
      (.dirCons "w" .dirNil .dirNil, .error .unsupportedDataFormat) ∧
    ∀ c p, (JsError.unsupportedDataFormat : JsError) ≠ .fsError c p := by
  constructor
  · rfl
  · intro c p h
    cases h

/-- C6, amended.  When `writeFiles` fails, either the initial ensure of the
work directory failed (no record processed), or there is an index `i` such
that all records before `i` were written successfully, the `i`-th record's
step failed, processing stopped there (the final state is the one the
failing step left), everything already written — files and directories —
remains on disk unchanged, no digest is returned, and the error is a
filesystem error carrying the record's target directory or target file
path, or the data-format error (which carries no path). -/
theorem writeFiles_aborts_on_failure (cwd : String) (root : FsNode)
    (workDir : String) (files : List File) (root' : FsNode) (e : JsError)
    (h : writeFiles cwd root workDir files = (root', .error e)) :
    ensureWorkDir cwd root workDir = (root', some e) ∨
    ∃ root₁ i f root₂,
      ensureWorkDir cwd root workDir = (root₁, none) ∧
      files[i]? = some f ∧
      writeLoop cwd workDir root₁ (files.take i) = (root₂, none) ∧
      writeOne cwd workDir root₂ f = (root', some e) ∧
      preservedFs root₂ root' ∧
      ((∃ c, e = .fsError c (posixJoin workDir f.parentPath)) ∨
       (∃ c, e = .fsError c (posixJoin (posixJoin workDir f.parentPath) f.name)) ∨
       e = .unsupportedDataFormat) := by
  unfold writeFiles at h
  split at h
  · rename_i root₀ e₀ hens
    injection h with h1 h2
    injection h2 with h2
    exact Or.inl (by rw [hens, h1, h2])
  · rename_i root₁ hens
    split at h
    · rename_i root₂ e₂ hloop
      injection h with h1 h2
      injection h2 with h2
      rw [h1, h2] at hloop
      obtain ⟨i, f, root₃, hget, hpre, hone⟩ := writeLoop_failure cwd workDir files root₁ root' e hloop
      obtain ⟨hpres, hshape⟩ := writeOne_failure cwd workDir root₃ f root' e hone
      exact Or.inr ⟨root₁, i, f, root₃, hens, hget, hpre, hone, hpres, hshape⟩
    · rename_i root₂ hloop
      injection h with h1 h2
      obtain ⟨d, hd⟩ := computeMetaHash_ok files
        (writeLoop_success_normalize cwd workDir files root₁ root₂ hloop)
      rw [hd] at h2
      exact absurd h2 (by simp)

/-- C6 witness: a two-record set whose second record has malformed data.
The first record's file survives on disk, the second fails with the
data-format error after the first was written. -/
theorem writeFiles_aborts_witness :
    ensureWorkDir "/" .dirNil "/w" =
      (.dirCons "w" (.dirCons "a.txt" (.file [104]) .dirNil) .dirNil,
        some .unsupportedDataFormat) ∨
    ∃ root₁ i f root₂,
      ensureWorkDir "/" FsNode.dirNil "/w" = (root₁, none) ∧
      [{ name := "a.txt", parentPath := "./", path := "./a.txt",
         data := JsData.buffer [104], options := none },
       { name := "b.txt", parentPath := "./", path := "./b.txt",
         data := JsData.prim .nullV, options := none }][i]? = some f ∧
      writeLoop "/" "/w" root₁
        ([{ name := "a.txt", parentPath := "./", path := "./a.txt",
            data := JsData.buffer [104], options := none },
          { name := "b.txt", parentPath := "./", path := "./b.txt",
            data := JsData.prim .nullV, options := none }].take i) = (root₂, none) ∧
      writeOne "/" "/w" root₂ f =
        (.dirCons "w" (.dirCons "a.txt" (.file [104]) .dirNil) .dirNil,
          some .unsupportedDataFormat) ∧
      preservedFs root₂
        (.dirCons "w" (.dirCons "a.txt" (.file [104]) .dirNil) .dirNil) ∧
      ((∃ c, JsError.unsupportedDataFormat = .fsError c (posixJoin "/w" f.parentPath)) ∨
       (∃ c, JsError.unsupportedDataFormat =
          .fsError c (posixJoin (posixJoin "/w" f.parentPath) f.name)) ∨
       (JsError.unsupportedDataFormat : JsError) = .unsupportedDataFormat) := by
  exact writeFiles_aborts_on_failure "/" .dirNil "/w"
    [{ name := "a.txt", parentPath := "./", path := "./a.txt",
       data := JsData.buffer [104], options := none },
     { name := "b.txt", parentPath := "./", path := "./b.txt",
       data := JsData.prim .nullV, options := none }]
    (.dirCons "w" (.dirCons "a.txt" (.file [104]) .dirNil) .dirNil)
    .unsupportedDataFormat rfl

/-! ## Sorting lemmas for the fingerprint -/

/-- The comparison is total. -/
theorem charListLe_total : ∀ as bs : List Char,
    charListLe as bs = true ∨ charListLe bs as = true := by
  intro as
  induction as with
  | nil => intro bs; exact Or.inl rfl
  | cons a as' ih =>
    intro bs
    cases bs with
    | nil => exact Or.inr rfl
    | cons b bs' =>
      simp only [charListLe]
      by_cases hab : a.toNat < b.toNat
      · simp [hab]
      · by_cases hba : b.toNat < a.toNat
        · simp [hab, hba]
        · simpa [hab, hba] using ih bs'

/-- The comparison is transitive. -/
theorem charListLe_trans : ∀ as bs cs : List Char,
    charListLe as bs = true → charListLe bs cs = true → charListLe as cs = true := by
  intro as
  induction as with
  | nil => intro bs cs _ _; rfl
  | cons a as' ih =>
    intro bs cs h₁ h₂
    cases bs with
    | nil => simp [charListLe] at h₁
    | cons b bs' =>
      cases cs with
      | nil => simp [charListLe] at h₂
      | cons c cs' =>
        simp only [charListLe] at h₁ h₂ ⊢
        by_cases hab : a.toNat < b.toNat <;> by_cases hbc : b.toNat < c.toNat
        · simp [show a.toNat < c.toNat by omega]
        · rw [if_neg hbc] at h₂
          by_cases hcb : c.toNat < b.toNat
          · simp [hcb] at h₂
          · have : b.toNat = c.toNat := by omega
            simp [show a.toNat < c.toNat by omega]
        · rw [if_neg hab] at h₁
          by_cases hba : b.toNat < a.toNat
          · simp [hba] at h₁
          · have : a.toNat = b.toNat := by omega
            simp [show a.toNat < c.toNat by omega]
        · rw [if_neg hab] at h₁
          rw [if_neg hbc] at h₂
          by_cases hba : b.toNat < a.toNat
          · simp [hba] at h₁
          · by_cases hcb : c.toNat < b.toNat
            · simp [hcb] at h₂
            · rw [if_neg hba] at h₁
              rw [if_neg hcb] at h₂
              have hac : ¬a.toNat < c.toNat := by omega
              have hca : ¬c.toNat < a.toNat := by omega
              rw [if_neg hac, if_neg hca]
              exact ih bs' cs' h₁ h₂

/-- The comparison is antisymmetric: mutually `≤` lists are equal. -/
theorem charListLe_antisymm : ∀ as bs : List Char,
    charListLe as bs = true → charListLe bs as = true → as = bs := by
  intro as
  induction as with
  | nil =>
    intro bs _ h₂
    cases bs with
    | nil => rfl
    | cons b bs' => simp [charListLe] at h₂
  | cons a as' ih =>
    intro bs h₁ h₂
    cases bs with
    | nil => simp [charListLe] at h₁
    | cons b bs' =>
      simp only [charListLe] at h₁ h₂
      by_cases hab : a.toNat < b.toNat
      · rw [if_neg (by omega : ¬b.toNat < a.toNat), if_pos hab] at h₂
        simp at h₂
      · by_cases hba : b.toNat < a.toNat
        · rw [if_neg hab, if_pos hba] at h₁
          simp at h₁
        · rw [if_neg hab, if_neg hba] at h₁
          rw [if_neg hba, if_neg hab] at h₂
          have hnat : a.toNat = b.toNat := by omega
          have hchar : a = b := Char.ext (UInt32.toNat.inj hnat)
          rw [hchar, ih bs' h₁ h₂]

instance : IsTotal File keyLe :=
  ⟨fun a b => by
    rcases charListLe_total (sortKey a).data (sortKey b).data with h | h
    · exact Or.inl h
    · exact Or.inr h⟩

instance : IsTrans File keyLe :=
  ⟨fun _ _ _ h₁ h₂ => charListLe_trans _ _ _ h₁ h₂⟩

/-- Two sorted lists that are permutations of each other are equal, provided
the order is antisymmetric on the elements actually present (a local version
of `eq_of_perm_of_sorted` that does not require global antisymmetry). -/
theorem sorted_perm_eq {α : Type} {r : α → α → Prop} :
    ∀ {l₁ l₂ : List α}, l₁.Perm l₂ → l₁.Sorted r → l₂.Sorted r →
      (∀ a ∈ l₁, ∀ b ∈ l₁, r a b → r b a → a = b) → l₁ = l₂ := by
  intro l₁
  induction l₁ with
  | nil =>
    intro l₂ hp _ _ _
    exact hp.nil_eq
  | cons a t ih =>
    intro l₂ hp hs₁ hs₂ hanti
    have ha₂ : a ∈ l₂ := hp.subset (List.mem_cons_self _ _)
    obtain ⟨u₂, v₂, rfl⟩ := List.append_of_mem ha₂
    have hp' : t.Perm (u₂ ++ v₂) := (List.perm_cons a).1 (hp.trans List.perm_middle)
    have hs₁' := (List.sorted_cons.mp hs₁).2
    have hhead := (List.sorted_cons.mp hs₁).1
    have ht : t = u₂ ++ v₂ := by
      refine ih hp' hs₁' (hs₂.sublist ?_) ?_
      · exact (List.sublist_cons_self a v₂).append_left u₂
      · intro x hx y hy hxy hyx
        exact hanti x (List.mem_cons_of_mem _ hx) y (List.mem_cons_of_mem _ hy) hxy hyx
    subst ht
    have hmemu : ∀ x ∈ u₂, x = a := by
      intro x hx
      have hxa : r x a :=
        (List.pairwise_append.mp hs₂).2.2 x hx a (List.mem_cons_self _ _)
      have hax : r a x := hhead x (List.mem_append_left _ hx)
      exact hanti x (List.mem_cons_of_mem _ (List.mem_append_left _ hx)) a
        (List.mem_cons_self _ _) hxa hax |>.symm ▸
        (hanti a (List.mem_cons_self _ _) x
          (List.mem_cons_of_mem _ (List.mem_append_left _ hx)) hax hxa).symm
    have hrep : u₂ = List.replicate u₂.length a := List.eq_replicate_of_mem hmemu
    rw [hrep]
    rw [show a :: (List.replicate u₂.length a ++ v₂) =
        (a :: List.replicate u₂.length a) ++ v₂ from rfl]
    rw [← List.replicate_succ, List.replicate_succ']
    simp

/-! ## Claim C1: order independence of the fingerprint -/

/-- C1, counterexample.  Two distinct records with the same sort key
`parentPath + "/" + name` (same target path, different content): the stable
sort preserves their relative input order, so the two permutations feed the
accumulator different streams and the digests differ. -/
theorem computeMetaHash_perm_counterexample :
    ([{ name := "a", parentPath := "./", path := "./a", data := JsData.buffer [1],
        options := none },
      { name := "a", parentPath := "./", path := "./a", data := JsData.buffer [0],
        options := none }] : List File).Perm
      [{ name := "a", parentPath := "./", path := "./a", data := JsData.buffer [0],
         options := none },
       { name := "a", parentPath := "./", path := "./a", data := JsData.buffer [1],
         options := none }] ∧
    computeMetaHash
      [{ name := "a", parentPath := "./", path := "./a", data := JsData.buffer [1],
         options := none },
       { name := "a", parentPath := "./", path := "./a", data := JsData.buffer [0],
         options := none }] ≠
    computeMetaHash
      [{ name := "a", parentPath := "./", path := "./a", data := JsData.buffer [0],
         options := none },
       { name := "a", parentPath := "./", path := "./a", data := JsData.buffer [1],
         options := none }] := by
  constructor
  · decide
  · decide

/-- C1, amended.  For every file-set in which any two records sharing the
sort key `parentPath + "/" + name` are identical (in particular, any set
with pairwise distinct target paths), every permutation produces an
identical digest.  The sort operates on a copy (`[...files]`); the
functional model never mutates its input.  Without the key-uniqueness
condition the property fails, because the stable sort preserves the input
order of records with equal keys. -/
theorem computeMetaHash_perm (l₁ l₂ : List File) (hp : l₁.Perm l₂)
    (hk : ∀ a ∈ l₁, ∀ b ∈ l₁, sortKey a = sortKey b → a = b) :
    computeMetaHash l₁ = computeMetaHash l₂ := by
  have hsorted : sortFiles l₁ = sortFiles l₂ := by
    have hperm : (sortFiles l₁).Perm (sortFiles l₂) :=
      ((List.perm_insertionSort keyLe l₁).trans hp).trans
        (List.perm_insertionSort keyLe l₂).symm
    refine sorted_perm_eq hperm (List.sorted_insertionSort keyLe l₁)
      (List.sorted_insertionSort keyLe l₂) ?_
    intro a ha b hb hab hba
    have ha' : a ∈ l₁ := (List.perm_insertionSort keyLe l₁).subset ha
    have hb' : b ∈ l₁ := (List.perm_insertionSort keyLe l₁).subset hb
    refine hk a ha' b hb' ?_
    exact String.ext (charListLe_antisymm _ _ hab hba)
  unfold computeMetaHash
  rw [hsorted]

/-- C1 witness: two records with distinct keys, swapped. -/
theorem computeMetaHash_perm_witness :
    computeMetaHash
      [{ name := "a.txt", parentPath := "./", path := "./a.txt",
         data := JsData.buffer [104], options := none },
       { name := "b.txt", parentPath := "./sub", path := "./sub/b.txt",
         data := JsData.buffer [105], options := none }] =
    computeMetaHash
      [{ name := "b.txt", parentPath := "./sub", path := "./sub/b.txt",
         data := JsData.buffer [105], options := none },
       { name := "a.txt", parentPath := "./", path := "./a.txt",
         data := JsData.buffer [104], options := none }] := by
  exact computeMetaHash_perm _ _ (by decide) (by decide)

/-! ## UTF-8 lemmas -/

/-- Every scalar value is below `0x110000`. -/
theorem char_toNat_lt (c : Char) : c.toNat < 1114112 := by
  have h := c.valid
  simp only [Char.toNat]
  rcases h with h | h <;> omega

/-- A UTF-8 character sequence starts with a byte that determines its
length. -/
theorem utf8EncodeChar_shape (c : Char) :
    ∃ b r, utf8EncodeChar c = b :: r ∧ (b :: r).length = utf8Len b := by
  have hv := char_toNat_lt c
  unfold utf8EncodeChar
  by_cases h1 : c.toNat < 128
  · rw [if_pos h1]
    refine ⟨c.toNat, [], rfl, ?_⟩
    unfold utf8Len
    rw [if_pos (by omega : c.toNat < 192)]
    rfl

  · rw [if_neg h1]
    by_cases h2 : c.toNat < 2048
    · rw [if_pos h2]
      refine ⟨192 + c.toNat / 64, _, rfl, ?_⟩
      unfold utf8Len
      rw [if_neg (by omega), if_pos (by omega)]
      rfl
    · rw [if_neg h2]
      by_cases h3 : c.toNat < 65536
      · rw [if_pos h3]
        refine ⟨224 + c.toNat / 4096, _, rfl, ?_⟩
        unfold utf8Len
        rw [if_neg (by omega), if_neg (by omega), if_pos (by omega)]
        rfl
      · rw [if_neg h3]
        refine ⟨240 + c.toNat / 262144, _, rfl, ?_⟩
        unfold utf8Len
        rw [if_neg (by omega), if_neg (by omega), if_neg (by omega)]
        rfl

/-- Decoding inverts encoding. -/
theorem utf8Decode1_encode (c : Char) : utf8Decode1 (utf8EncodeChar c) = c.toNat := by
  unfold utf8EncodeChar
  by_cases h1 : c.toNat < 128
  · rw [if_pos h1]; rfl
  · rw [if_neg h1]
    by_cases h2 : c.toNat < 2048
    · rw [if_pos h2]
      simp only [utf8Decode1]
      omega
    · rw [if_neg h2]
      by_cases h3 : c.toNat < 65536
      · rw [if_pos h3]
        simp only [utf8Decode1]
        omega
      · rw [if_neg h3]
        simp only [utf8Decode1]
        omega

/-- The encoding of a character is never empty. -/
theorem utf8EncodeChar_ne_nil (c : Char) : utf8EncodeChar c ≠ [] := by
  obtain ⟨b, r, hbr, -⟩ := utf8EncodeChar_shape c
  rw [hbr]
  simp

/-- Low bytes of a character's encoding can only be the character itself:
every byte of a multi-byte sequence is at least 128. -/
theorem utf8EncodeChar_low (c : Char) (b : Nat) (hb : b ∈ utf8EncodeChar c)
    (hlow : b < 128) : c.toNat = b := by
  have hv := char_toNat_lt c
  unfold utf8EncodeChar at hb
  by_cases h1 : c.toNat < 128
  · rw [if_pos h1] at hb
    simp at hb
    omega
  · rw [if_neg h1] at hb
    by_cases h2 : c.toNat < 2048
    · rw [if_pos h2] at hb
      simp at hb
      rcases hb with hb | hb <;> omega
    · rw [if_neg h2] at hb
      by_cases h3 : c.toNat < 65536
      · rw [if_pos h3] at hb
        simp at hb
        rcases hb with hb | hb | hb <;> omega
      · rw [if_neg h3] at hb
        simp at hb
        rcases hb with hb | hb | hb | hb <;> omega

/-- A UTF-8 character sequence followed by arbitrary bytes determines the
character and the remainder (prefix-freedom of UTF-8). -/
theorem utf8EncodeChar_append_inj (c₁ c₂ : Char) (t₁ t₂ : List Nat)
    (h : utf8EncodeChar c₁ ++ t₁ = utf8EncodeChar c₂ ++ t₂) : c₁ = c₂ ∧ t₁ = t₂ := by
  obtain ⟨b₁, r₁, he₁, hl₁⟩ := utf8EncodeChar_shape c₁
  obtain ⟨b₂, r₂, he₂, hl₂⟩ := utf8EncodeChar_shape c₂
  have hb : b₁ = b₂ := by
    rw [he₁, he₂] at h
    simpa using congrArg List.head? h
  have hlen : (utf8EncodeChar c₁).length = (utf8EncodeChar c₂).length := by
    rw [he₁, he₂, hl₁, hl₂, hb]
  obtain ⟨henc, ht⟩ := List.append_inj h hlen
  refine ⟨?_, ht⟩
  have hdec : c₁.toNat = c₂.toNat := by
    rw [← utf8Decode1_encode c₁, ← utf8Decode1_encode c₂, henc]
  exact Char.ext (UInt32.toNat.inj hdec)

/-- Encoding distributes over append. -/
theorem utf8Encode_append (s u : String) :
    utf8Encode (s ++ u) = utf8Encode s ++ utf8Encode u := by
  unfold utf8Encode
  rw [String.data_append, List.flatMap_append]

/-- Character lists are recoverable from their UTF-8 encodings. -/
theorem utf8EncodeList_inj : ∀ cs₁ cs₂ : List Char,
    cs₁.flatMap utf8EncodeChar = cs₂.flatMap utf8EncodeChar → cs₁ = cs₂ := by
  intro cs₁
  induction cs₁ with
  | nil =>
    intro cs₂ h
    cases cs₂ with
    | nil => rfl
    | cons c cs' =>
      simp only [List.flatMap_nil, List.flatMap_cons] at h
      exact absurd h.symm (by simp [utf8EncodeChar_ne_nil c])
  | cons c cs' ih =>
    intro cs₂ h
    cases cs₂ with
    | nil =>
      simp only [List.flatMap_nil, List.flatMap_cons] at h
      exact absurd h (by simp [utf8EncodeChar_ne_nil c])
    | cons d ds' =>
      simp only [List.flatMap_cons] at h
      obtain ⟨hc, ht⟩ := utf8EncodeChar_append_inj c d _ _ h
      rw [hc, ih ds' ht]

/-- Strings are recoverable from their UTF-8 encodings. -/
theorem utf8Encode_inj (s₁ s₂ : String) (h : utf8Encode s₁ = utf8Encode s₂) :
    s₁ = s₂ :=
  String.ext (utf8EncodeList_inj s₁.data s₂.data h)

/-- An ASCII byte appears in an encoding only when the corresponding
character appears in the string. -/
theorem utf8Encode_mem_low (s : String) (b : Nat) (hb : b ∈ utf8Encode s)
    (hlow : b < 128) : ∃ c ∈ s.data, c.toNat = b := by
  unfold utf8Encode at hb
  obtain ⟨c, hc, hcb⟩ := List.mem_flatMap.mp hb
  exact ⟨c, hc, utf8EncodeChar_low c b hcb hlow⟩

/-! ## Hash-stream parsing lemmas -/

/-- Splitting two appends at the first occurrence of a delimiter absent from
the left parts. -/
theorem append_delim_inj (d : Nat) :
    ∀ a₁ a₂ r₁ r₂ : List Nat, d ∉ a₁ → d ∉ a₂ →
      a₁ ++ d :: r₁ = a₂ ++ d :: r₂ → a₁ = a₂ ∧ r₁ = r₂ := by
  intro a₁
  induction a₁ with
  | nil =>
    intro a₂ r₁ r₂ _ h₂ h
    cases a₂ with
    | nil => simpa using h
    | cons x a₂' =>
      simp only [List.nil_append, List.cons_append, List.cons.injEq] at h
      exact absurd (h.1 ▸ List.mem_cons_self _ _) h₂
  | cons x a₁' ih =>
    intro a₂ r₁ r₂ h₁ h₂ h
    cases a₂ with
    | nil =>
      simp only [List.cons_append, List.nil_append, List.cons.injEq] at h
      exact absurd (h.1 ▸ List.mem_cons_self _ _) h₁
    | cons y a₂' =>
      simp only [List.cons_append, List.cons.injEq] at h
      obtain ⟨hx, hrest⟩ := h
      have h₁' : d ∉ a₁' := fun hm => h₁ (List.mem_cons_of_mem _ hm)
      have h₂' : d ∉ a₂' := fun hm => h₂ (List.mem_cons_of_mem _ hm)
      obtain ⟨ha, hr⟩ := ih a₂' r₁ r₂ h₁' h₂' hrest
      exact ⟨by rw [hx, ha], hr⟩

/-- A concatenation of newline-terminated, internally newline-free chunks
determines the chunk list. -/
theorem flatten_terminated_inj :
    ∀ L₁ L₂ : List (List Nat),
      (∀ c ∈ L₁, ∃ b, c = b ++ [10] ∧ 10 ∉ b) →
      (∀ c ∈ L₂, ∃ b, c = b ++ [10] ∧ 10 ∉ b) →
      L₁.flatten = L₂.flatten → L₁ = L₂ := by
  intro L₁
  induction L₁ with
  | nil =>
    intro L₂ _ h₂ h
    cases L₂ with
    | nil => rfl
    | cons c L₂' =>
      obtain ⟨b, hb, -⟩ := h₂ c (List.mem_cons_self _ _)
      rw [List.flatten_nil, List.flatten_cons, hb] at h
      exact absurd h.symm (by simp)
  | cons c L₁' ih =>
    intro L₂ h₁ h₂ h
    cases L₂ with
    | nil =>
      obtain ⟨b, hb, -⟩ := h₁ c (List.mem_cons_self _ _)
      rw [List.flatten_cons, List.flatten_nil, hb] at h
      exact absurd h (by simp)
    | cons c' L₂' =>
      obtain ⟨b, hb, hbn⟩ := h₁ c (List.mem_cons_self _ _)
      obtain ⟨b', hb', hbn'⟩ := h₂ c' (List.mem_cons_self _ _)
      rw [List.flatten_cons, List.flatten_cons, hb, hb'] at h
      rw [List.append_assoc, List.append_assoc] at h
      simp only [List.cons_append, List.nil_append] at h
      obtain ⟨hbeq, hrest⟩ := append_delim_inj 10 b b' _ _ hbn hbn' h
      have := ih L₂' (fun x hx => h₁ x (List.mem_cons_of_mem _ hx))
        (fun x hx => h₂ x (List.mem_cons_of_mem _ hx)) hrest
      rw [hb, hb', hbeq, this]

/-- The newline byte does not occur in the encoding of a string free of
`':'`-unsafe characters (in particular of any string whose characters all
satisfy `safeChar`). -/
theorem utf8Encode_no_newline (s : String)
    (h : ∀ c ∈ s.data, c ≠ '\n') : 10 ∉ utf8Encode s := by
  intro hm
  obtain ⟨c, hc, hcb⟩ := utf8Encode_mem_low s 10 hm (by omega)
  have : c = '\n' := Char.ext (UInt32.toNat.inj hcb)
  exact h c hc this

/-- The colon byte does not occur in the encoding of a string whose
characters all satisfy `safeChar`. -/
theorem utf8Encode_no_colon (s : String)
    (h : ∀ c ∈ s.data, c ≠ ':') : 58 ∉ utf8Encode s := by
  intro hm
  obtain ⟨c, hc, hcb⟩ := utf8Encode_mem_low s 58 hm (by omega)
  have : c = ':' := Char.ext (UInt32.toNat.inj hcb)
  exact h c hc this

/-- Unpacking `safeFile`. -/
theorem safeFile_unpack (f : File) (h : safeFile f = true) :
    (∀ c ∈ f.parentPath.data, c ≠ ':' ∧ c ≠ '\n') ∧
    (∀ c ∈ f.name.data, c ≠ ':' ∧ c ≠ '\n') ∧
    ∃ bs, f.data = .buffer bs ∧ ∀ b ∈ bs, b ≠ 10 := by
  unfold safeFile at h
  simp only [Bool.and_eq_true] at h
  obtain ⟨⟨hp, hn⟩, hd⟩ := h
  refine ⟨?_, ?_, ?_⟩
  · intro c hc
    have := List.all_eq_true.mp hp c hc
    simpa [safeChar] using this
  · intro c hc
    have := List.all_eq_true.mp hn c hc
    simpa [safeChar] using this
  · rcases hdata : f.data with bs | es | kvs | p
    · rw [hdata] at hd
      refine ⟨bs, rfl, ?_⟩
      intro b hb
      have := List.all_eq_true.mp hd b hb
      simpa using this
    · rw [hdata] at hd; simp at hd
    · rw [hdata] at hd; simp at hd
    · rw [hdata] at hd; simp at hd

/-- A safe record's hash chunk, decomposed at the two colons:
`utf8(parentPath) ++ 58 :: utf8(name) ++ 58 :: content ++ [10]`. -/
theorem hashChunkVal_decomp (f : File) (bs : List Nat) (hdata : f.data = .buffer bs) :
    hashChunkVal f =
      utf8Encode f.parentPath ++ 58 :: (utf8Encode f.name ++ 58 :: (bs ++ [10])) := by
  unfold hashChunkVal
  rw [show f.parentPath ++ ":" ++ f.name ++ ":" =
    f.parentPath ++ (":" ++ (f.name ++ ":")) by simp [String.append_assoc]]
  rw [utf8Encode_append, utf8Encode_append, utf8Encode_append]
  have hcolon : utf8Encode ":" = [58] := rfl
  rw [hcolon]
  simp [bufferBytes, hdata]

/-- A safe record's chunk is newline-terminated and newline-free inside. -/
theorem hashChunkVal_terminated (f : File) (h : safeFile f = true) :
    ∃ b, hashChunkVal f = b ++ [10] ∧ 10 ∉ b := by
  obtain ⟨hp, hn, bs, hdata, hbs⟩ := safeFile_unpack f h
  refine ⟨utf8Encode f.parentPath ++ 58 :: (utf8Encode f.name ++ 58 :: bs), ?_, ?_⟩
  · rw [hashChunkVal_decomp f bs hdata]
    simp
  · intro hm
    simp only [List.mem_append, List.mem_cons] at hm
    rcases hm with hm | hm | hm | hm | hm
    · exact utf8Encode_no_newline _ (fun c hc => (hp c hc).2) hm
    · omega
    · exact utf8Encode_no_newline _ (fun c hc => (hn c hc).2) hm
    · omega
    · exact hbs 10 hm rfl

/-- Equal chunks of safe records come from records with equal
(`parentPath`, `name`, content) triples. -/
theorem hashChunkVal_inj (f g : File) (hf : safeFile f = true) (hg : safeFile g = true)
    (h : hashChunkVal f = hashChunkVal g) : fileTriple f = fileTriple g := by
  obtain ⟨hpf, hnf, bsf, hdf, -⟩ := safeFile_unpack f hf
  obtain ⟨hpg, hng, bsg, hdg, -⟩ := safeFile_unpack g hg
  rw [hashChunkVal_decomp f bsf hdf, hashChunkVal_decomp g bsg hdg] at h
  obtain ⟨hpe, h⟩ := append_delim_inj 58 _ _ _ _
    (utf8Encode_no_colon _ (fun c hc => (hpf c hc).1))
    (utf8Encode_no_colon _ (fun c hc => (hpg c hc).1)) h
  obtain ⟨hne, h⟩ := append_delim_inj 58 _ _ _ _
    (utf8Encode_no_colon _ (fun c hc => (hnf c hc).1))
    (utf8Encode_no_colon _ (fun c hc => (hng c hc).1)) h
  have hbse : bsf = bsg := by
    have := congrArg (List.take bsf.length) h
    have hlen : bsf.length = bsg.length := by
      have := congrArg List.length h
      simp at this
      omega
    simpa [hlen] using this
  unfold fileTriple
  rw [utf8Encode_inj _ _ hpe, utf8Encode_inj _ _ hne, hdf, hdg, hbse]

/-- Chunk assembly of a list of safe records. -/
theorem hashChunks_safe : ∀ files : List File, (∀ f ∈ files, safeFile f = true) →
    hashChunks files = .ok (files.map hashChunkVal) := by
  intro files
  induction files with
  | nil => intro _; rfl
  | cons f rest ih =>
    intro h
    obtain ⟨-, -, bs, hdata, -⟩ := safeFile_unpack f (h f (List.mem_cons_self _ _))
    have hchunk : hashChunk f = .ok (hashChunkVal f) := by
      simp only [hashChunk, hdata, normalizeBuffer, bind, Except.bind, pure, Except.pure,
        hashChunkVal, bufferBytes]
    simp only [hashChunks, hchunk, ih (fun g hg => h g (List.mem_cons_of_mem _ hg)),
      bind, Except.bind, pure, Except.pure, List.map_cons]

/-- The fingerprint of a list of safe records is the concatenation of the
sorted records' chunks. -/
theorem computeMetaHash_safe (files : List File) (h : ∀ f ∈ files, safeFile f = true) :
    computeMetaHash files = .ok ((sortFiles files).map hashChunkVal).flatten := by
  have hs : ∀ f ∈ sortFiles files, safeFile f = true :=
    fun f hf => h f ((List.perm_insertionSort keyLe files).subset hf)
  simp only [computeMetaHash, hashChunks_safe (sortFiles files) hs, bind, Except.bind,
    pure, Except.pure]

/-- Equal chunk-value maps of safe record lists force equal triple maps. -/
theorem map_triple_of_map_chunk :
    ∀ L₁ L₂ : List File, (∀ f ∈ L₁, safeFile f = true) → (∀ f ∈ L₂, safeFile f = true) →
      L₁.map hashChunkVal = L₂.map hashChunkVal →
      L₁.map fileTriple = L₂.map fileTriple := by
  intro L₁
  induction L₁ with
  | nil =>
    intro L₂ _ _ h
    cases L₂ with
    | nil => rfl
    | cons g L₂' => simp at h
  | cons f L₁' ih =>
    intro L₂ h₁ h₂ h
    cases L₂ with
    | nil => simp at h
    | cons g L₂' =>
      simp only [List.map_cons, List.cons.injEq] at h ⊢
      refine ⟨hashChunkVal_inj f g (h₁ f (List.mem_cons_self _ _))
        (h₂ g (List.mem_cons_self _ _)) h.1, ?_⟩
      exact ih L₂' (fun x hx => h₁ x (List.mem_cons_of_mem _ hx))
        (fun x hx => h₂ x (List.mem_cons_of_mem _ hx)) h.2

/-! ## Claim C5: fingerprint sensitivity -/

/-- C5, counterexample.  The byte stream is not injective on file-sets: a
single record whose content contains newline and colon bytes produces
exactly the stream of a two-record set, so two file-sets with different
sorted (parentPath, name, content) sequences share one digest.  The content
`[120, 10, 113, 58, 114, 58, 121]` is `"x\nq:r:y"`: its record delimiter
bytes collide with the stream framing. -/
theorem computeMetaHash_collision_counterexample :
    (sortFiles [{ name := "n", parentPath := "p", path := "p/n",
                  data := JsData.buffer [120, 10, 113, 58, 114, 58, 121],
                  options := none }]).map fileTriple ≠
      (sortFiles [{ name := "n", parentPath := "p", path := "p/n",
                    data := JsData.buffer [120], options := none },
                  { name := "r", parentPath := "q", path := "q/r",
                    data := JsData.buffer [121], options := none }]).map fileTriple ∧
    computeMetaHash [{ name := "n", parentPath := "p", path := "p/n",
                       data := JsData.buffer [120, 10, 113, 58, 114, 58, 121],
                       options := none }] =
      computeMetaHash [{ name := "n", parentPath := "p", path := "p/n",
                         data := JsData.buffer [120], options := none },
                       { name := "r", parentPath := "q", path := "q/r",
                         data := JsData.buffer [121], options := none }] := by
  constructor
  · decide
  · decide

/-- C5, amended.  For file-sets of unambiguous records — `parentPath` and
`name` free of `':'` and newline characters, `Buffer` content free of the
newline byte — any difference in the sorted sequence of (`parentPath`,
`name`, content) triples changes the digest: on such records the byte
stream fed to the (collision-free) hash is injective.  Without those
restrictions the stream is ambiguous, as newline bytes inside content
collide with the record delimiter. -/
theorem computeMetaHash_sensitive (l₁ l₂ : List File)
    (h₁ : ∀ f ∈ l₁, safeFile f = true) (h₂ : ∀ f ∈ l₂, safeFile f = true)
    (hne : (sortFiles l₁).map fileTriple ≠ (sortFiles l₂).map fileTriple) :
    computeMetaHash l₁ ≠ computeMetaHash l₂ := by
  intro h
  rw [computeMetaHash_safe l₁ h₁, computeMetaHash_safe l₂ h₂] at h
  injection h with h
  have hs₁ : ∀ f ∈ sortFiles l₁, safeFile f = true :=
    fun f hf => h₁ f ((List.perm_insertionSort keyLe l₁).subset hf)
  have hs₂ : ∀ f ∈ sortFiles l₂, safeFile f = true :=
    fun f hf => h₂ f ((List.perm_insertionSort keyLe l₂).subset hf)
  have hchunks : (sortFiles l₁).map hashChunkVal = (sortFiles l₂).map hashChunkVal := by
    refine flatten_terminated_inj _ _ ?_ ?_ h
    · intro c hc
      obtain ⟨f, hf, rfl⟩ := List.mem_map.mp hc
      exact hashChunkVal_terminated f (hs₁ f hf)
    · intro c hc
      obtain ⟨f, hf, rfl⟩ := List.mem_map.mp hc
      exact hashChunkVal_terminated f (hs₂ f hf)
  exact hne (map_triple_of_map_chunk _ _ hs₁ hs₂ hchunks)

/-- C5 witness: two singleton sets differing in one content byte have
different digests. -/
theorem computeMetaHash_sensitive_witness :
    computeMetaHash [{ name := "a.txt", parentPath := "./", path := "./a.txt",
                       data := JsData.buffer [104], options := none }] ≠
    computeMetaHash [{ name := "a.txt", parentPath := "./", path := "./a.txt",
                       data := JsData.buffer [105], options := none }] := by
  exact computeMetaHash_sensitive _ _ (by decide) (by decide) (by decide)
/-! ## String evaluation toolkit for path computations -/

/-- String append is associative (at the data level). -/
theorem strAppend_assoc (a b c : String) : a ++ b ++ c = a ++ (b ++ c) := by
  apply String.ext
  simp [String.data_append]

/-- Splitting distributes over concatenation at a separator. -/
theorem splitOnSep_sep_append (sep : Char) :
    ∀ A B : List Char, splitOnSep sep (A ++ sep :: B) = splitOnSep sep A ++ splitOnSep sep B := by
  intro A
  induction A with
  | nil =>
    intro B
    simp only [List.nil_append, splitOnSep]
    rcases hb : splitOnSep sep B with _ | ⟨h, t⟩
    · exact absurd hb (splitOnSep_ne_nil sep B)
    · simp
  | cons x A' ih =>
    intro B
    simp only [List.cons_append, splitOnSep, List.append_eq, ih B]
    rcases ha : splitOnSep sep A' with _ | ⟨h, t⟩
    · exact absurd ha (splitOnSep_ne_nil sep A')
    · by_cases hx : x = sep <;> simp [hx]

/-- `rawSegs` distributes over a `/`-join of strings. -/
theorem rawSegs_append (a b : String) :
    rawSegs (a ++ "/" ++ b) = rawSegs a ++ rawSegs b := by
  unfold rawSegs
  rw [String.data_append, String.data_append]
  rw [show ("/" : String).data = ['/'] from rfl]
  rw [List.append_assoc]
  simp only [List.cons_append, List.nil_append]
  rw [splitOnSep_sep_append]
  simp

/-- `rawSegs` of a single canonical segment. -/
theorem rawSegs_seg (n : String) (h : canonicalSeg n = true) : rawSegs n = [n] := by
  unfold rawSegs
  rw [splitOnSep_of_no_sep '/' n.data (canonicalSeg_data n h).2]
  rfl

/-- `rawSegs` after a leading slash. -/
theorem rawSegs_slash_append (b : String) : rawSegs ("/" ++ b) = "" :: rawSegs b := by
  have hd : ("/" ++ b).data = '/' :: b.data := by
    rw [String.data_append]
    rfl
  unfold rawSegs
  rw [hd]
  rcases hb : splitOnSep '/' b.data with _ | ⟨h, t⟩
  · exact absurd hb (splitOnSep_ne_nil '/' b.data)
  · simp [splitOnSep, hb]

/-- `rawSegs` before a trailing slash. -/
theorem rawSegs_append_slash (a : String) : rawSegs (a ++ "/") = rawSegs a ++ [""] := by
  unfold rawSegs
  rw [String.data_append, show ("/" : String).data = ['/'] from rfl, splitOnSep_sep_append]
  simp [splitOnSep]

/-- `rawSegs` after a leading `./`. -/
theorem rawSegs_dotSlash_append (b : String) : rawSegs ("./" ++ b) = "." :: rawSegs b := by
  have hd : ("./" ++ b).data = '.' :: '/' :: b.data := by
    rw [String.data_append]
    rfl
  unfold rawSegs
  rw [hd]
  rcases hb : splitOnSep '/' b.data with _ | ⟨h, t⟩
  · exact absurd hb (splitOnSep_ne_nil '/' b.data)
  · simp [splitOnSep, hb]

/-- Prepending a character to the first piece of a join. -/
theorem joinSegs_cons_head (c : Char) (h : List Char) (L : List String) :
    (joinSegs ((⟨c :: h⟩ : String) :: L)).data = c :: (joinSegs ((⟨h⟩ : String) :: L)).data := by
  cases L with
  | nil => rfl
  | cons y L' =>
    rw [joinSegs_cons_data, joinSegs_cons_data]
    rfl

/-- A join whose first piece is empty starts with the separator. -/
theorem joinSegs_cons_empty (y : String) (L : List String) :
    (joinSegs (("" : String) :: y :: L)).data = '/' :: (joinSegs (y :: L)).data := by
  rw [joinSegs_cons_data]
  rfl

/-- Joining the pieces of a split recovers the original characters. -/
theorem joinSegs_splitOnSep (cs : List Char) :
    (joinSegs ((splitOnSep '/' cs).map (fun p => (⟨p⟩ : String)))).data = cs := by
  induction cs with
  | nil => rfl
  | cons c rest ih =>
    rcases hsplit : splitOnSep '/' rest with _ | ⟨h, t⟩
    · exact absurd hsplit (splitOnSep_ne_nil '/' rest)
    · rw [hsplit] at ih
      simp only [splitOnSep, hsplit]
      by_cases hc : c = '/'
      · subst hc
        rw [if_pos rfl]
        simp only [List.map_cons] at ih ⊢
        rw [joinSegs_cons_empty ⟨h⟩ (t.map _), ih]
      · rw [if_neg hc]
        simp only [List.map_cons] at ih ⊢
        rw [joinSegs_cons_head c h (t.map _), ih]

/-- The skip pass: without `..` segments, normalization just filters out the
empty and `.` segments. -/
theorem normSegsAux_skip (b : Bool) :
    ∀ l acc, (∀ x ∈ l, x = "" ∨ x = "." ∨ canonicalSeg x = true) →
      normSegsAux b acc l = acc.reverse ++ l.filter (fun x => !(x == "" || x == ".")) := by
  intro l
  induction l with
  | nil => intro acc _; simp [normSegsAux]
  | cons s rest ih =>
    intro acc h
    have hs := h s (List.mem_cons_self _ _)
    have hrest : ∀ x ∈ rest, x = "" ∨ x = "." ∨ canonicalSeg x = true :=
      fun x hx => h x (List.mem_cons_of_mem _ hx)
    rcases hs with hs | hs | hs
    · subst hs
      simp only [normSegsAux, if_pos (by simp : (("" : String) = "" ∨ ("" : String) = "."))]
      rw [ih acc hrest]
      simp
    · subst hs
      simp only [normSegsAux,
        if_pos (by simp : (("." : String) = "" ∨ ("." : String) = "."))]
      rw [ih acc hrest]
      simp
    · obtain ⟨h1, -, h3, h4⟩ := (canonicalSeg_iff s).mp hs
      simp only [normSegsAux]
      rw [if_neg (by simp [h1, h3]), if_neg h4, ih (s :: acc) hrest]
      simp [List.filter_cons, h1, h3]

/-- Filtering the skip-pass predicate over canonical segments is the
identity. -/
theorem filter_canonical (l : List String) (h : ∀ x ∈ l, canonicalSeg x = true) :
    l.filter (fun x => !(x == "" || x == ".")) = l := by
  induction l with
  | nil => rfl
  | cons x rest ih =>
    have hx := (canonicalSeg_iff x).mp (h x (List.mem_cons_self _ _))
    rw [List.filter_cons, if_pos (by simp [hx.1, hx.2.2.1]),
      ih (fun y hy => h y (List.mem_cons_of_mem _ hy))]

/-- A string whose data begins with `/` starts with `"/"`. -/
theorem strStartsWith_slash_true (z : String) (cs : List Char)
    (h : z.data = '/' :: cs) : strStartsWith z "/" = true := by
  simp [strStartsWith, h, show ("/" : String).data = ['/'] from rfl, List.isPrefixOf]

/-- A nonempty suffix decides the trailing-slash test of an append. -/
theorem endsWithSlash_append_right (a b : String) (hb : b.data ≠ []) :
    endsWithSlash (a ++ b) = endsWithSlash b := by
  obtain ⟨c, cs, hcd⟩ : ∃ c cs, b.data = c :: cs := by
    rcases hd : b.data with _ | ⟨c, cs⟩
    · exact absurd hd hb
    · exact ⟨c, cs, rfl⟩
  simp only [endsWithSlash, String.data_append, hcd, List.getLast?_append_cons]

/-- An append with a nonempty part has nonempty data. -/
theorem strData_append_ne_nil (a b : String) (hb : b.data ≠ []) : (a ++ b).data ≠ [] := by
  rw [String.data_append]
  intro hc
  exact hb (List.append_eq_nil.mp hc).2

/-- Evaluating `posixNormalize` on an absolute path without trailing slash. -/
theorem posixNormalize_eval_abs (z : String) (l : List String)
    (hz : z.data ≠ []) (habs : strStartsWith z "/" = true)
    (htrail : endsWithSlash z = false) (hraw : rawSegs z = l)
    (hl : ∀ x ∈ l, x = "" ∨ x = "." ∨ canonicalSeg x = true)
    (hne : l.filter (fun x => !(x == "" || x == ".")) ≠ []) :
    posixNormalize z = "/" ++ joinSegs (l.filter (fun x => !(x == "" || x == "."))) := by
  have hF : ∀ x ∈ l.filter (fun x => !(x == "" || x == ".")), canonicalSeg x = true := by
    intro x hx
    rcases hl x (List.mem_of_mem_filter hx) with h | h | h
    · rw [h] at hx; simp at hx
    · rw [h] at hx; simp at hx
    · exact h
  have hjne : joinSegs (l.filter (fun x => !(x == "" || x == "."))) ≠ "" := by
    intro hc
    exact joinSegs_data_ne_nil _ hne hF (by rw [hc])
  simp only [posixNormalize]
  rw [if_neg hz]
  simp only [habs, htrail, Bool.not_true, normSegs, hraw]
  rw [normSegsAux_skip false l [] hl]
  simp only [List.reverse_nil, List.nil_append]
  rw [if_neg hjne]
  simp

/-- Evaluating `posixNormalize` on an absolute path with a trailing slash. -/
theorem posixNormalize_eval_abs_trail (z : String) (l : List String)
    (hz : z.data ≠ []) (habs : strStartsWith z "/" = true)
    (htrail : endsWithSlash z = true) (hraw : rawSegs z = l)
    (hl : ∀ x ∈ l, x = "" ∨ x = "." ∨ canonicalSeg x = true)
    (hne : l.filter (fun x => !(x == "" || x == ".")) ≠ []) :
    posixNormalize z = "/" ++ (joinSegs (l.filter (fun x => !(x == "" || x == "."))) ++ "/") := by
  have hF : ∀ x ∈ l.filter (fun x => !(x == "" || x == ".")), canonicalSeg x = true := by
    intro x hx
    rcases hl x (List.mem_of_mem_filter hx) with h | h | h
    · rw [h] at hx; simp at hx
    · rw [h] at hx; simp at hx
    · exact h
  have hjne : joinSegs (l.filter (fun x => !(x == "" || x == "."))) ≠ "" := by
    intro hc
    exact joinSegs_data_ne_nil _ hne hF (by rw [hc])
  simp only [posixNormalize]
  rw [if_neg hz]
  simp only [habs, htrail, Bool.not_true, normSegs, hraw]
  rw [normSegsAux_skip false l [] hl]
  simp only [List.reverse_nil, List.nil_append]
  rw [if_neg hjne]
  simp

/-- Evaluating `posixNormalize` on a relative path without trailing slash. -/
theorem posixNormalize_eval_rel (z : String) (l : List String)
    (hz : z.data ≠ []) (habs : strStartsWith z "/" = false)
    (htrail : endsWithSlash z = false) (hraw : rawSegs z = l)
    (hl : ∀ x ∈ l, x = "" ∨ x = "." ∨ canonicalSeg x = true)
    (hne : l.filter (fun x => !(x == "" || x == ".")) ≠ []) :
    posixNormalize z = joinSegs (l.filter (fun x => !(x == "" || x == "."))) := by
  have hF : ∀ x ∈ l.filter (fun x => !(x == "" || x == ".")), canonicalSeg x = true := by
    intro x hx
    rcases hl x (List.mem_of_mem_filter hx) with h | h | h
    · rw [h] at hx; simp at hx
    · rw [h] at hx; simp at hx
    · exact h
  have hjne : joinSegs (l.filter (fun x => !(x == "" || x == "."))) ≠ "" := by
    intro hc
    exact joinSegs_data_ne_nil _ hne hF (by rw [hc])
  simp only [posixNormalize]
  rw [if_neg hz]
  simp only [habs, htrail, Bool.not_false, normSegs, hraw]
  rw [normSegsAux_skip true l [] hl]
  simp only [List.reverse_nil, List.nil_append]
  rw [if_neg hjne]
  simp

/-- Evaluating `resolveSegs` on an absolute path. -/
theorem resolveSegs_eval (cwd z : String) (l : List String)
    (habs : strStartsWith z "/" = true) (hraw : rawSegs z = l)
    (hl : ∀ x ∈ l, x = "" ∨ x = "." ∨ canonicalSeg x = true) :
    resolveSegs cwd z = l.filter (fun x => !(x == "" || x == ".")) := by
  unfold resolveSegs
  simp only [habs, if_true, normSegs, hraw]
  rw [normSegsAux_skip false l [] hl]
  simp

/-- Joining after appending one segment. -/
theorem joinSegs_append_singleton (s : List String) (n : String) (hs : s ≠ []) :
    joinSegs (s ++ [n]) = joinSegs s ++ "/" ++ n := by
  induction s with
  | nil => exact absurd rfl hs
  | cons x s' ih =>
    cases s' with
    | nil => rfl
    | cons y s'' =>
      show x ++ "/" ++ joinSegs ((y :: s'') ++ [n]) = (x ++ "/" ++ joinSegs (y :: s'')) ++ "/" ++ n
      rw [ih (by simp)]
      apply String.ext
      simp [String.data_append]
/-! ## Path algebra for absolute work-directory paths -/

/-- Data of an absolute path. -/
theorem absOf_data (s : List String) : (absOf s).data = '/' :: (joinSegs s).data := by
  show (("/" : String) ++ joinSegs s).data = _
  rw [String.data_append]
  rfl

/-- An absolute path is not the empty string. -/
theorem absOf_ne_empty (s : List String) : absOf s ≠ "" := by
  intro hc
  have h := absOf_data s
  rw [hc] at h
  exact List.noConfusion h

/-- Data after a leading `./`. -/
theorem dotSlash_append_data (b : String) : ("./" ++ b).data = '.' :: '/' :: b.data := by
  rw [String.data_append]
  rfl

/-- A `./`-prefixed string is nonempty. -/
theorem dotSlash_append_ne_empty (b : String) : ("./" ++ b) ≠ "" := by
  intro hc
  have h := dotSlash_append_data b
  rw [hc] at h
  exact List.noConfusion h

/-- An absolute path starts with `/`. -/
theorem strStartsWith_absOf (s : List String) : strStartsWith (absOf s) "/" = true :=
  strStartsWith_slash_true _ _ (absOf_data s)

/-- An absolute path extended once still starts with `/`. -/
theorem strStartsWith_slash_absOf_append (s : List String) (b : String) :
    strStartsWith (absOf s ++ b) "/" = true := by
  apply strStartsWith_slash_true _ ((joinSegs s).data ++ b.data)
  rw [String.data_append, absOf_data]
  rfl

/-- An absolute path extended twice still starts with `/`. -/
theorem strStartsWith_slash_absOf_append2 (s : List String) (b c : String) :
    strStartsWith (absOf s ++ b ++ c) "/" = true := by
  apply strStartsWith_slash_true _ ((joinSegs s).data ++ b.data ++ c.data)
  rw [String.data_append, String.data_append, absOf_data]
  rfl

/-- An absolute path extended three times still starts with `/`. -/
theorem strStartsWith_slash_absOf_append3 (s : List String) (b c d : String) :
    strStartsWith (absOf s ++ b ++ c ++ d) "/" = true := by
  apply strStartsWith_slash_true _ ((joinSegs s).data ++ b.data ++ c.data ++ d.data)
  rw [String.data_append, String.data_append, String.data_append, absOf_data]
  rfl

/-- Collecting `looseSeg` over an append. -/
theorem looseAll_append (l₁ l₂ : List String)
    (h₁ : ∀ x ∈ l₁, looseSeg x) (h₂ : ∀ x ∈ l₂, looseSeg x) :
    ∀ x ∈ l₁ ++ l₂, looseSeg x := by
  intro x hx
  rcases List.mem_append.mp hx with hx | hx
  · exact h₁ x hx
  · exact h₂ x hx

/-- Collecting `looseSeg` over a cons. -/
theorem looseAll_cons (x : String) (l : List String)
    (hx : looseSeg x) (h : ∀ y ∈ l, looseSeg y) : ∀ y ∈ x :: l, looseSeg y := by
  intro y hy
  rcases List.mem_cons.mp hy with hy | hy
  · exact hy ▸ hx
  · exact h y hy

/-- Canonical segments are loose. -/
theorem looseAll_of_canon (l : List String) (h : ∀ x ∈ l, canonicalSeg x = true) :
    ∀ x ∈ l, looseSeg x :=
  fun x hx => Or.inr (Or.inr (h x hx))

/-- The padded raw-segment list of an absolute path is loose. -/
theorem looseAll_pad (s : List String) (h : ∀ x ∈ s, canonicalSeg x = true) :
    ∀ x ∈ ("" :: (if s = [] then [""] else s)), looseSeg x := by
  intro x hx
  rcases List.mem_cons.mp hx with hx | hx
  · exact Or.inl hx
  · by_cases hs : s = []
    · rw [if_pos hs] at hx
      simp at hx
      exact Or.inl hx
    · rw [if_neg hs] at hx
      exact Or.inr (Or.inr (h x hx))

/-- The skip-pass filter drops a leading empty segment. -/
theorem filter_skip_cons_empty (l : List String) :
    (("" : String) :: l).filter (fun x => !(x == "" || x == ".")) =
      l.filter (fun x => !(x == "" || x == ".")) := by
  rw [List.filter_cons, if_neg (by simp)]

/-- The skip-pass filter drops a leading dot segment. -/
theorem filter_skip_cons_dot (l : List String) :
    (("." : String) :: l).filter (fun x => !(x == "" || x == ".")) =
      l.filter (fun x => !(x == "" || x == ".")) := by
  rw [List.filter_cons, if_neg (by simp)]

/-- The skip-pass filter keeps a leading canonical segment. -/
theorem filter_skip_cons_seg (x : String) (hx : canonicalSeg x = true) (l : List String) :
    (x :: l).filter (fun y => !(y == "" || y == ".")) =
      x :: l.filter (fun y => !(y == "" || y == ".")) := by
  have h := (canonicalSeg_iff x).mp hx
  rw [List.filter_cons, if_pos (by simp [h.1, h.2.2.1])]

/-- Filtering the padded raw segments of an absolute path recovers the
segments. -/
theorem filter_skip_pad (s : List String) (h : ∀ x ∈ s, canonicalSeg x = true) :
    ("" :: (if s = [] then [""] else s)).filter (fun x => !(x == "" || x == ".")) = s := by
  rw [filter_skip_cons_empty]
  by_cases hs : s = []
  · subst hs
    rfl
  · rw [if_neg hs]
    exact filter_canonical s h

/-- Raw segments of an absolute path: a leading empty piece, then the
segments (the zero-segment path `/` splitting into two empty pieces). -/
theorem rawSegs_absOf (s : List String) (h : ∀ x ∈ s, canonicalSeg x = true) :
    rawSegs (absOf s) = "" :: (if s = [] then [""] else s) := by
  cases s with
  | nil => rfl
  | cons x rest =>
    show rawSegs ("/" ++ joinSegs (x :: rest)) = _
    rw [rawSegs_slash_append, rawSegs_joinSegs (x :: rest) (by simp) h]
    simp

/-- `posixJoin` with two nonempty parts is a normalization of the slash
join. -/
theorem posixJoin_ne (a b : String) (ha : a ≠ "") (hb : b ≠ "") :
    posixJoin a b = posixNormalize (a ++ "/" ++ b) := by
  unfold posixJoin
  rw [if_neg (by simp [ha]), if_neg ha, if_neg hb]

/-- Normalization master for absolute results. -/
theorem posixNormalize_abs_master (z : String) (l K : List String)
    (hz : z.data ≠ []) (habs : strStartsWith z "/" = true)
    (htrail : endsWithSlash z = false) (hraw : rawSegs z = l)
    (hl : ∀ x ∈ l, looseSeg x)
    (hfil : l.filter (fun x => !(x == "" || x == ".")) = K) (hK : K ≠ []) :
    posixNormalize z = absOf K := by
  rw [posixNormalize_eval_abs z l hz habs htrail hraw hl (by rw [hfil]; exact hK), hfil]
  rfl

/-- Normalization master for absolute results with a trailing slash. -/
theorem posixNormalize_abs_trail_master (z : String) (l K : List String)
    (hz : z.data ≠ []) (habs : strStartsWith z "/" = true)
    (htrail : endsWithSlash z = true) (hraw : rawSegs z = l)
    (hl : ∀ x ∈ l, looseSeg x)
    (hfil : l.filter (fun x => !(x == "" || x == ".")) = K) (hK : K ≠ []) :
    posixNormalize z = absOf K ++ "/" := by
  rw [posixNormalize_eval_abs_trail z l hz habs htrail hraw hl (by rw [hfil]; exact hK), hfil]
  apply String.ext
  simp [String.data_append, absOf]

/-- Normalization master for relative results. -/
theorem posixNormalize_rel_master (z : String) (l K : List String)
    (hz : z.data ≠ []) (habs : strStartsWith z "/" = false)
    (htrail : endsWithSlash z = false) (hraw : rawSegs z = l)
    (hl : ∀ x ∈ l, looseSeg x)
    (hfil : l.filter (fun x => !(x == "" || x == ".")) = K) (hK : K ≠ []) :
    posixNormalize z = joinSegs K := by
  rw [posixNormalize_eval_rel z l hz habs htrail hraw hl (by rw [hfil]; exact hK), hfil]

/-- `resolve` of an absolute path built from canonical segments. -/
theorem resolveSegs_absOf (cwd : String) (s : List String)
    (h : ∀ x ∈ s, canonicalSeg x = true) :
    resolveSegs cwd (absOf s) = s := by
  rw [resolveSegs_eval cwd (absOf s) _ (strStartsWith_absOf s) (rawSegs_absOf s h)
    (looseAll_pad s h)]
  exact filter_skip_pad s h

/-- `resolve` of an absolute path with a trailing slash. -/
theorem resolveSegs_absOf_slash (cwd : String) (s : List String)
    (h : ∀ x ∈ s, canonicalSeg x = true) :
    resolveSegs cwd (absOf s ++ "/") = s := by
  have hraw : rawSegs (absOf s ++ "/") = ("" :: (if s = [] then [""] else s)) ++ [""] := by
    rw [rawSegs_append_slash, rawSegs_absOf s h]
  rw [resolveSegs_eval cwd _ _ (strStartsWith_slash_absOf_append s "/") hraw
    (looseAll_append _ _ (looseAll_pad s h) (looseAll_cons _ _ (Or.inl rfl) (by simp)))]
  rw [List.filter_append, filter_skip_pad s h, filter_skip_cons_empty]
  simp

/-- `join(absOf s, n)` appends one canonical segment. -/
theorem posixJoin_absOf_seg (s : List String) (n : String)
    (hs : ∀ x ∈ s, canonicalSeg x = true) (hn : canonicalSeg n = true) :
    posixJoin (absOf s) n = absOf (s ++ [n]) := by
  have hnn := (canonicalSeg_iff n).mp hn
  have hnd := canonicalSeg_data n hn
  rw [posixJoin_ne _ _ (absOf_ne_empty s) hnn.1]
  apply posixNormalize_abs_master _ (("" :: (if s = [] then [""] else s)) ++ [n]) (s ++ [n])
  · exact strData_append_ne_nil _ n hnd.1
  · exact strStartsWith_slash_absOf_append2 s "/" n
  · rw [endsWithSlash_append_right _ n hnd.1]
    exact endsWithSlash_joinSegs [n] (by simp) (by intro x hx; simp at hx; exact hx ▸ hn)
  · rw [rawSegs_append, rawSegs_absOf s hs, rawSegs_seg n hn]
  · exact looseAll_append _ _ (looseAll_pad s hs)
      (looseAll_cons _ _ (Or.inr (Or.inr hn)) (by simp))
  · rw [List.filter_append, filter_skip_pad s hs, filter_skip_cons_seg n hn]
    simp
  · simp

/-- `join(absOf s, "./")` is the absolute path with a trailing slash. -/
theorem posixJoin_absOf_dotSlash (s : List String)
    (hs : ∀ x ∈ s, canonicalSeg x = true) (hne : s ≠ []) :
    posixJoin (absOf s) "./" = absOf s ++ "/" := by
  rw [posixJoin_ne _ _ (absOf_ne_empty s) (by decide)]
  have hmid := posixNormalize_abs_trail_master (absOf s ++ "/" ++ "./")
    (("" :: (if s = [] then [""] else s)) ++ [".", ""]) s
    (strData_append_ne_nil _ "./" (by decide))
    (strStartsWith_slash_absOf_append2 s "/" "./")
    (by rw [endsWithSlash_append_right _ "./" (by decide)]; decide)
    (by rw [rawSegs_append, rawSegs_absOf s hs]; rfl)
    (looseAll_append _ _ (looseAll_pad s hs)
      (looseAll_cons _ _ (Or.inr (Or.inl rfl)) (looseAll_cons _ _ (Or.inl rfl) (by simp))))
    (by rw [List.filter_append, filter_skip_pad s hs]; simp)
    hne
  rw [hmid]

/-- `join` of a trailing-slash absolute path with one canonical segment. -/
theorem posixJoin_absOf_slash_seg (s : List String) (n : String)
    (hs : ∀ x ∈ s, canonicalSeg x = true) (hn : canonicalSeg n = true) :
    posixJoin (absOf s ++ "/") n = absOf (s ++ [n]) := by
  have hnn := (canonicalSeg_iff n).mp hn
  have hnd := canonicalSeg_data n hn
  rw [posixJoin_ne _ _ (strData_append_ne_nil (absOf s) "/" (by decide) ∘
    congrArg String.data) hnn.1]
  apply posixNormalize_abs_master _
    ((("" :: (if s = [] then [""] else s)) ++ [""]) ++ [n]) (s ++ [n])
  · exact strData_append_ne_nil _ n hnd.1
  · exact strStartsWith_slash_absOf_append3 s "/" "/" n
  · rw [endsWithSlash_append_right _ n hnd.1]
    exact endsWithSlash_joinSegs [n] (by simp) (by intro x hx; simp at hx; exact hx ▸ hn)
  · rw [rawSegs_append, rawSegs_append_slash, rawSegs_absOf s hs, rawSegs_seg n hn]
  · exact looseAll_append _ _
      (looseAll_append _ _ (looseAll_pad s hs) (looseAll_cons _ _ (Or.inl rfl) (by simp)))
      (looseAll_cons _ _ (Or.inr (Or.inr hn)) (by simp))
  · rw [List.filter_append, List.filter_append, filter_skip_pad s hs,
      filter_skip_cons_empty, filter_skip_cons_seg n hn]
    simp
  · simp

/-- `join` of an absolute path with a `./`-prefixed canonical relative
path. -/
theorem posixJoin_absOf_parent (s p : List String)
    (hs : ∀ x ∈ s, canonicalSeg x = true) (hp : ∀ x ∈ p, canonicalSeg x = true)
    (hpne : p ≠ []) :
    posixJoin (absOf s) ("./" ++ joinSegs p) = absOf (s ++ p) := by
  have hjd := joinSegs_data_ne_nil p hpne hp
  rw [posixJoin_ne _ _ (absOf_ne_empty s) (dotSlash_append_ne_empty _)]
  apply posixNormalize_abs_master _
    (("" :: (if s = [] then [""] else s)) ++ "." :: p) (s ++ p)
  · refine strData_append_ne_nil _ ("./" ++ joinSegs p) ?_
    rw [dotSlash_append_data]
    simp
  · exact strStartsWith_slash_absOf_append2 s "/" ("./" ++ joinSegs p)
  · rw [endsWithSlash_append_right _ ("./" ++ joinSegs p) (by rw [dotSlash_append_data]; simp),
      endsWithSlash_append_right "./" (joinSegs p) hjd]
    exact endsWithSlash_joinSegs p hpne hp
  · rw [rawSegs_append, rawSegs_absOf s hs, rawSegs_dotSlash_append,
      rawSegs_joinSegs p hpne hp]
  · exact looseAll_append _ _ (looseAll_pad s hs)
      (looseAll_cons _ _ (Or.inr (Or.inl rfl)) (looseAll_of_canon p hp))
  · rw [List.filter_append, filter_skip_pad s hs, filter_skip_cons_dot,
      filter_canonical p hp]
  · simp [hpne]

/-- Normalizing a `./`-prefixed canonical relative path drops the `./`. -/
theorem posixNormalize_dotSlash_join (K : List String)
    (hK : ∀ x ∈ K, canonicalSeg x = true) (hne : K ≠ []) :
    posixNormalize ("./" ++ joinSegs K) = joinSegs K := by
  have hjd := joinSegs_data_ne_nil K hne hK
  apply posixNormalize_rel_master _ ("." :: K) K
  · rw [dotSlash_append_data]
    simp
  · exact strStartsWith_slash_false _ '.' _ (dotSlash_append_data _) (by decide)
  · rw [endsWithSlash_append_right "./" (joinSegs K) hjd]
    exact endsWithSlash_joinSegs K hne hK
  · rw [rawSegs_dotSlash_append, rawSegs_joinSegs K hne hK]
  · exact looseAll_cons _ _ (Or.inr (Or.inl rfl)) (looseAll_of_canon K hK)
  · rw [filter_skip_cons_dot, filter_canonical K hK]
  · exact hne

/-- Joining the parent path `readFiles` writes with a file name recovers the
`/`-joined relative segments. -/
theorem posixJoin_walkParent (p : List String) (n : String)
    (hp : ∀ x ∈ p, canonicalSeg x = true) (hn : canonicalSeg n = true) :
    posixJoin ("./" ++ (if p = [] then "." else joinSegs p)) n = joinSegs (p ++ [n]) := by
  have hnn := (canonicalSeg_iff n).mp hn
  have hnd := canonicalSeg_data n hn
  by_cases hpe : p = []
  · subst hpe
    rw [if_pos rfl, posixJoin_ne _ _ (by decide) hnn.1]
    have hdata : ("./" ++ "." ++ "/" ++ n).data = '.' :: '/' :: '.' :: '/' :: n.data := by
      rw [String.data_append, String.data_append, String.data_append]
      rfl
    have hmid := posixNormalize_rel_master ("./" ++ "." ++ "/" ++ n) ([".", "."] ++ [n]) [n]
      (by rw [hdata]; simp)
      (strStartsWith_slash_false _ '.' _ hdata (by decide))
      (by rw [endsWithSlash_append_right _ n hnd.1]
          exact endsWithSlash_joinSegs [n] (by simp) (by intro x hx; simp at hx; exact hx ▸ hn))
      (by rw [rawSegs_append, rawSegs_seg n hn]; rfl)
      (looseAll_append _ _
        (looseAll_cons _ _ (Or.inr (Or.inl rfl))
          (looseAll_cons _ _ (Or.inr (Or.inl rfl)) (by simp)))
        (looseAll_cons _ _ (Or.inr (Or.inr hn)) (by simp)))
      (by rw [List.filter_append, filter_skip_cons_seg n hn]; rfl)
      (by simp)
    rw [hmid]
    rfl
  · rw [if_neg hpe, posixJoin_ne _ _ (dotSlash_append_ne_empty _) hnn.1]
    have hjd := joinSegs_data_ne_nil p hpe hp
    have hdata : ("./" ++ joinSegs p ++ "/" ++ n).data =
        '.' :: '/' :: ((joinSegs p).data ++ "/".data ++ n.data) := by
      rw [String.data_append, String.data_append, dotSlash_append_data]
      rfl
    apply posixNormalize_rel_master _ (("." :: p) ++ [n]) (p ++ [n])
    · rw [hdata]
      simp
    · exact strStartsWith_slash_false _ '.' _ hdata (by decide)
    · rw [endsWithSlash_append_right _ n hnd.1]
      exact endsWithSlash_joinSegs [n] (by simp) (by intro x hx; simp at hx; exact hx ▸ hn)
    · rw [rawSegs_append, rawSegs_dotSlash_append, rawSegs_joinSegs p hpe hp,
        rawSegs_seg n hn]
    · exact looseAll_append _ _
        (looseAll_cons _ _ (Or.inr (Or.inl rfl)) (looseAll_of_canon p hp))
        (looseAll_cons _ _ (Or.inr (Or.inr hn)) (by simp))
    · rw [List.filter_append, filter_skip_cons_dot, filter_canonical p hp,
        filter_skip_cons_seg n hn]
      rfl
    · simp

/-- Shape of a parseable parent path: root `./`, or `./` followed by
canonical slash-joined segments. -/
theorem parsedParent_shape (pp : String) (p : List String)
    (hpp : parsedParent pp = some p) :
    (p = [] ∧ pp = "./") ∨
    (p ≠ [] ∧ (∀ x ∈ p, canonicalSeg x = true) ∧ pp = "./" ++ joinSegs p) := by
  unfold parsedParent at hpp
  split at hpp
  · rename_i rest hdata
    by_cases hr : rest = []
    · rw [if_pos hr] at hpp
      left
      refine ⟨(Option.some.inj hpp).symm, ?_⟩
      apply String.ext
      rw [hdata, hr]
    · rw [if_neg hr] at hpp
      dsimp only at hpp
      by_cases hall : ((splitOnSep '/' rest).map (fun cs => (⟨cs⟩ : String))).all canonicalSeg
      · rw [if_pos hall] at hpp
        have hp := Option.some.inj hpp
        right
        have hcanon : ∀ x ∈ p, canonicalSeg x = true := by
          intro x hx
          rw [← hp] at hx
          exact List.all_eq_true.mp hall x hx
        have hpne : p ≠ [] := by
          rw [← hp]
          intro hc
          rcases hsplit : splitOnSep '/' rest with _ | ⟨h, t⟩
          · exact splitOnSep_ne_nil '/' rest hsplit
          · rw [hsplit] at hc
            exact List.noConfusion hc
        refine ⟨hpne, hcanon, ?_⟩
        apply String.ext
        rw [hdata, dotSlash_append_data]
        have hjoin := joinSegs_splitOnSep rest
        rw [hp] at hjoin
        rw [hjoin]
      · rw [if_neg hall] at hpp
        exact Option.noConfusion hpp
  · exact Option.noConfusion hpp

/-! ## Filesystem-tree maintenance lemmas -/

/-- `chainOk` on a cons, through `childOk`. -/
theorem chainOk_cons (n : String) (c rest : FsNode) :
    chainOk (.dirCons n c rest) = (childOk c && chainOk rest) := by
  cases c <;> rfl

/-- `dirPaths` on a cons, through `entryDirs`. -/
theorem dirPaths_cons (n : String) (c rest : FsNode) :
    dirPaths (.dirCons n c rest) = entryDirs n c ++ dirPaths rest := by
  cases c <;> rfl

/-- A proper chain is not a regular file. -/
theorem chainOk_isDirectory (t : FsNode) (h : chainOk t = true) :
    t.isDirectory = true := by
  cases t with
  | file d => exact absurd h (by simp [chainOk])
  | dirNil => rfl
  | dirCons n c rest => rfl

/-- `childOk` of a non-file is `chainOk`. -/
theorem childOk_eq_chainOk (x : FsNode) (h : x.isDirectory = true) :
    childOk x = chainOk x := by
  cases x with
  | file d => exact absurd h (by simp [FsNode.isDirectory])
  | dirNil => rfl
  | dirCons n c rest => rfl

/-- The membership of `entryDirs`. -/
theorem entryDirs_sub (s : String) (x : FsNode) (q : List String)
    (h : q ∈ entryDirs s x) : q = [s] ∨ ∃ p ∈ dirPaths x, q = s :: p := by
  cases x with
  | file d => exact absurd h (by simp [entryDirs])
  | dirNil =>
    simp only [entryDirs, dirPaths] at h
    simp at h
    exact Or.inl h
  | dirCons n c rest =>
    simp only [entryDirs, List.mem_cons, List.mem_map] at h
    rcases h with h | ⟨p, hp, rfl⟩
    · exact Or.inl h
    · exact Or.inr ⟨p, hp, rfl⟩

/-- `entryDirs` is determined by directoriness and `dirPaths`. -/
theorem entryDirs_congr (s : String) (x c : FsNode)
    (hx : x.isDirectory = true) (hc : c.isDirectory = true)
    (h : dirPaths x = dirPaths c) : entryDirs s x = entryDirs s c := by
  cases x with
  | file d => exact absurd hx (by simp [FsNode.isDirectory])
  | dirNil =>
    cases c with
    | file d => exact absurd hc (by simp [FsNode.isDirectory])
    | dirNil => rfl
    | dirCons m c' rest => simp only [entryDirs, h]
  | dirCons n c' rest =>
    cases c with
    | file d => exact absurd hc (by simp [FsNode.isDirectory])
    | dirNil => simp only [entryDirs, h]
    | dirCons m c'' rest' => simp only [entryDirs, h]

/-- Replacing the entry found at `s` makes it the entry found at `s`. -/
theorem findEntry_setEntry_self (t : FsNode) (s : String) (c x : FsNode)
    (h : findEntry? t s = some c) : findEntry? (setEntry t s x) s = some x := by
  induction t with
  | file d => exact absurd h (by simp [findEntry?])
  | dirNil => exact absurd h (by simp [findEntry?])
  | dirCons n c' rest ihc ihrest =>
    by_cases hn : n = s
    · simp [setEntry, findEntry?, hn]
    · simp only [findEntry?, if_neg hn] at h
      simp only [setEntry, if_neg hn, findEntry?, if_neg hn]
      exact ihrest h

/-- Appending a fresh entry makes it the entry found at its name. -/
theorem findEntry_appendEntry_self (t : FsNode) (s : String) (x : FsNode)
    (h : findEntry? t s = none) : findEntry? (appendEntry t s x) s = some x := by
  induction t with
  | file d => simp [appendEntry, findEntry?]
  | dirNil => simp [appendEntry, findEntry?]
  | dirCons n c rest ihc ihrest =>
    by_cases hn : n = s
    · rw [findEntry?, if_pos hn] at h
      exact Option.noConfusion h
    · rw [findEntry?, if_neg hn] at h
      simp only [appendEntry, findEntry?, if_neg hn]
      exact ihrest h

/-- The child found by `findEntry?` in a proper chain satisfies `childOk`. -/
theorem findEntry_childOk (t : FsNode) (s : String) (c : FsNode)
    (hch : chainOk t = true) (h : findEntry? t s = some c) : childOk c = true := by
  induction t with
  | file d => exact absurd h (by simp [findEntry?])
  | dirNil => exact absurd h (by simp [findEntry?])
  | dirCons n c' rest ihc ihrest =>
    rw [chainOk_cons, Bool.and_eq_true] at hch
    by_cases hn : n = s
    · rw [findEntry?, if_pos hn] at h
      exact (Option.some.inj h) ▸ hch.1
    · rw [findEntry?, if_neg hn] at h
      exact ihrest hch.2 h

/-- The child found by `findEntry?` in a well-formed tree is well-formed. -/
theorem findEntry_wf (t : FsNode) (s : String) (c : FsNode)
    (hwf : wellFormedTree t = true) (h : findEntry? t s = some c) :
    wellFormedTree c = true := by
  induction t with
  | file d => exact absurd h (by simp [findEntry?])
  | dirNil => exact absurd h (by simp [findEntry?])
  | dirCons n c' rest ihc ihrest =>
    simp only [wellFormedTree, Bool.and_eq_true] at hwf
    by_cases hn : n = s
    · rw [findEntry?, if_pos hn] at h
      exact (Option.some.inj h) ▸ hwf.1.2
    · rw [findEntry?, if_neg hn] at h
      exact ihrest hwf.2 h

/-- Replacing an entry with a `childOk` node keeps the chain proper. -/
theorem chainOk_setEntry (t : FsNode) (s : String) (x : FsNode)
    (ht : chainOk t = true) (hx : childOk x = true) :
    chainOk (setEntry t s x) = true := by
  induction t with
  | file d => exact absurd ht (by simp [chainOk])
  | dirNil => exact ht
  | dirCons n c rest ihc ihrest =>
    rw [chainOk_cons, Bool.and_eq_true] at ht
    simp only [setEntry]
    split
    · rw [chainOk_cons, Bool.and_eq_true]
      exact ⟨hx, ht.2⟩
    · rw [chainOk_cons, Bool.and_eq_true]
      exact ⟨ht.1, ihrest ht.2⟩

/-- Appending a `childOk` entry keeps the chain proper. -/
theorem chainOk_appendEntry (t : FsNode) (s : String) (x : FsNode)
    (ht : chainOk t = true) (hx : childOk x = true) :
    chainOk (appendEntry t s x) = true := by
  induction t with
  | file d => exact absurd ht (by simp [chainOk])
  | dirNil =>
    show chainOk (.dirCons s x .dirNil) = true
    rw [chainOk_cons, Bool.and_eq_true]
    exact ⟨hx, rfl⟩
  | dirCons n c rest ihc ihrest =>
    rw [chainOk_cons, Bool.and_eq_true] at ht
    show chainOk (.dirCons n c (appendEntry rest s x)) = true
    rw [chainOk_cons, Bool.and_eq_true]
    exact ⟨ht.1, ihrest ht.2⟩

/-- The chain created by a recursive mkdir is proper. -/
theorem chainOk_mkChain (r : List String) : chainOk (mkChain r) = true := by
  induction r with
  | nil => rfl
  | cons a r ih =>
    show chainOk (.dirCons a (mkChain r) .dirNil) = true
    rw [chainOk_cons, Bool.and_eq_true]
    refine ⟨?_, rfl⟩
    cases hr : mkChain r with
    | file d => rw [hr] at ih; exact absurd ih (by simp [chainOk])
    | dirNil => rfl
    | dirCons m c rest => rw [hr] at ih; exact ih

/-- `childOk` holds of any `mkChain`. -/
theorem childOk_mkChain (r : List String) : childOk (mkChain r) = true := by
  cases hr : mkChain r with
  | file d => rfl
  | dirNil => rfl
  | dirCons m c rest =>
    show chainOk (.dirCons m c rest) = true
    rw [← hr]
    exact chainOk_mkChain r

/-- Replacing an entry with a well-formed node keeps the tree well-formed. -/
theorem wf_setEntry (t : FsNode) (s : String) (x : FsNode)
    (ht : wellFormedTree t = true) (hx : wellFormedTree x = true) :
    wellFormedTree (setEntry t s x) = true := by
  induction t with
  | file d => exact ht
  | dirNil => exact ht
  | dirCons n c rest ihc ihrest =>
    simp only [wellFormedTree, Bool.and_eq_true] at ht
    simp only [setEntry]
    split
    · simp only [wellFormedTree, Bool.and_eq_true]
      exact ⟨⟨ht.1.1, hx⟩, ht.2⟩
    · simp only [wellFormedTree, Bool.and_eq_true]
      exact ⟨ht.1, ihrest ht.2⟩

/-- Appending a well-formed, canonically named entry keeps the tree
well-formed. -/
theorem wf_appendEntry (t : FsNode) (s : String) (x : FsNode)
    (ht : wellFormedTree t = true) (hs : canonicalSeg s = true)
    (hx : wellFormedTree x = true) :
    wellFormedTree (appendEntry t s x) = true := by
  induction t with
  | file d =>
    show wellFormedTree (.dirCons s x .dirNil) = true
    simp [wellFormedTree, hs, hx]
  | dirNil =>
    show wellFormedTree (.dirCons s x .dirNil) = true
    simp [wellFormedTree, hs, hx]
  | dirCons n c rest ihc ihrest =>
    simp only [wellFormedTree, Bool.and_eq_true] at ht
    show wellFormedTree (.dirCons n c (appendEntry rest s x)) = true
    simp only [wellFormedTree, Bool.and_eq_true]
    exact ⟨ht.1, ihrest ht.2⟩

/-- The chain created by a recursive mkdir over canonical segments is
well-formed. -/
theorem wf_mkChain (r : List String) (h : ∀ x ∈ r, canonicalSeg x = true) :
    wellFormedTree (mkChain r) = true := by
  induction r with
  | nil => rfl
  | cons a r ih =>
    show wellFormedTree (.dirCons a (mkChain r) .dirNil) = true
    simp only [wellFormedTree, Bool.and_eq_true]
    refine ⟨⟨h a (List.mem_cons_self _ _), ih (fun x hx => h x (List.mem_cons_of_mem _ hx))⟩, ?_⟩
    trivial

/-- Replacing an entry leaves the top-level name list unchanged. -/
theorem topNamesOk_setEntry (t : FsNode) (s : String) (x : FsNode) :
    topNamesOk (setEntry t s x) = topNamesOk t := by
  induction t with
  | file d => rfl
  | dirNil => rfl
  | dirCons n c rest ihc ihrest =>
    simp only [setEntry]
    split
    · rfl
    · simp only [topNamesOk, ihrest]

/-- Appending an entry whose name does not start with `..` keeps the
top-level names clean. -/
theorem topNamesOk_appendEntry (t : FsNode) (s : String) (x : FsNode)
    (ht : topNamesOk t = true) (hs : strStartsWith s ".." = false) :
    topNamesOk (appendEntry t s x) = true := by
  induction t with
  | file d =>
    show topNamesOk (.dirCons s x .dirNil) = true
    simp [topNamesOk, hs]
  | dirNil =>
    show topNamesOk (.dirCons s x .dirNil) = true
    simp [topNamesOk, hs]
  | dirCons n c rest ihc ihrest =>
    simp only [topNamesOk, Bool.and_eq_true] at ht
    show topNamesOk (.dirCons n c (appendEntry rest s x)) = true
    simp only [topNamesOk, Bool.and_eq_true]
    exact ⟨ht.1, ihrest ht.2⟩

/-- A mkdir chain contains no files. -/
theorem filesOf_mkChain (r : List String) : filesOfNode (mkChain r) = [] := by
  induction r with
  | nil => rfl
  | cons a r ih =>
    show (filesOfNode (mkChain r)).map _ ++ filesOfNode .dirNil = []
    rw [ih]
    rfl

/-- Files below a found entry are files of the tree, under the entry name. -/
theorem filesOf_findEntry_lift (t : FsNode) (s : String) (c : FsNode)
    (h : findEntry? t s = some c) :
    ∀ p b, (p, b) ∈ filesOfNode c → (s :: p, b) ∈ filesOfNode t := by
  induction t with
  | file d => exact absurd h (by simp [findEntry?])
  | dirNil => exact absurd h (by simp [findEntry?])
  | dirCons n c' rest ihc ihrest =>
    intro p b hpb
    by_cases hn : n = s
    · rw [findEntry?, if_pos hn] at h
      subst hn
      refine List.mem_append_left _ ?_
      rw [List.mem_map]
      exact ⟨(p, b), (Option.some.inj h) ▸ hpb, rfl⟩
    · rw [findEntry?, if_neg hn] at h
      exact List.mem_append_right _ (ihrest h p b hpb)

/-- Directories below a found entry are directories of the tree. -/
theorem dirPaths_findEntry_lift (t : FsNode) (s : String) (c : FsNode)
    (h : findEntry? t s = some c) :
    ∀ p ∈ dirPaths c, s :: p ∈ dirPaths t := by
  induction t with
  | file d => exact absurd h (by simp [findEntry?])
  | dirNil => exact absurd h (by simp [findEntry?])
  | dirCons n c' rest ihc ihrest =>
    intro p hp
    rw [dirPaths_cons]
    by_cases hn : n = s
    · rw [findEntry?, if_pos hn] at h
      subst hn
      refine List.mem_append_left _ ?_
      rw [Option.some.inj h]
      cases c with
      | file d => exact absurd hp (by simp [dirPaths])
      | dirNil => exact absurd hp (by simp [dirPaths])
      | dirCons m c'' rest' =>
        simp only [entryDirs, List.mem_cons, List.mem_map]
        exact Or.inr ⟨p, hp, rfl⟩
    · rw [findEntry?, if_neg hn] at h
      exact List.mem_append_right _ (ihrest h p hp)

/-- A found directory entry witnesses its own directory path. -/
theorem dirPaths_findEntry_self (t : FsNode) (s : String) (c : FsNode)
    (h : findEntry? t s = some c) (hc : c.isDirectory = true) : [s] ∈ dirPaths t := by
  induction t with
  | file d => exact absurd h (by simp [findEntry?])
  | dirNil => exact absurd h (by simp [findEntry?])
  | dirCons n c' rest ihc ihrest =>
    rw [dirPaths_cons]
    by_cases hn : n = s
    · rw [findEntry?, if_pos hn] at h
      subst hn
      refine List.mem_append_left _ ?_
      rw [Option.some.inj h]
      cases c with
      | file d => exact absurd hc (by simp [FsNode.isDirectory])
      | dirNil => simp [entryDirs]
      | dirCons m c'' rest' => simp [entryDirs]
    · rw [findEntry?, if_neg hn] at h
      exact List.mem_append_right _ (ihrest h)

/-- Decomposition of `filesOfNode` around the entry found at `s`: replacing
that entry swaps its contribution in place. -/
theorem filesOf_setEntry_decomp (t : FsNode) (s : String) (c : FsNode)
    (h : findEntry? t s = some c) :
    ∃ A B, filesOfNode t = A ++ (filesOfNode c).map (fun sd => (s :: sd.1, sd.2)) ++ B ∧
      ∀ x, filesOfNode (setEntry t s x) =
        A ++ (filesOfNode x).map (fun sd => (s :: sd.1, sd.2)) ++ B := by
  induction t with
  | file d => exact absurd h (by simp [findEntry?])
  | dirNil => exact absurd h (by simp [findEntry?])
  | dirCons n c' rest ihc ihrest =>
    by_cases hn : n = s
    · rw [findEntry?, if_pos hn] at h
      have hcc := Option.some.inj h
      subst hcc
      subst hn
      refine ⟨[], filesOfNode rest, by simp [filesOfNode], ?_⟩
      intro x
      simp [setEntry, filesOfNode]
    · rw [findEntry?, if_neg hn] at h
      obtain ⟨A, B, h1, h2⟩ := ihrest h
      refine ⟨(filesOfNode c').map (fun sd => (n :: sd.1, sd.2)) ++ A, B, ?_, ?_⟩
      · show (filesOfNode c').map _ ++ filesOfNode rest = _
        rw [h1]
        simp
      · intro x
        simp only [setEntry, if_neg hn]
        show (filesOfNode c').map _ ++ filesOfNode (setEntry rest s x) = _
        rw [h2 x]
        simp

/-- Decomposition of `dirPaths` around the entry found at `s`. -/
theorem dirPaths_setEntry_decomp (t : FsNode) (s : String) (c : FsNode)
    (h : findEntry? t s = some c) :
    ∃ A B, dirPaths t = A ++ entryDirs s c ++ B ∧
      ∀ x, dirPaths (setEntry t s x) = A ++ entryDirs s x ++ B := by
  induction t with
  | file d => exact absurd h (by simp [findEntry?])
  | dirNil => exact absurd h (by simp [findEntry?])
  | dirCons n c' rest ihc ihrest =>
    by_cases hn : n = s
    · rw [findEntry?, if_pos hn] at h
      have hcc := Option.some.inj h
      subst hcc
      subst hn
      refine ⟨[], dirPaths rest, by rw [dirPaths_cons]; simp, ?_⟩
      intro x
      have hset : setEntry (.dirCons n c' rest) n x = .dirCons n x rest := by
        simp [setEntry]
      rw [hset, dirPaths_cons]
      simp
    · rw [findEntry?, if_neg hn] at h
      obtain ⟨A, B, h1, h2⟩ := ihrest h
      refine ⟨entryDirs n c' ++ A, B, ?_, ?_⟩
      · rw [dirPaths_cons, h1]
        simp
      · intro x
        simp only [setEntry, if_neg hn]
        rw [dirPaths_cons, h2 x]
        simp

/-- `filesOfNode` after appending an entry to a proper chain. -/
theorem filesOf_appendEntry (t : FsNode) (s : String) (x : FsNode)
    (ht : chainOk t = true) :
    filesOfNode (appendEntry t s x) =
      filesOfNode t ++ (filesOfNode x).map (fun sd => (s :: sd.1, sd.2)) := by
  induction t with
  | file d => exact absurd ht (by simp [chainOk])
  | dirNil =>
    show (filesOfNode x).map _ ++ filesOfNode .dirNil = _
    simp [filesOfNode]
  | dirCons n c rest ihc ihrest =>
    rw [chainOk_cons, Bool.and_eq_true] at ht
    show (filesOfNode c).map _ ++ filesOfNode (appendEntry rest s x) = _
    rw [ihrest ht.2]
    show _ = (filesOfNode c).map _ ++ filesOfNode rest ++ _
    simp

/-- `dirPaths` after appending an entry to a proper chain. -/
theorem dirPaths_appendEntry (t : FsNode) (s : String) (x : FsNode)
    (ht : chainOk t = true) :
    dirPaths (appendEntry t s x) = dirPaths t ++ entryDirs s x := by
  induction t with
  | file d => exact absurd ht (by simp [chainOk])
  | dirNil =>
    show dirPaths (.dirCons s x .dirNil) = _
    rw [dirPaths_cons]
    simp [dirPaths]
  | dirCons n c rest ihc ihrest =>
    rw [chainOk_cons, Bool.and_eq_true] at ht
    show dirPaths (.dirCons n c (appendEntry rest s x)) = _
    rw [dirPaths_cons, ihrest ht.2, dirPaths_cons]
    simp

/-- The directory paths of a mkdir chain are the nonempty prefixes of its
segment list. -/
theorem dirPaths_mkChain_sub (r : List String) :
    ∀ q ∈ dirPaths (mkChain r), q ≠ [] ∧ q <+: r := by
  induction r with
  | nil => intro q hq; exact absurd hq (by simp [mkChain, dirPaths])
  | cons a r ih =>
    intro q hq
    show q ≠ [] ∧ q <+: a :: r
    have : dirPaths (mkChain (a :: r)) = entryDirs a (mkChain r) ++ dirPaths .dirNil := by
      show dirPaths (.dirCons a (mkChain r) .dirNil) = _
      rw [dirPaths_cons]
    rw [this] at hq
    simp only [dirPaths, List.append_nil] at hq
    rcases entryDirs_sub a (mkChain r) q hq with h | ⟨p, hp, rfl⟩
    · subst h
      exact ⟨by simp, r, rfl⟩
    · obtain ⟨hne, hpre⟩ := ih p hp
      exact ⟨by simp, by
        obtain ⟨u, hu⟩ := hpre
        exact ⟨u, by rw [List.cons_append, hu]⟩⟩

/-- Looking up a mkdir chain's own path reaches the empty directory at the
bottom. -/
theorem lookup_mkChain (r : List String) : lookupNode (mkChain r) r = .ok .dirNil := by
  induction r with
  | nil => rfl
  | cons a r ih =>
    show lookupNode (.dirCons a (mkChain r) .dirNil) (a :: r) = _
    simp only [lookupNode, findEntry?, if_pos rfl]
    exact ih

/-! ## `mkdir -p` and `writeFile` success specifications -/

/-- Lookup through a found entry. -/
theorem lookupNode_cons_find (t : FsNode) (s : String) (p : List String) (c : FsNode)
    (ht : t.isDirectory = true) (h : findEntry? t s = some c) :
    lookupNode t (s :: p) = lookupNode c p := by
  rw [lookupNode_cons_eq t s p ht, h]

/-- Lookup of a missing entry. -/
theorem lookupNode_cons_none (t : FsNode) (s : String) (p : List String)
    (ht : t.isDirectory = true) (h : findEntry? t s = none) :
    lookupNode t (s :: p) = .error .enoent := by
  rw [lookupNode_cons_eq t s p ht, h]

/-- Recursive mkdir of the empty path on a directory. -/
theorem mkdirRec_nil (t : FsNode) (ht : t.isDirectory = true) : mkdirRec t [] = .ok t := by
  cases t with
  | file d => simp [FsNode.isDirectory] at ht
  | dirNil => rfl
  | dirCons n c rest => rfl

/-- Recursive mkdir stepping through a found entry. -/
theorem mkdirRec_cons_found_ok (t : FsNode) (s : String) (rest : List String) (c c₁ : FsNode)
    (ht : t.isDirectory = true) (h : findEntry? t s = some c)
    (h2 : mkdirRec c rest = .ok c₁) :
    mkdirRec t (s :: rest) = .ok (setEntry t s c₁) := by
  cases t with
  | file d => simp [FsNode.isDirectory] at ht
  | dirNil => exact absurd h (by simp [findEntry?])
  | dirCons n c' r =>
    simp only [mkdirRec, h, h2, bind, Except.bind, pure, Except.pure]

/-- Recursive mkdir creating the whole missing chain. -/
theorem mkdirRec_cons_none (t : FsNode) (s : String) (rest : List String)
    (ht : t.isDirectory = true) (h : findEntry? t s = none) :
    mkdirRec t (s :: rest) = .ok (appendEntry t s (mkChain rest)) := by
  cases t with
  | file d => simp [FsNode.isDirectory] at ht
  | dirNil => rfl
  | dirCons n c' r =>
    simp only [mkdirRec, h]

/-- Writing a fresh file entry directly in a directory. -/
theorem writeFileNode_single_none (t : FsNode) (n : String) (bytes : List Nat)
    (ht : t.isDirectory = true) (h : findEntry? t n = none) :
    writeFileNode t [n] bytes = .ok (appendEntry t n (.file bytes)) := by
  cases t with
  | file d => simp [FsNode.isDirectory] at ht
  | dirNil => rfl
  | dirCons m c' r =>
    simp only [writeFileNode, h]

/-- Writing through a found entry on a nonempty remaining path. -/
theorem writeFileNode_cons_found_ok (t : FsNode) (s : String) (rest : List String)
    (bytes : List Nat) (c c₁ : FsNode)
    (ht : t.isDirectory = true) (hne : rest ≠ []) (h : findEntry? t s = some c)
    (h2 : writeFileNode c rest bytes = .ok c₁) :
    writeFileNode t (s :: rest) bytes = .ok (setEntry t s c₁) := by
  cases rest with
  | nil => exact absurd rfl hne
  | cons a r =>
    cases t with
    | file d => simp [FsNode.isDirectory] at ht
    | dirNil => exact absurd h (by simp [findEntry?])
    | dirCons m c' r' =>
      simp only [writeFileNode, h, h2, bind, Except.bind, pure, Except.pure]

/-- A directory path of a child is a directory path of the entry. -/
theorem entryDirs_mem_cons (s : String) (c : FsNode) (p : List String)
    (hp : p ∈ dirPaths c) : s :: p ∈ entryDirs s c := by
  cases c with
  | file d => exact absurd hp (by simp [dirPaths])
  | dirNil => exact absurd hp (by simp [dirPaths])
  | dirCons m c' rest =>
    simp only [entryDirs, List.mem_cons, List.mem_map]
    exact Or.inr ⟨p, hp, rfl⟩

/-- A directory entry contributes its own singleton path. -/
theorem entryDirs_self_mem (s : String) (c : FsNode) (hc : c.isDirectory = true) :
    [s] ∈ entryDirs s c := by
  cases c with
  | file d => exact absurd hc (by simp [FsNode.isDirectory])
  | dirNil => simp [entryDirs]
  | dirCons m c' rest => simp [entryDirs]

/-- In a proper chain with no file sitting on (a prefix of) the path, lookup
either reaches a directory or reports `ENOENT`. -/
theorem lookup_classify (q : List String) : ∀ t : FsNode,
    chainOk t = true →
    (∀ q' d, q' ≠ [] → q' <+: q → (q', d) ∉ filesOfNode t) →
    (∃ nd, lookupNode t q = .ok nd ∧ nd.isDirectory = true) ∨
      lookupNode t q = .error .enoent := by
  induction q with
  | nil =>
    intro t hch _
    exact Or.inl ⟨t, lookupNode_nil t, chainOk_isDirectory t hch⟩
  | cons s q' ih =>
    intro t hch hnof
    have htd := chainOk_isDirectory t hch
    rcases hfe : findEntry? t s with _ | c
    · exact Or.inr (lookupNode_cons_none t s q' htd hfe)
    · have hcd : c.isDirectory = true := by
        cases hcf : c with
        | file d =>
          exfalso
          refine hnof [s] d (by simp) ⟨q', rfl⟩ ?_
          refine filesOf_findEntry_lift t s c hfe [] d ?_
          rw [hcf]
          exact List.mem_singleton.mpr rfl
        | dirNil => rfl
        | dirCons m c₀ r => rfl
      have hcch : chainOk c = true := by
        rw [← childOk_eq_chainOk c hcd]
        exact findEntry_childOk t s c hch hfe
      have hcnof : ∀ q'' d, q'' ≠ [] → q'' <+: q' → (q'', d) ∉ filesOfNode c := by
        intro q'' d hne hpre hmem
        refine hnof (s :: q'') d (by simp) ?_ (filesOf_findEntry_lift t s c hfe q'' d hmem)
        obtain ⟨u, hu⟩ := hpre
        exact ⟨u, by rw [List.cons_append, hu]⟩
      rw [lookupNode_cons_find t s q' c htd hfe]
      exact ih c hcch hcnof

/-- Success and effect of `fs.mkdir(..., {recursive: true})` on a proper chain
with no file blocking the path: all conditions are preserved, the target
becomes a directory, no file is touched, and the only new directories are
prefixes of the created path. -/
theorem mkdirRec_spec (q : List String) : ∀ t : FsNode,
    chainOk t = true → wellFormedTree t = true →
    (∀ x ∈ q, canonicalSeg x = true) →
    (∀ q' d, q' ≠ [] → q' <+: q → (q', d) ∉ filesOfNode t) →
    ∃ t₁, mkdirRec t q = .ok t₁ ∧
      chainOk t₁ = true ∧ wellFormedTree t₁ = true ∧
      (∃ nd, lookupNode t₁ q = .ok nd ∧ nd.isDirectory = true) ∧
      filesOfNode t₁ = filesOfNode t ∧
      (∀ r ∈ dirPaths t₁, r ∈ dirPaths t ∨ (r ≠ [] ∧ r <+: q)) ∧
      (topNamesOk t = true → (∀ s, q.head? = some s → strStartsWith s ".." = false) →
        topNamesOk t₁ = true) := by
  induction q with
  | nil =>
    intro t hch hwf _ _
    exact ⟨t, mkdirRec_nil t (chainOk_isDirectory t hch), hch, hwf,
      ⟨t, lookupNode_nil t, chainOk_isDirectory t hch⟩, rfl,
      fun r hr => Or.inl hr, fun htop _ => htop⟩
  | cons s q' ih =>
    intro t hch hwf hcanon hnof
    have htd := chainOk_isDirectory t hch
    rcases hfe : findEntry? t s with _ | c
    · refine ⟨appendEntry t s (mkChain q'), mkdirRec_cons_none t s q' htd hfe,
        chainOk_appendEntry t s _ hch (childOk_mkChain q'),
        wf_appendEntry t s _ hwf (hcanon s (List.mem_cons_self _ _))
          (wf_mkChain q' (fun x hx => hcanon x (List.mem_cons_of_mem _ hx))),
        ⟨.dirNil, ?_, rfl⟩, ?_, ?_, ?_⟩
      · rw [lookupNode_cons_find _ s q' (mkChain q') (appendEntry_isDirectory t s _)
          (findEntry_appendEntry_self t s _ hfe)]
        exact lookup_mkChain q'
      · rw [filesOf_appendEntry t s _ hch, filesOf_mkChain]
        simp
      · intro r hr
        rw [dirPaths_appendEntry t s _ hch] at hr
        rcases List.mem_append.mp hr with hr | hr
        · exact Or.inl hr
        · rcases entryDirs_sub s (mkChain q') r hr with hr | ⟨p, hp, rfl⟩
          · subst hr
            exact Or.inr ⟨by simp, ⟨q', rfl⟩⟩
          · obtain ⟨hpne, u, hu⟩ := dirPaths_mkChain_sub q' p hp
            exact Or.inr ⟨by simp, ⟨u, by rw [List.cons_append, hu]⟩⟩
      · intro htop hhd
        exact topNamesOk_appendEntry t s _ htop (hhd s rfl)
    · have hcd : c.isDirectory = true := by
        cases hcf : c with
        | file d =>
          exfalso
          refine hnof [s] d (by simp) ⟨q', rfl⟩ ?_
          refine filesOf_findEntry_lift t s c hfe [] d ?_
          rw [hcf]
          exact List.mem_singleton.mpr rfl
        | dirNil => rfl
        | dirCons m c₀ r => rfl
      have hcch : chainOk c = true := by
        rw [← childOk_eq_chainOk c hcd]
        exact findEntry_childOk t s c hch hfe
      have hcnof : ∀ q'' d, q'' ≠ [] → q'' <+: q' → (q'', d) ∉ filesOfNode c := by
        intro q'' d hne hpre hmem
        refine hnof (s :: q'') d (by simp) ?_ (filesOf_findEntry_lift t s c hfe q'' d hmem)
        obtain ⟨u, hu⟩ := hpre
        exact ⟨u, by rw [List.cons_append, hu]⟩
      obtain ⟨c₁, hmk, hc₁ch, hc₁wf, ⟨nd, hlook, hnd⟩, hfilesC, hdirsC, -⟩ :=
        ih c hcch (findEntry_wf t s c hwf hfe)
          (fun x hx => hcanon x (List.mem_cons_of_mem _ hx)) hcnof
      have hc₁d := chainOk_isDirectory c₁ hc₁ch
      obtain ⟨A, B, hABf, hsetf⟩ := filesOf_setEntry_decomp t s c hfe
      obtain ⟨DA, DB, hABd, hsetd⟩ := dirPaths_setEntry_decomp t s c hfe
      refine ⟨setEntry t s c₁, mkdirRec_cons_found_ok t s q' c c₁ htd hfe hmk,
        chainOk_setEntry t s c₁ hch (by rw [childOk_eq_chainOk c₁ hc₁d]; exact hc₁ch),
        wf_setEntry t s c₁ hwf hc₁wf, ⟨nd, ?_, hnd⟩, ?_, ?_, ?_⟩
      · rw [lookupNode_cons_find _ s q' c₁
          (setEntry_isDirectory t s c₁ htd) (findEntry_setEntry_self t s c c₁ hfe)]
        exact hlook
      · rw [hsetf c₁, hfilesC, ← hABf]
      · intro r hr
        rw [hsetd c₁] at hr
        rcases List.mem_append.mp hr with hr | hr
        · rcases List.mem_append.mp hr with hr | hr
          · exact Or.inl (by rw [hABd]; exact List.mem_append_left _ (List.mem_append_left _ hr))
          · rcases entryDirs_sub s c₁ r hr with hr | ⟨p, hp, rfl⟩
            · subst hr
              exact Or.inr ⟨by simp, ⟨q', rfl⟩⟩
            · rcases hdirsC p hp with hp' | ⟨hpne, u, hu⟩
              · refine Or.inl ?_
                rw [hABd]
                exact List.mem_append_left _
                  (List.mem_append_right _ (entryDirs_mem_cons s c p hp'))
              · exact Or.inr ⟨by simp, ⟨u, by rw [List.cons_append, hu]⟩⟩
        · exact Or.inl (by rw [hABd]; exact List.mem_append_right _ hr)
      · intro htop _
        rw [topNamesOk_setEntry]
        exact htop

/-- Success and effect of `fs.writeFile` below an existing directory whose
target name is not taken by a directory and not already one of the bookkept
files: the chain stays proper and well-formed, the file multiset gains
exactly the new record, and no directory appears or disappears. -/
theorem writeFileNode_spec (q : List String) : ∀ (t : FsNode) (n : String) (bytes : List Nat),
    chainOk t = true → wellFormedTree t = true → canonicalSeg n = true →
    (∃ nd, lookupNode t q = .ok nd ∧ nd.isDirectory = true) →
    (∀ d, (q ++ [n], d) ∉ filesOfNode t) →
    (q ++ [n]) ∉ dirPaths t →
    ∃ t₂, writeFileNode t (q ++ [n]) bytes = .ok t₂ ∧
      chainOk t₂ = true ∧ wellFormedTree t₂ = true ∧
      (filesOfNode t₂).Perm ((q ++ [n], bytes) :: filesOfNode t) ∧
      dirPaths t₂ = dirPaths t ∧
      (topNamesOk t = true →
        (∀ s, (q ++ [n]).head? = some s → strStartsWith s ".." = false) →
        topNamesOk t₂ = true) := by
  induction q with
  | nil =>
    intro t n bytes hch hwf hn hlk hnof hnod
    simp only [List.nil_append] at hnof hnod ⊢
    have htd := chainOk_isDirectory t hch
    rcases hfe : findEntry? t n with _ | c
    · refine ⟨appendEntry t n (.file bytes), writeFileNode_single_none t n bytes htd hfe,
        chainOk_appendEntry t n _ hch rfl,
        wf_appendEntry t n _ hwf hn rfl, ?_, ?_, ?_⟩
      · rw [filesOf_appendEntry t n _ hch]
        show (filesOfNode t ++ [([n], bytes)]).Perm _
        exact List.perm_append_singleton _ _
      · rw [dirPaths_appendEntry t n _ hch]
        simp [entryDirs]
      · intro htop hhd
        exact topNamesOk_appendEntry t n _ htop (hhd n rfl)
    · exfalso
      cases hcf : c with
      | file d =>
        refine hnof d (filesOf_findEntry_lift t n c hfe [] d ?_)
        rw [hcf]
        exact List.mem_singleton.mpr rfl
      | dirNil => exact hnod (dirPaths_findEntry_self t n c hfe (by rw [hcf]; rfl))
      | dirCons m c₀ r => exact hnod (dirPaths_findEntry_self t n c hfe (by rw [hcf]; rfl))
  | cons s q' ih =>
    intro t n bytes hch hwf hn hlk hnof hnod
    obtain ⟨nd, hlook, hnd⟩ := hlk
    have htd := chainOk_isDirectory t hch
    rcases hfe : findEntry? t s with _ | c
    · rw [lookupNode_cons_none t s q' htd hfe] at hlook
      exact absurd hlook (by simp)
    · rw [lookupNode_cons_find t s q' c htd hfe] at hlook
      have hcd : c.isDirectory = true := by
        cases hcf : c with
        | file d =>
          subst hcf
          cases q' with
          | nil =>
            rw [lookupNode_nil] at hlook
            rw [← Except.ok.inj hlook] at hnd
            exact absurd hnd (by simp [FsNode.isDirectory])
          | cons a r => exact absurd hlook (by simp [lookupNode])
        | dirNil => rfl
        | dirCons m c₀ r => rfl
      have hcch : chainOk c = true := by
        rw [← childOk_eq_chainOk c hcd]
        exact findEntry_childOk t s c hch hfe
      have hnofc : ∀ d, (q' ++ [n], d) ∉ filesOfNode c := by
        intro d hmem
        exact hnof d (filesOf_findEntry_lift t s c hfe (q' ++ [n]) d hmem)
      have hnodc : (q' ++ [n]) ∉ dirPaths c := by
        intro hmem
        exact hnod (dirPaths_findEntry_lift t s c hfe _ hmem)
      obtain ⟨c₂, hwr, hc₂ch, hc₂wf, hc₂files, hc₂dirs, -⟩ :=
        ih c n bytes hcch (findEntry_wf t s c hwf hfe) hn ⟨nd, hlook, hnd⟩ hnofc hnodc
      have hc₂d := chainOk_isDirectory c₂ hc₂ch
      obtain ⟨A, B, hABf, hsetf⟩ := filesOf_setEntry_decomp t s c hfe
      obtain ⟨DA, DB, hABd, hsetd⟩ := dirPaths_setEntry_decomp t s c hfe
      refine ⟨setEntry t s c₂,
        writeFileNode_cons_found_ok t s (q' ++ [n]) bytes c c₂ htd (by simp) hfe hwr,
        chainOk_setEntry t s c₂ hch (by rw [childOk_eq_chainOk c₂ hc₂d]; exact hc₂ch),
        wf_setEntry t s c₂ hwf hc₂wf, ?_, ?_, ?_⟩
      · have hmapped : (filesOfNode c₂).map (fun sd => (s :: sd.1, sd.2)) |>.Perm
            ((s :: (q' ++ [n]), bytes) ::
              (filesOfNode c).map (fun sd => (s :: sd.1, sd.2))) := by
          have hm := hc₂files.map (fun sd => (s :: sd.1, sd.2))
          simpa using hm
        rw [hsetf c₂, hABf]
        refine ((hmapped.append_left A).append_right B).trans ?_
        have he : A ++ ((s :: (q' ++ [n]), bytes) ::
            (filesOfNode c).map (fun sd => (s :: sd.1, sd.2))) ++ B =
            A ++ (s :: (q' ++ [n]), bytes) ::
              ((filesOfNode c).map (fun sd => (s :: sd.1, sd.2)) ++ B) := by
          simp
        rw [he]
        have hend : ((s :: q') ++ [n], bytes) ::
            (A ++ (filesOfNode c).map (fun sd => (s :: sd.1, sd.2)) ++ B) =
            (s :: (q' ++ [n]), bytes) ::
              (A ++ ((filesOfNode c).map (fun sd => (s :: sd.1, sd.2)) ++ B)) := by
          simp
        rw [hend]
        exact List.perm_middle
      · rw [hsetd c₂, hABd, entryDirs_congr s c₂ c hc₂d hcd hc₂dirs]
      · intro htop _
        rw [topNamesOk_setEntry]
        exact htop

/-! ## Success run of `writeFiles` on a fresh work directory -/

/-- Unpacks the data-model invariants of a well-formed record. -/
theorem wellFormedFile_unpack (f : File) (h : wellFormedFile f = true) :
    ∃ p bs, parsedParent f.parentPath = some p ∧
      canonicalSeg f.name = true ∧
      f.path = "./" ++ joinSegs (p ++ [f.name]) ∧
      f.data = .buffer bs := by
  unfold wellFormedFile at h
  rcases hpp : parsedParent f.parentPath with _ | p
  · rw [hpp] at h
    exact absurd h (by simp)
  · rw [hpp] at h
    dsimp only at h
    simp only [Bool.and_eq_true, decide_eq_true_eq] at h
    obtain ⟨⟨h1, h2⟩, h3⟩ := h
    rcases hdata : f.data with bs | es | kvs | pr <;> rw [hdata] at h3
    · exact ⟨p, bs, rfl, h1, h2, rfl⟩
    · exact absurd h3 (by simp)
    · exact absurd h3 (by simp)
    · exact absurd h3 (by simp)

/-- The segments of a parseable parent path are canonical. -/
theorem parsedParent_canon (pp : String) (p : List String)
    (h : parsedParent pp = some p) : ∀ x ∈ p, canonicalSeg x = true := by
  rcases parsedParent_shape pp p h with ⟨hpe, -⟩ | ⟨-, hc, -⟩
  · subst hpe
    intro x hx
    exact absurd hx (by simp)
  · exact hc

/-- Canonicity over an append. -/
theorem canonAll_append (a b : List String) (ha : ∀ x ∈ a, canonicalSeg x = true)
    (hb : ∀ x ∈ b, canonicalSeg x = true) : ∀ x ∈ a ++ b, canonicalSeg x = true := by
  intro x hx
  rcases List.mem_append.mp hx with hx | hx
  · exact ha x hx
  · exact hb x hx

/-- Canonicity of a singleton. -/
theorem canonAll_singleton (n : String) (hn : canonicalSeg n = true) :
    ∀ x ∈ [n], canonicalSeg x = true := by
  intro x hx
  simp at hx
  subst hx
  exact hn

/-- `head?` determines `headI`. -/
theorem headI_of_head? (l : List String) (s : String) (h : l.head? = some s) :
    l.headI = s := by
  cases l with
  | nil => exact Option.noConfusion h
  | cons a l => exact Option.some.inj h

/-- `checkFolderExists` through a successful stat. -/
theorem checkFolderExists_lookup_ok (root : FsNode) (cwd path : String) (nd : FsNode)
    (h : lookupNode root (resolveSegs cwd path) = .ok nd) :
    checkFolderExists root cwd path = .ok nd.isDirectory := by
  unfold checkFolderExists
  rw [h]

/-- `checkFolderExists` on a missing path. -/
theorem checkFolderExists_lookup_enoent (root : FsNode) (cwd path : String)
    (h : lookupNode root (resolveSegs cwd path) = .error .enoent) :
    checkFolderExists root cwd path = .ok false := by
  unfold checkFolderExists
  rw [h]

/-- Resolved target directory and target file of one record under the work
directory `/w`. -/
theorem writeTarget_eval (cwd : String) (pp : String) (p : List String)
    (hpp : parsedParent pp = some p) (n : String) (hn : canonicalSeg n = true) :
    resolveSegs cwd (posixJoin (absOf ["w"]) pp) = "w" :: p ∧
    resolveSegs cwd (posixJoin (posixJoin (absOf ["w"]) pp) n) = "w" :: (p ++ [n]) := by
  have hw : ∀ x ∈ (["w"] : List String), canonicalSeg x = true :=
    canonAll_singleton "w" (by decide)
  rcases parsedParent_shape pp p hpp with ⟨hpe, hppe⟩ | ⟨hpne, hpc, hppe⟩
  · subst hpe
    subst hppe
    rw [posixJoin_absOf_dotSlash ["w"] hw (by simp)]
    refine ⟨resolveSegs_absOf_slash cwd ["w"] hw, ?_⟩
    rw [posixJoin_absOf_slash_seg ["w"] n hw hn,
      resolveSegs_absOf cwd _ (canonAll_append _ _ hw (canonAll_singleton n hn))]
    simp
  · subst hppe
    rw [posixJoin_absOf_parent ["w"] p hw hpc hpne]
    refine ⟨?_, ?_⟩
    · rw [resolveSegs_absOf cwd _ (canonAll_append _ _ hw hpc)]
      exact List.singleton_append
    · rw [posixJoin_absOf_seg (["w"] ++ p) n (canonAll_append _ _ hw hpc) hn,
        resolveSegs_absOf cwd _
          (canonAll_append _ _ (canonAll_append _ _ hw hpc) (canonAll_singleton n hn))]
      simp

/-- Evaluation of `writeData` on the work-directory root shape. -/
theorem writeData_eval (cwd : String) (t₁ t₂ : FsNode) (f : File) (p : List String)
    (bs : List Nat)
    (hdata : f.data = .buffer bs)
    (hres2 : resolveSegs cwd (posixJoin (posixJoin (absOf ["w"]) f.parentPath) f.name) =
      "w" :: (p ++ [f.name]))
    (hwfn : writeFileNode t₁ (p ++ [f.name]) bs = .ok t₂) :
    writeData cwd (.dirCons "w" t₁ .dirNil) (posixJoin (absOf ["w"]) f.parentPath) f =
      (.dirCons "w" t₂ .dirNil, none) := by
  unfold writeData
  rw [hdata]
  simp only [normalizeBuffer]
  rw [hres2, writeFileNode_cons_found_ok (.dirCons "w" t₁ .dirNil) "w" (p ++ [f.name]) bs
    t₁ t₂ rfl (by simp) (by simp [findEntry?]) hwfn]
  simp [setEntry]

/-- One loop iteration of `writeFiles` on a record whose target does not
collide with anything on disk: the record's file is added, every path fact
is maintained, and the new directories are strict prefixes of the target. -/
theorem writeOne_record (cwd : String) (t : FsNode) (f : File)
    (hch : chainOk t = true) (hwf : wellFormedTree t = true)
    (hf : wellFormedFile f = true)
    (hnof : ∀ q' d, q' ≠ [] → q' <+: relTarget f → (q', d) ∉ filesOfNode t)
    (hnod : relTarget f ∉ dirPaths t) :
    ∃ t', writeOne cwd (absOf ["w"]) (.dirCons "w" t .dirNil) f =
        (.dirCons "w" t' .dirNil, none) ∧
      chainOk t' = true ∧ wellFormedTree t' = true ∧
      (filesOfNode t').Perm ((relTarget f, bufferBytes f) :: filesOfNode t) ∧
      (∀ r ∈ dirPaths t', r ∈ dirPaths t ∨
        (r ≠ [] ∧ r <+: relTarget f ∧ r ≠ relTarget f)) ∧
      (topNamesOk t = true →
        (∀ s, (relTarget f).head? = some s → strStartsWith s ".." = false) →
        topNamesOk t' = true) := by
  obtain ⟨p, bs, hpp, hn, hpath, hdata⟩ := wellFormedFile_unpack f hf
  have hrel : relTarget f = p ++ [f.name] := by
    unfold relTarget
    rw [hpp]
  have hbb : bufferBytes f = bs := by
    unfold bufferBytes
    rw [hdata]
  have hpc := parsedParent_canon _ _ hpp
  obtain ⟨hres1, hres2⟩ := writeTarget_eval cwd f.parentPath p hpp f.name hn
  rw [hrel] at hnof hnod
  rw [hrel, hbb]
  have hnof' : ∀ q' d, q' ≠ [] → q' <+: p → (q', d) ∉ filesOfNode t := by
    intro q' d hne hpre
    exact hnof q' d hne (hpre.trans ⟨[f.name], rfl⟩)
  have hroot_fe : findEntry? (.dirCons "w" t .dirNil) "w" = some t := by
    simp [findEntry?]
  rcases lookup_classify p t hch hnof' with ⟨nd, hlk, hnd⟩ | hlk
  · have hcfe : checkFolderExists (.dirCons "w" t .dirNil) cwd
        (posixJoin (absOf ["w"]) f.parentPath) = .ok true := by
      have hc := checkFolderExists_lookup_ok (.dirCons "w" t .dirNil) cwd
        (posixJoin (absOf ["w"]) f.parentPath) nd
        (by rw [hres1, lookupNode_cons_find (.dirCons "w" t .dirNil) "w" p t rfl hroot_fe]
            exact hlk)
      rw [hc, hnd]
    obtain ⟨t₂, hwr, ht₂ch, ht₂wf, ht₂files, ht₂dirs, ht₂top⟩ :=
      writeFileNode_spec p t f.name bs hch hwf hn ⟨nd, hlk, hnd⟩
        (fun d => hnof (p ++ [f.name]) d (by simp) (List.prefix_refl _)) hnod
    refine ⟨t₂, ?_, ht₂ch, ht₂wf, ht₂files, ?_, ?_⟩
    · unfold writeOne
      rw [hcfe]
      exact writeData_eval cwd t t₂ f p bs hdata hres2 hwr
    · intro r hr
      rw [ht₂dirs] at hr
      exact Or.inl hr
    · intro htop hhd
      exact ht₂top htop hhd
  · have hcfe : checkFolderExists (.dirCons "w" t .dirNil) cwd
        (posixJoin (absOf ["w"]) f.parentPath) = .ok false := by
      refine checkFolderExists_lookup_enoent _ _ _ ?_
      rw [hres1, lookupNode_cons_find (.dirCons "w" t .dirNil) "w" p t rfl hroot_fe]
      exact hlk
    obtain ⟨t₁, hmk, ht₁ch, ht₁wf, hlk₁, ht₁files, ht₁dirs, ht₁top⟩ :=
      mkdirRec_spec p t hch hwf hpc hnof'
    have hmkroot : mkdirRec (.dirCons "w" t .dirNil) ("w" :: p) =
        .ok (.dirCons "w" t₁ .dirNil) := by
      rw [mkdirRec_cons_found_ok (.dirCons "w" t .dirNil) "w" p t t₁ rfl hroot_fe hmk]
      simp [setEntry]
    have hnod₁ : (p ++ [f.name]) ∉ dirPaths t₁ := by
      intro hmem
      rcases ht₁dirs _ hmem with hmem | ⟨-, hpre⟩
      · exact hnod hmem
      · have hle := hpre.length_le
        simp only [List.length_append, List.length_cons, List.length_nil] at hle
        omega
    have hnof₁ : ∀ d, (p ++ [f.name], d) ∉ filesOfNode t₁ := by
      intro d hmem
      rw [ht₁files] at hmem
      exact hnof (p ++ [f.name]) d (by simp) (List.prefix_refl _) hmem
    obtain ⟨t₂, hwr, ht₂ch, ht₂wf, ht₂files, ht₂dirs, ht₂top⟩ :=
      writeFileNode_spec p t₁ f.name bs ht₁ch ht₁wf hn hlk₁ hnof₁ hnod₁
    refine ⟨t₂, ?_, ht₂ch, ht₂wf, ?_, ?_, ?_⟩
    · unfold writeOne
      rw [hcfe, hres1, hmkroot]
      exact writeData_eval cwd t₁ t₂ f p bs hdata hres2 hwr
    · refine ht₂files.trans ?_
      rw [ht₁files]
    · intro r hr
      rw [ht₂dirs] at hr
      rcases ht₁dirs r hr with hr' | ⟨hne, hpre⟩
      · exact Or.inl hr'
      · refine Or.inr ⟨hne, hpre.trans ⟨[f.name], rfl⟩, ?_⟩
        intro hc
        have hle := hpre.length_le
        rw [hc] at hle
        simp only [List.length_append, List.length_cons, List.length_nil] at hle
        omega
    · intro htop hhd
      refine ht₂top (ht₁top htop ?_) hhd
      intro s hs
      cases hp : p with
      | nil =>
        rw [hp] at hs
        exact Option.noConfusion hs
      | cons a p' =>
        rw [hp] at hs
        rw [← Option.some.inj hs]
        refine hhd a ?_
        rw [hp]
        rfl

/-- The full loop on pairwise prefix-incomparable well-formed records whose
targets are absent from the current tree: every record gets written, the file
multiset grows by exactly the record targets, and the path facts are
maintained. -/
theorem writeLoop_w (cwd : String) (files : List File) : ∀ t : FsNode,
    chainOk t = true → wellFormedTree t = true →
    (∀ f ∈ files, wellFormedFile f = true) →
    List.Pairwise
      (fun f g => ¬ relTarget f <+: relTarget g ∧ ¬ relTarget g <+: relTarget f) files →
    (∀ f ∈ files, ∀ q' d, q' ≠ [] → q' <+: relTarget f → (q', d) ∉ filesOfNode t) →
    (∀ f ∈ files, relTarget f ∉ dirPaths t) →
    ∃ t', writeLoop cwd (absOf ["w"]) (.dirCons "w" t .dirNil) files =
        (.dirCons "w" t' .dirNil, none) ∧
      chainOk t' = true ∧ wellFormedTree t' = true ∧
      (filesOfNode t').Perm
        (files.map (fun f => (relTarget f, bufferBytes f)) ++ filesOfNode t) ∧
      (∀ r ∈ dirPaths t', r ∈ dirPaths t ∨
        (r ≠ [] ∧ ∃ f ∈ files, r <+: relTarget f ∧ r ≠ relTarget f)) ∧
      (topNamesOk t = true →
        (∀ f ∈ files, ∀ s, (relTarget f).head? = some s → strStartsWith s ".." = false) →
        topNamesOk t' = true) := by
  induction files with
  | nil =>
    intro t hch hwf _ _ _ _
    exact ⟨t, rfl, hch, hwf, by simp, fun r hr => Or.inl hr, fun htop _ => htop⟩
  | cons g rest ih =>
    intro t hch hwf hallwf hpair hnof hnod
    obtain ⟨t₁, hone, ht₁ch, ht₁wf, ht₁files, ht₁dirs, ht₁top⟩ :=
      writeOne_record cwd t g hch hwf (hallwf g (List.mem_cons_self _ _))
        (hnof g (List.mem_cons_self _ _)) (hnod g (List.mem_cons_self _ _))
    have hpair' := List.pairwise_cons.mp hpair
    have hnof₁ : ∀ f ∈ rest, ∀ q' d, q' ≠ [] → q' <+: relTarget f →
        (q', d) ∉ filesOfNode t₁ := by
      intro f hfm q' d hne hpre hmem
      rcases List.mem_cons.mp (ht₁files.mem_iff.mp hmem) with heq | hmem'
      · have hq : q' = relTarget g := congrArg Prod.fst heq
        rw [hq] at hpre
        exact (hpair'.1 f hfm).1 hpre
      · exact hnof f (List.mem_cons_of_mem _ hfm) q' d hne hpre hmem'
    have hnod₁ : ∀ f ∈ rest, relTarget f ∉ dirPaths t₁ := by
      intro f hfm hmem
      rcases ht₁dirs _ hmem with hmem' | ⟨-, hpre, -⟩
      · exact hnod f (List.mem_cons_of_mem _ hfm) hmem'
      · exact (hpair'.1 f hfm).2 hpre
    obtain ⟨t', hloop, ht'ch, ht'wf, ht'files, ht'dirs, ht'top⟩ :=
      ih t₁ ht₁ch ht₁wf (fun f hf => hallwf f (List.mem_cons_of_mem _ hf)) hpair'.2
        hnof₁ hnod₁
    refine ⟨t', ?_, ht'ch, ht'wf, ?_, ?_, ?_⟩
    · show writeLoop cwd (absOf ["w"]) (.dirCons "w" t .dirNil) (g :: rest) = _
      simp only [writeLoop, hone]
      exact hloop
    · refine ht'files.trans ?_
      have he : (g :: rest).map (fun f => (relTarget f, bufferBytes f)) ++ filesOfNode t =
          (relTarget g, bufferBytes g) ::
            (rest.map (fun f => (relTarget f, bufferBytes f)) ++ filesOfNode t) := by
        simp
      rw [he]
      refine (List.Perm.append_left _ ht₁files).trans ?_
      exact List.perm_middle
    · intro r hr
      rcases ht'dirs r hr with hr' | ⟨hne, f, hfm, hpre, hneq⟩
      · rcases ht₁dirs r hr' with hr'' | ⟨hne, hpre, hneq⟩
        · exact Or.inl hr''
        · exact Or.inr ⟨hne, g, List.mem_cons_self _ _, hpre, hneq⟩
      · exact Or.inr ⟨hne, f, List.mem_cons_of_mem _ hfm, hpre, hneq⟩
    · intro htop hhd
      refine ht'top (ht₁top htop (hhd g (List.mem_cons_self _ _))) ?_
      intro f hf s hs
      exact hhd f (List.mem_cons_of_mem _ hf) s hs

/-- `writeFiles` into the fresh empty work directory `/w`: the run succeeds,
returns the fingerprint of the supplied records, and leaves a tree whose file
multiset is exactly the record targets. -/
theorem writeFiles_w (cwd : String) (files : List File)
    (hallwf : ∀ f ∈ files, wellFormedFile f = true)
    (hpair : List.Pairwise
      (fun f g => ¬ relTarget f <+: relTarget g ∧ ¬ relTarget g <+: relTarget f) files) :
    ∃ t' h, writeFiles cwd (.dirCons "w" .dirNil .dirNil) "/w" files =
        (.dirCons "w" t' .dirNil, .ok h) ∧
      computeMetaHash files = .ok h ∧
      chainOk t' = true ∧ wellFormedTree t' = true ∧
      (filesOfNode t').Perm (files.map (fun f => (relTarget f, bufferBytes f))) ∧
      ((∀ f ∈ files, ∀ s, (relTarget f).head? = some s → strStartsWith s ".." = false) →
        topNamesOk t' = true) := by
  have hw0 : ("/w" : String) = absOf ["w"] := rfl
  rw [hw0]
  have hw : ∀ x ∈ (["w"] : List String), canonicalSeg x = true :=
    canonAll_singleton "w" (by decide)
  have hcfw : checkFolderExists (.dirCons "w" .dirNil .dirNil) cwd (absOf ["w"]) =
      .ok true := by
    have hc := checkFolderExists_lookup_ok (.dirCons "w" .dirNil .dirNil) cwd
      (absOf ["w"]) .dirNil
      (by rw [resolveSegs_absOf cwd ["w"] hw]; simp [lookupNode, findEntry?])
    rw [hc]
    rfl
  have hensure : ensureWorkDir cwd (.dirCons "w" .dirNil .dirNil) (absOf ["w"]) =
      (.dirCons "w" .dirNil .dirNil, none) := by
    unfold ensureWorkDir
    rw [hcfw]
  obtain ⟨t', hloop, ht'ch, ht'wf, ht'files, ht'dirs, ht'top⟩ :=
    writeLoop_w cwd files .dirNil rfl rfl hallwf hpair
      (by intro f hf q' d hne hpre hmem; simp [filesOfNode] at hmem)
      (by intro f hf hmem; simp [dirPaths] at hmem)
  have hnorm : ∀ f ∈ files, ∃ bs, normalizeBuffer f.data = .ok bs := by
    intro f hf
    obtain ⟨p, bs, -, -, -, hdata⟩ := wellFormedFile_unpack f (hallwf f hf)
    exact ⟨bs, by rw [hdata]; rfl⟩
  obtain ⟨h, hmeta⟩ := computeMetaHash_ok files hnorm
  refine ⟨t', h, ?_, hmeta, ht'ch, ht'wf, by simpa [filesOfNode] using ht'files,
    fun hhd => ht'top rfl hhd⟩
  simp only [writeFiles, hensure, hloop, hmeta]

/-! ## Walking a written tree back out -/

/-- Success case of `stripBasePath` when the full path resolves under the
base path and the first extra segment does not begin with `..`. -/
theorem stripBasePath_under (cwd fullPath basePath : String) (rest : List String)
    (hrest : resolveSegs cwd fullPath = resolveSegs cwd basePath ++ rest)
    (hhead : ∀ s, rest.head? = some s → strStartsWith s ".." = false) :
    stripBasePath cwd fullPath basePath =
      .ok (if rest = [] then "." else joinSegs rest) := by
  have hrel : posixRelative cwd basePath fullPath = joinSegs rest := by
    unfold posixRelative
    rw [hrest, relSegs_append]
  have hclean : ∀ x ∈ rest, canonicalSeg x = true := by
    intro x hx
    exact resolveSegs_canonical cwd fullPath x (by rw [hrest]; exact List.mem_append_right _ hx)
  have hsw : strStartsWith (posixRelative cwd basePath fullPath) ".." = false := by
    rw [hrel]
    cases rest with
    | nil => decide
    | cons s rest' =>
      rw [strStartsWith_dotdot_joinSegs s rest'
        (canonicalSeg_data s (hclean s (List.mem_cons_self _ _))).1]
      exact hhead s rfl
  unfold stripBasePath
  rw [hsw]
  simp only [Bool.false_eq_true, if_false, hrel]
  rw [posixNormalize_clean rest hclean]
  cases rest with
  | nil => rfl
  | cons s rest' =>
    simp only [if_neg (by simp : ¬(s :: rest' = []))]
    have hs := canonicalSeg_data s (hclean s (List.mem_cons_self _ _))
    have hnomatch : ∀ u, (joinSegs (s :: rest')).data ≠ '.' :: '/' :: u := by
      intro u hc
      obtain ⟨c, cs, hcd⟩ : ∃ c cs, s.data = c :: cs := by
        rcases hsd : s.data with _ | ⟨c, cs⟩
        · exact absurd hsd hs.1
        · exact ⟨c, cs, rfl⟩
      have hdot : s ≠ "." := ((canonicalSeg_iff s).mp (hclean s (List.mem_cons_self _ _))).2.2.1
      cases rest' with
      | nil =>
        rw [show joinSegs [s] = s from rfl, hcd] at hc
        cases cs with
        | nil =>
          injection hc with h1 h2
          exact List.noConfusion h2
        | cons d cs' =>
          injection hc with h1 h2
          injection h2 with h3 h4
          exact hs.2 (by rw [hcd, h3]; exact List.mem_cons_of_mem _ (List.mem_cons_self _ _))
      | cons r rest'' =>
        rw [joinSegs_cons_data, hcd] at hc
        cases cs with
        | nil =>
          injection hc with h1 h2
          exact hdot (String.ext (by rw [hcd, h1]))
        | cons d cs' =>
          injection hc with h1 h2
          injection h2 with h3 h4
          exact hs.2 (by rw [hcd, h3]; exact List.mem_cons_of_mem _ (List.mem_cons_self _ _))
    rw [stripDotSlashes_eq_self _ hnomatch]

/-- The walk of a captured subtree produces exactly the expected records:
`readEntries` on the subtree sitting at segment path `p` below the walk base
succeeds with the `mkWalkRecord` list, provided names are canonical and no
first-level segment begins with the two-character string `..`. -/
theorem readEntries_spec (t : FsNode) : ∀ (p : List String) (cwd : String)
    (base : List String),
    (∀ x ∈ base, canonicalSeg x = true) →
    (∀ x ∈ p, canonicalSeg x = true) →
    wellFormedTree t = true →
    (p = [] → topNamesOk t = true) →
    (∀ s, p.head? = some s → strStartsWith s ".." = false) →
    readEntries cwd (absOf base) t (absOf (base ++ p)) = .ok (expectedRecords p t) := by
  induction t with
  | file d => intro p cwd base _ _ _ _ _; rfl
  | dirNil => intro p cwd base _ _ _ _ _; rfl
  | dirCons n c rest ihc ihrest =>
    intro p cwd base hbase hp hwf htop hhd
    simp only [wellFormedTree, Bool.and_eq_true] at hwf
    obtain ⟨⟨hn, hwfc⟩, hwfrest⟩ := hwf
    have htoprest : p = [] → topNamesOk rest = true := by
      intro hpe
      have h := htop hpe
      simp only [topNamesOk, Bool.and_eq_true] at h
      exact h.2
    have hndd : p = [] → strStartsWith n ".." = false := by
      intro hpe
      have h := htop hpe
      simp only [topNamesOk, Bool.and_eq_true, Bool.not_eq_true'] at h
      exact h.1
    have hhd2 : ∀ s, (p ++ [n]).head? = some s → strStartsWith s ".." = false := by
      intro s hs
      cases hpc : p with
      | nil =>
        rw [hpc] at hs
        simp only [List.nil_append, List.head?_cons] at hs
        rw [← Option.some.inj hs]
        exact hndd hpc
      | cons a p' =>
        rw [hpc] at hs
        simp only [List.cons_append, List.head?_cons] at hs
        refine hhd s ?_
        rw [hpc]
        simp only [List.head?_cons]
        exact hs
    have hres1 : resolveSegs cwd (absOf (base ++ p)) =
        resolveSegs cwd (absOf base) ++ p := by
      rw [resolveSegs_absOf cwd (base ++ p) (canonAll_append _ _ hbase hp),
        resolveSegs_absOf cwd base hbase]
    have hjoin : posixJoin (absOf (base ++ p)) n = absOf (base ++ (p ++ [n])) := by
      rw [posixJoin_absOf_seg (base ++ p) n (canonAll_append _ _ hbase hp) hn,
        List.append_assoc]
    cases c with
    | file d =>
      have hstrip1 : stripBasePath cwd (absOf (base ++ p)) (absOf base) =
          .ok (if p = [] then "." else joinSegs p) :=
        stripBasePath_under cwd _ _ p hres1 hhd
      have hstrip2 : stripBasePath cwd (posixJoin (absOf (base ++ p)) n) (absOf base) =
          .ok (joinSegs (p ++ [n])) := by
        rw [hjoin]
        have hu := stripBasePath_under cwd (absOf (base ++ (p ++ [n]))) (absOf base)
          (p ++ [n])
          (by rw [resolveSegs_absOf cwd _ (canonAll_append _ _ hbase
                (canonAll_append _ _ hp (canonAll_singleton n hn))),
              resolveSegs_absOf cwd base hbase])
          hhd2
        rw [hu, if_neg (by simp)]
      have hrest := ihrest p cwd base hbase hp hwfrest htoprest hhd
      simp only [readEntries, hstrip1, hstrip2, hrest, bind, Except.bind, pure, Except.pure]
      rfl
    | dirNil =>
      have hrest := ihrest p cwd base hbase hp hwfrest htoprest hhd
      have hsub := ihc (p ++ [n]) cwd base hbase
        (canonAll_append _ _ hp (canonAll_singleton n hn)) hwfc
        (by intro hc; exact absurd hc (by simp)) hhd2
      simp only [readEntries, hjoin, hsub, hrest, bind, Except.bind, pure, Except.pure]
      rfl
    | dirCons m c₀ r₀ =>
      have hrest := ihrest p cwd base hbase hp hwfrest htoprest hhd
      have hsub := ihc (p ++ [n]) cwd base hbase
        (canonAll_append _ _ hp (canonAll_singleton n hn)) hwfc
        (by intro hc; exact absurd hc (by simp)) hhd2
      simp only [readEntries, hjoin, hsub, hrest, bind, Except.bind, pure, Except.pure]
      rfl

/-- `readFiles` on the work directory containing the captured subtree. -/
theorem readFiles_w (cwd : String) (t : FsNode)
    (hch : chainOk t = true) (hwf : wellFormedTree t = true)
    (htop : topNamesOk t = true) :
    readFiles cwd (.dirCons "w" t .dirNil) "/w" "/w" = .ok (expectedRecords [] t) := by
  have hw : ∀ x ∈ (["w"] : List String), canonicalSeg x = true :=
    canonAll_singleton "w" (by decide)
  have hw0 : ("/w" : String) = absOf ["w"] := rfl
  rw [hw0]
  unfold readFiles
  rw [resolveSegs_absOf cwd ["w"] hw]
  have hlk : lookupNode (.dirCons "w" t .dirNil) ["w"] = .ok t := by
    simp [lookupNode, findEntry?]
  rw [hlk]
  cases t with
  | file d => exact absurd hch (by simp [chainOk])
  | dirNil =>
    simpa using readEntries_spec .dirNil [] cwd ["w"] hw (by simp) hwf (fun _ => htop)
      (fun s hs => Option.noConfusion hs)
  | dirCons m c r =>
    simpa using readEntries_spec (.dirCons m c r) [] cwd ["w"] hw (by simp) hwf
      (fun _ => htop) (fun s hs => Option.noConfusion hs)

/-- The `(path, data)` projection of the expected records is the file list of
the subtree, path-joined below the walk point. -/
theorem expectedRecords_pathData (t : FsNode) : ∀ p, chainOk t = true →
    (expectedRecords p t).map (fun f => (f.path, f.data)) =
      (filesOfNode t).map (fun sd => ("./" ++ joinSegs (p ++ sd.1), JsData.buffer sd.2)) := by
  induction t with
  | file d => intro p hch; exact absurd hch (by simp [chainOk])
  | dirNil => intro p _; rfl
  | dirCons n c rest ihc ihrest =>
    intro p hch
    rw [chainOk_cons, Bool.and_eq_true] at hch
    cases c with
    | file d =>
      simp only [expectedRecords, filesOfNode, List.map_cons, List.map_append,
        List.map_nil, List.nil_append, ihrest p hch.2]
      rfl
    | dirNil =>
      simp only [expectedRecords, filesOfNode, List.map_append, ihrest p hch.2,
        ihc (p ++ [n]) rfl]
      rfl
    | dirCons m c₀ r₀ =>
      have hc : chainOk (.dirCons m c₀ r₀) = true := hch.1
      show (expectedRecords (p ++ [n]) (.dirCons m c₀ r₀) ++ expectedRecords p rest).map _ = _
      rw [List.map_append, ihrest p hch.2, ihc (p ++ [n]) hc,
        show filesOfNode (.dirCons n (.dirCons m c₀ r₀) rest) =
          (filesOfNode (.dirCons m c₀ r₀)).map (fun sd => (n :: sd.1, sd.2)) ++
            filesOfNode rest from rfl,
        List.map_append, List.map_map]
      congr 1
      refine List.map_congr_left ?_
      intro sd _
      show ("./" ++ joinSegs ((p ++ [n]) ++ sd.1), JsData.buffer sd.2) = _
      rw [List.append_assoc]
      rfl

/-- Every expected record is a walk record with canonical fields. -/
theorem expectedRecords_mem (t : FsNode) : ∀ p f, wellFormedTree t = true →
    (∀ x ∈ p, canonicalSeg x = true) →
    f ∈ expectedRecords p t →
    ∃ p' d, (∀ x ∈ p', canonicalSeg x = true) ∧ canonicalSeg f.name = true ∧
      f = mkWalkRecord p' f.name d := by
  induction t with
  | file d => intro p f _ _ hf; exact absurd hf (by simp [expectedRecords])
  | dirNil => intro p f _ _ hf; exact absurd hf (by simp [expectedRecords])
  | dirCons n c rest ihc ihrest =>
    intro p f hwf hp hf
    simp only [wellFormedTree, Bool.and_eq_true] at hwf
    obtain ⟨⟨hn, hwfc⟩, hwfrest⟩ := hwf
    cases c with
    | file d =>
      simp only [expectedRecords, List.mem_cons] at hf
      rcases hf with hf | hf
      · subst hf
        exact ⟨p, d, hp, hn, rfl⟩
      · exact ihrest p f hwfrest hp hf
    | dirNil =>
      simp only [expectedRecords, List.mem_append] at hf
      rcases hf with hf | hf
      · exact ihc (p ++ [n]) f hwfc
          (canonAll_append _ _ hp (canonAll_singleton n hn)) hf
      · exact ihrest p f hwfrest hp hf
    | dirCons m c₀ r₀ =>
      simp only [expectedRecords, List.mem_append] at hf
      rcases hf with hf | hf
      · exact ihc (p ++ [n]) f hwfc
          (canonAll_append _ _ hp (canonAll_singleton n hn)) hf
      · exact ihrest p f hwfrest hp hf

/-! ## Claim C9: the records built by `readFiles` -/

/-- C9, counterexample.  A file directly at the walk root: the code computes
`parentPath` as `"./" + stripBasePath(dir, dir)` and `stripBasePath` of a
path against itself is `"."` (from `posix.normalize("")`), so the root
parent path is the three-character string `"./."` — not `"./"` as the claim
states. -/
theorem readFiles_rootParent_counterexample :
    readFiles "/" (.dirCons "w" (.dirCons "a" (.file [104]) .dirNil) .dirNil) "/w" "/w" =
      .ok [{ name := "a", parentPath := "./.", path := "./a",
             data := .buffer [104], options := none }] ∧
    ("./." : String) ≠ "./" := by
  exact ⟨by decide, by decide⟩

/-- C9, amended.  Every record a successful walk of a well-formed directory
builds is a walk record: its `path` is `./` followed by the slash-joined
canonical segments, its `parentPath` has no trailing slash away from the
root, and `path` is derivable from `parentPath` and `name` up to POSIX
normalization (`join(parentPath, name)` equals `normalize(path)`).  At the
walk root, however, `parentPath` is exactly `"./."`, not `"./"` as claimed,
because the code prepends `"./"` to the relative path `"."`. -/
theorem readFiles_record_fields (cwd : String) (t : FsNode)
    (hch : chainOk t = true) (hwf : wellFormedTree t = true)
    (htop : topNamesOk t = true) :
    ∃ out, readFiles cwd (.dirCons "w" t .dirNil) "/w" "/w" = .ok out ∧
      ∀ f ∈ out, ∃ p d,
        (∀ x ∈ p, canonicalSeg x = true) ∧ canonicalSeg f.name = true ∧
        f = mkWalkRecord p f.name d ∧
        (p = [] → f.parentPath = "./.") ∧
        (p ≠ [] → f.parentPath = "./" ++ joinSegs p ∧
          endsWithSlash f.parentPath = false) ∧
        posixJoin f.parentPath f.name = posixNormalize f.path := by
  refine ⟨expectedRecords [] t, readFiles_w cwd t hch hwf htop, ?_⟩
  intro f hf
  obtain ⟨p, d, hpc, hn, hrec⟩ := expectedRecords_mem t [] f hwf (by simp) hf
  refine ⟨p, d, hpc, hn, hrec, ?_, ?_, ?_⟩
  · intro hpe
    subst hpe
    rw [hrec]
    rfl
  · intro hpne
    constructor
    · rw [hrec]
      show "./" ++ (if p = [] then "." else joinSegs p) = _
      rw [if_neg hpne]
    · rw [hrec]
      show endsWithSlash ("./" ++ (if p = [] then "." else joinSegs p)) = false
      rw [if_neg hpne,
        endsWithSlash_append_right "./" (joinSegs p) (joinSegs_data_ne_nil p hpne hpc)]
      exact endsWithSlash_joinSegs p hpne hpc
  · rw [hrec]
    show posixJoin ("./" ++ (if p = [] then "." else joinSegs p)) f.name =
      posixNormalize ("./" ++ joinSegs (p ++ [f.name]))
    rw [posixJoin_walkParent p f.name hpc hn,
      posixNormalize_dotSlash_join (p ++ [f.name])
        (canonAll_append _ _ hpc (canonAll_singleton f.name hn)) (by simp)]

/-- C9 witness: the amended theorem applied to a one-file directory. -/
theorem readFiles_record_fields_witness :
    chainOk (.dirCons "a" (.file [104]) .dirNil) = true ∧
    wellFormedTree (.dirCons "a" (.file [104]) .dirNil) = true ∧
    topNamesOk (.dirCons "a" (.file [104]) .dirNil) = true ∧
    (∃ out, readFiles "/" (.dirCons "w" (.dirCons "a" (.file [104]) .dirNil) .dirNil)
        "/w" "/w" = .ok out ∧
      ∀ f ∈ out, ∃ p d,
        (∀ x ∈ p, canonicalSeg x = true) ∧ canonicalSeg f.name = true ∧
        f = mkWalkRecord p f.name d ∧
        (p = [] → f.parentPath = "./.") ∧
        (p ≠ [] → f.parentPath = "./" ++ joinSegs p ∧
          endsWithSlash f.parentPath = false) ∧
        posixJoin f.parentPath f.name = posixNormalize f.path) :=
  ⟨by decide, by decide, by decide,
    readFiles_record_fields "/" (.dirCons "a" (.file [104]) .dirNil)
      (by decide) (by decide) (by decide)⟩

/-! ## Claim C8: the write-then-walk round trip -/

/-- C8, counterexample.  A single record named `..a` directly under the work
directory: its target path is unique and the write succeeds (the returned
digest is the record's fingerprint stream), but walking the directory
afterwards fails with the path-escape error, because `stripBasePath` tests
the two-character string prefix `".."` of the relative path `..a`.  The
claimed round trip does not even produce a file-set. -/
theorem writeFiles_dotdotName_counterexample :
    writeFiles "/" (.dirCons "w" .dirNil .dirNil) "/w"
        [{ name := "..a", parentPath := "./", path := "./..a",
           data := .buffer [104], options := none }] =
      (.dirCons "w" (.dirCons "..a" (.file [104]) .dirNil) .dirNil,
        .ok [46, 47, 58, 46, 46, 97, 58, 104, 10]) ∧
    wellFormedFile { name := "..a", parentPath := "./", path := "./..a",
                     data := .buffer [104], options := none } = true ∧
    readFiles "/" (.dirCons "w" (.dirCons "..a" (.file [104]) .dirNil) .dirNil)
        "/w" "/w" = .error (.pathEscape "/w/..a" "/w") := by
  exact ⟨by decide, by decide, by decide⟩

/-- C8, amended.  For well-formed records whose targets are pairwise
incomparable under the prefix order (in particular pairwise distinct — a
target that is a directory prefix of another target makes the write itself
fail) and whose first target segment does not begin with the two-character
string `..` (such names make the subsequent walk throw the path-escape
error), writing into the fresh empty work directory `/w` succeeds with the
record fingerprint, and walking the directory afterwards yields a file-set
with exactly the original `(path, data)` pairs, up to order. -/
theorem writeFiles_readFiles_roundTrip (cwd : String) (files : List File)
    (hwfAll : ∀ f ∈ files, wellFormedFile f = true)
    (hpair : List.Pairwise
      (fun f g => ¬ relTarget f <+: relTarget g ∧ ¬ relTarget g <+: relTarget f) files)
    (hdd : ∀ f ∈ files, ∀ s, (relTarget f).head? = some s →
      strStartsWith s ".." = false) :
    ∃ root' h out,
      writeFiles cwd (.dirCons "w" .dirNil .dirNil) "/w" files = (root', .ok h) ∧
      computeMetaHash files = .ok h ∧
      readFiles cwd root' "/w" "/w" = .ok out ∧
      (out.map (fun f => (f.path, f.data))).Perm
        (files.map (fun f => (f.path, f.data))) := by
  obtain ⟨t', h, hwrite, hmeta, hch, hwf, hfiles, htopImp⟩ :=
    writeFiles_w cwd files hwfAll hpair
  have htop := htopImp hdd
  refine ⟨.dirCons "w" t' .dirNil, h, expectedRecords [] t', hwrite, hmeta,
    readFiles_w cwd t' hch hwf htop, ?_⟩
  rw [expectedRecords_pathData t' [] hch]
  refine (hfiles.map (fun sd => ("./" ++ joinSegs ([] ++ sd.1), JsData.buffer sd.2))).trans
    ?_
  rw [List.map_map]
  have he : files.map ((fun sd => ("./" ++ joinSegs ([] ++ sd.1), JsData.buffer sd.2)) ∘
      (fun f => (relTarget f, bufferBytes f))) =
      files.map (fun f => (f.path, f.data)) := by
    refine List.map_congr_left ?_
    intro f hf
    obtain ⟨p, bs, hpp, hn, hpath, hdata⟩ := wellFormedFile_unpack f (hwfAll f hf)
    show ("./" ++ joinSegs ([] ++ relTarget f), JsData.buffer (bufferBytes f)) =
      (f.path, f.data)
    have h1 : relTarget f = p ++ [f.name] := by
      unfold relTarget
      rw [hpp]
    have h2 : bufferBytes f = bs := by
      unfold bufferBytes
      rw [hdata]
    rw [hpath, hdata, h1, h2]
    rfl
  rw [he]

/-- C8 witness: the amended round trip applied to a one-record file-set. -/
theorem writeFiles_readFiles_roundTrip_witness :
    (∀ f ∈ [({ name := "a.txt", parentPath := "./", path := "./a.txt",
               data := .buffer [104, 105], options := none } : File)],
      wellFormedFile f = true) ∧
    List.Pairwise
      (fun f g => ¬ relTarget f <+: relTarget g ∧ ¬ relTarget g <+: relTarget f)
      [({ name := "a.txt", parentPath := "./", path := "./a.txt",
          data := .buffer [104, 105], options := none } : File)] ∧
    (∀ f ∈ [({ name := "a.txt", parentPath := "./", path := "./a.txt",
               data := .buffer [104, 105], options := none } : File)],
      ∀ s, (relTarget f).head? = some s → strStartsWith s ".." = false) ∧
    (∃ root' h out,
      writeFiles "/" (.dirCons "w" .dirNil .dirNil) "/w"
          [({ name := "a.txt", parentPath := "./", path := "./a.txt",
              data := .buffer [104, 105], options := none } : File)] = (root', .ok h) ∧
      computeMetaHash
          [({ name := "a.txt", parentPath := "./", path := "./a.txt",
              data := .buffer [104, 105], options := none } : File)] = .ok h ∧
      readFiles "/" root' "/w" "/w" = .ok out ∧
      (out.map (fun f => (f.path, f.data))).Perm
        ([({ name := "a.txt", parentPath := "./", path := "./a.txt",
             data := .buffer [104, 105], options := none } : File)].map
          (fun f => (f.path, f.data)))) := by
  refine ⟨by decide, by simp, ?_, ?_⟩
  · intro f hf s hs
    simp only [List.mem_singleton] at hf
    subst hf
    rw [show (relTarget ({ name := "a.txt", parentPath := "./", path := "./a.txt",
                           data := .buffer [104, 105], options := none } : File)).head? =
        some "a.txt" from by decide] at hs
    rw [← Option.some.inj hs]
    decide
  · refine writeFiles_readFiles_roundTrip "/" _ (by decide) (by simp) ?_
    intro f hf s hs
    simp only [List.mem_singleton] at hf
    subst hf
    rw [show (relTarget ({ name := "a.txt", parentPath := "./", path := "./a.txt",
                           data := .buffer [104, 105], options := none } : File)).head? =
        some "a.txt" from by decide] at hs
    rw [← Option.some.inj hs]
    decide
